import Mathlib

/-!
Verification of the incremental asset-packing engine
(`src/assets_cache.rs`, `src/lib.rs`): a shallow embedding of the cache
entry lifecycle (`create` / `update`), the recursive cache-manifest
evaluator (`process`, `process_public_assets`) and the `pack` entry
point, together with theorems settling the specification claims.

Modelling conventions:
* Rust `PathBuf` values are `RPath`: a root flag plus the list of normal
  components (Rust's `Components` view, in which `.` segments survive
  only at the head of a relative path).  Path equality in Rust compares
  this component view, which structural equality on `RPath` mirrors.
* Strings are `List Char`, file bytes are `List Nat`.
* The filesystem is an association list from absolute path to bytes;
  `copy` is read-then-write, `create_dir_all` has no observable effect
  in this flat model, `remove_file` deletes the key.
* Mutable state (`HashMap` cache, filesystem, the UUID source) is
  threaded explicitly: every engine function returns its result
  together with the final state, mirroring the fact that the Rust
  mutations persist when an `Err` is returned.
* `Uuid::new_v4()` is an environment-supplied stream `uuidGen : Nat →
  List Char` sampled at an ever-increasing counter; `blake3::hash` is an
  environment-supplied function `hashFn : Bytes → Bytes`.
* The unbounded Rust recursion is embedded with fuel; exhausting the
  fuel yields the marker error `outOfFuel`, which the Rust code never
  returns (it diverges instead, on the cyclic manifests the spec
  excludes).
-/

namespace ArtushakWebAssets

abbrev Name := List Char
abbrev Bytes := List Nat

/-- The component `.` as a character list. -/
def dotC : List Char := ['.']

/-- The component `..` as a character list. -/
def dotdotC : List Char := ['.', '.']

/-- A Rust path, as its component view: an optional root plus the
sequence of components. -/
structure RPath where
  root : Bool
  components : List (List Char)
deriving DecidableEq

/-- Rust `Path::has_root`. -/
def RPath.hasRoot (p : RPath) : Bool := p.root

/-- Split a character list at `/` separators. -/
def splitSlash (acc : List Char) : List Char → List (List Char)
  | [] => [acc.reverse]
  | c :: rest =>
    if c = '/' then acc.reverse :: splitSlash [] rest
    else splitSlash (c :: acc) rest

/-- Component normalization of Rust's `Path::components`: empty
segments vanish, and `.` segments vanish except at the head of a
relative path. -/
def normalizeParts (root : Bool) (parts : List (List Char)) : List (List Char) :=
  match parts with
  | [] => []
  | p :: rest =>
    if p = dotC ∧ ¬ root then p :: rest.filter (fun c => decide (c ≠ dotC))
    else (p :: rest).filter (fun c => decide (c ≠ dotC))

/-- Rust `Path::new` on a string: parse into the component view. -/
def parsePath (s : List Char) : RPath :=
  let root := decide (s.head? = some '/')
  let parts := (splitSlash [] s).filter (fun c => decide (c ≠ []))
  ⟨root, normalizeParts root parts⟩

/-- Rust `Path::join`: an absolute argument replaces the receiver,
otherwise the components are appended (a leading `.` of the argument is
no longer at the head of a relative path and vanishes from the
component view). -/
def RPath.join (a b : RPath) : RPath :=
  if b.root then b
  else if a.root ∨ a.components ≠ [] then
    ⟨a.root, a.components ++ b.components.filter (fun c => decide (c ≠ dotC))⟩
  else b

/-- Split a character list at its first `.`: `some (before, after)`
when a dot exists. -/
def splitFirstDot : List Char → Option (List Char × List Char)
  | [] => none
  | c :: rest =>
    if c = '.' then some ([], rest)
    else
      match splitFirstDot rest with
      | some (pre, post) => some (c :: pre, post)
      | none => none

/-- Rust's `file_stem` / `extension` split of a file name: the portion
after the last dot is the extension, unless there is no dot, the only
dot is leading, or the name is `..`. -/
def fileStemExt (f : List Char) : List Char × Option (List Char) :=
  if f = dotdotC then (f, none)
  else
    match splitFirstDot f.reverse with
    | none => (f, none)
    | some (extRev, stemRev) =>
      if stemRev = [] then (f, none)
      else (stemRev.reverse, some extRev.reverse)

/-- Rust `Path::with_extension`: replace the extension of the final
component (a no-op when the path has no file name). -/
def RPath.withExtension (p : RPath) (ext : List Char) : RPath :=
  match p.components.getLast? with
  | none => p
  | some f =>
    if f = dotdotC ∨ f = dotC then p
    else
      let stem := (fileStemExt f).1
      let nf := if ext = [] then stem else stem ++ '.' :: ext
      ⟨p.root, p.components.dropLast ++ [nf]⟩

/-- Modelled from the spec: lexical dot-segment resolution (spec §4.1,
standing in for the `path-dedot` crate's `parse_dot`, whose source is
not part of this repository).  `.` segments vanish; `..` pops a
preceding normal component; a `..` that cannot pop stays when the path
is relative and vanishes at a root. -/
def dedotAux (root : Bool) (acc : List (List Char)) : List (List Char) → List (List Char)
  | [] => acc.reverse
  | c :: rest =>
    if c = dotC then dedotAux root acc rest
    else if c = dotdotC then
      match acc with
      | [] => if root then dedotAux root [] rest else dedotAux root [c] rest
      | a :: acc2 =>
        if a = dotdotC then dedotAux root (c :: a :: acc2) rest
        else dedotAux root acc2 rest
    else dedotAux root (c :: acc) rest

/-- Modelled from the spec: the lexically normalized form of a path
(spec §4.1). -/
def RPath.parseDot (p : RPath) : RPath := ⟨p.root, dedotAux p.root [] p.components⟩

/-- Rust `path.starts_with("..")`: the first component is `..` (an
absolute path starts with the root component instead). -/
def RPath.startsWithDotDot (p : RPath) : Bool :=
  !p.root && decide (p.components.head? = some dotdotC)

/-- The path-safety test of `AssetCacheEntry::create` and
`process_public_assets`: `has_root() || parse_dot().starts_with("..")`. -/
def pathBad (p : RPath) : Bool := p.hasRoot || p.parseDot.startsWithDotDot

/-- The output-path composition of `AssetCacheEntry::create`
(assets_cache.rs lines 49-56): join `output_base_path` (when present)
with `{name}-{uuid}` and stamp the extension with `with_extension`. -/
def composeOutputPath (basePath : Option RPath) (nm uuid ext : List Char) : RPath :=
  let fname := nm ++ '-' :: uuid
  match basePath with
  | some bp => (bp.join (parsePath fname)).withExtension ext
  | none => (parsePath fname).withExtension ext

/-! ## Data model (assets.rs, asset_filter.rs, asset_config.rs) -/

/-- `AssetFilterOption` from asset_filter.rs. -/
inductive AssetFilterOption where
  | flag
  | bool (b : Bool)
  | string (s : List Char)
  | stringList (l : List (List Char))
deriving DecidableEq

/-- `AssetFiltered` from assets.rs. -/
structure AssetFiltered where
  filter_name : Name
  input_names : List Name
  options : List (List Char × AssetFilterOption)
deriving DecidableEq

/-- `AssetSource` from assets.rs. -/
inductive AssetSource where
  | file (p : RPath)
  | filtered (f : AssetFiltered)
deriving DecidableEq

/-- `AssetData` from assets.rs. -/
structure AssetData where
  output_base_path : Option RPath
  extension : List Char
  source : AssetSource
deriving DecidableEq

/-- `AssetManifest` from assets.rs (the `assets` map as an association
list). -/
structure AssetManifest where
  assets : List (Name × AssetData)
  public_assets : List Name

/-- `AssetCacheEntry` from assets_cache.rs; `file_hash` holds the hash
value. -/
structure AssetCacheEntry where
  name : Name
  data : AssetData
  path : RPath
  file_hash : Option Bytes
deriving DecidableEq

/-- `AssetErrorType` from assets.rs, with `AssetPathError` as used by
assets_cache.rs.  `ioError` carries the path of the failing filesystem
operation; `outOfFuel` is the embedding's marker for the divergence of
the unbounded Rust recursion. -/
inductive AssetErrorType where
  | ioError (p : RPath)
  | jsonError
  | filterError (e : List Char)
  | assetFilterNotFoundError (nm : Name)
  | assetNotFoundInManifestError (nm : Name)
  | assetPathError (p : RPath)
  | outOfFuel
deriving DecidableEq

instance {ε α : Type} [DecidableEq ε] [DecidableEq α] : DecidableEq (Except ε α)
  | .ok x, .ok y =>
    if h : x = y then .isTrue (h ▸ rfl) else .isFalse (fun hc => h (Except.ok.inj hc))
  | .ok _, .error _ => .isFalse (fun hc => Except.noConfusion hc)
  | .error _, .ok _ => .isFalse (fun hc => Except.noConfusion hc)
  | .error x, .error y =>
    if h : x = y then .isTrue (h ▸ rfl) else .isFalse (fun hc => h (Except.error.inj hc))

/-- `AssetConfig` from asset_config.rs. -/
structure AssetConfig where
  target_directory_path : RPath
  internal_directory_path : RPath
  source_directory_path : RPath

/-- A filter capability (asset_filter.rs): from the input files' bytes
and the options to the output file's bytes, or a filter error. -/
abbrev FilterFun := List Bytes → List (List Char × AssetFilterOption) → Except (List Char) Bytes

/-- The read-only environment of a `pack` run: configuration, manifest,
filter registry, hash function and UUID stream. -/
structure Env where
  config : AssetConfig
  manifest : AssetManifest
  filters : List (Name × FilterFun)
  hashFn : Bytes → Bytes
  uuidGen : Nat → List Char

/-- The mutable state of a run: the filesystem, the cache map of
`AssetCacheManifestV1`, and the position in the UUID stream. -/
structure PackState where
  fs : List (RPath × Bytes)
  cache : List (Name × AssetCacheEntry)
  uuidCount : Nat
deriving DecidableEq

/-! ## Association-list primitives (the `HashMap` operations used) -/

/-- Lookup in an association list (`HashMap::get`). -/
def alookup {κ α : Type} [DecidableEq κ] : List (κ × α) → κ → Option α
  | [], _ => none
  | (k, v) :: t, q => if q = k then some v else alookup t q

/-- Insert into an association list (`HashMap::insert`), replacing in
place. -/
def ainsert {κ α : Type} [DecidableEq κ] : List (κ × α) → κ → α → List (κ × α)
  | [], q, v => [(q, v)]
  | (k, w) :: t, q, v => if q = k then (q, v) :: t else (k, w) :: ainsert t q v

/-- Remove a key from an association list (`remove_file`). -/
def aerase {κ α : Type} [DecidableEq κ] : List (κ × α) → κ → List (κ × α)
  | [], _ => []
  | (k, w) :: t, q => if q = k then t else (k, w) :: aerase t q

/-- `Path::exists` on the modelled filesystem. -/
def fsExists (st : PackState) (p : RPath) : Bool := (alookup st.fs p).isSome

/-- Write a file (the write half of `copy`, or a filter's output). -/
def fsWrite (st : PackState) (p : RPath) (b : Bytes) : PackState :=
  { st with fs := ainsert st.fs p b }

/-- `remove_file`. -/
def fsRemove (st : PackState) (p : RPath) : PackState :=
  { st with fs := aerase st.fs p }

/-- Read every input file for a filter invocation (the filter's own
reads in `process_asset_file`); a missing file is an I/O error. -/
def readInputFiles (st : PackState) : List RPath → Except AssetErrorType (List Bytes)
  | [] => .ok []
  | p :: rest =>
    match alookup st.fs p with
    | none => .error (.ioError p)
    | some b => (readInputFiles st rest).map (fun l => b :: l)

/-! ## The engine (assets_cache.rs)

The Rust functions recurse without bound (terminating on the acyclic
manifests the spec admits); the embedding bounds the recursion with
fuel, decremented exactly when `process` re-enters.  To keep every
definition computable by the kernel, the bodies are factored over the
`process` function of the next-lower fuel: `createFrom proc` is the
body of `AssetCacheEntry::create` with `proc` as the recursive
evaluator, and `create fuel = createFrom (process fuel)`, so that
`process (fuel+1)` calls `create fuel`, which calls `process fuel`
for the inputs — the call structure of the Rust source. -/

abbrev ProcessFun :=
  Env → Name → PackState → Except AssetErrorType (AssetCacheEntry × Bool) × PackState

/-- The input loop of `create`'s `Filtered` arm (assets_cache.rs lines
77-88): process each input in order and collect its full intermediate
path. -/
def collectFrom (proc : ProcessFun) (env : Env) : List Name → PackState →
    Except AssetErrorType (List RPath) × PackState
  | [], st => (.ok [], st)
  | nm :: rest, st =>
    match proc env nm st with
    | (.ok (entry, _), st1) =>
      match collectFrom proc env rest st1 with
      | (.ok paths, st2) =>
        (.ok (env.config.internal_directory_path.join entry.path :: paths), st2)
      | (.error e, st2) => (.error e, st2)
    | (.error e, st1) => (.error e, st1)

/-- `AssetCacheEntry::create` (assets_cache.rs lines 29-113), with the
recursive evaluator abstracted. -/
def createFrom (proc : ProcessFun) (env : Env) (nm : Name) (st : PackState) :
    Except AssetErrorType AssetCacheEntry × PackState :=
  match alookup env.manifest.assets nm with
  | none => (.error (.assetNotFoundInManifestError nm), st)
  | some data =>
    let uuid := env.uuidGen st.uuidCount
    let st1 : PackState := { st with uuidCount := st.uuidCount + 1 }
    let outputPath := composeOutputPath data.output_base_path nm uuid data.extension
    if pathBad outputPath then (.error (.assetPathError outputPath), st1)
    else
      let outputFullPath := env.config.internal_directory_path.join outputPath
      match data.source with
      | .file filePath =>
        let sourceFullPath := env.config.source_directory_path.join filePath
        match alookup st1.fs sourceFullPath with
        | none => (.error (.ioError sourceFullPath), st1)
        | some b =>
          let st2 := fsWrite st1 outputFullPath b
          match alookup st2.fs outputFullPath with
          | none => (.error (.ioError outputFullPath), st2)
          | some b2 =>
            (.ok { name := nm, data := data, path := outputPath,
                   file_hash := some (env.hashFn b2) }, st2)
      | .filtered ftd =>
        match collectFrom proc env ftd.input_names st1 with
        | (.error e, st2) => (.error e, st2)
        | (.ok inputFullPaths, st2) =>
          match alookup env.filters ftd.filter_name with
          | none => (.error (.assetFilterNotFoundError ftd.filter_name), st2)
          | some filterFn =>
            match readInputFiles st2 inputFullPaths with
            | .error e => (.error e, st2)
            | .ok inputsBytes =>
              match filterFn inputsBytes ftd.options with
              | .error e => (.error (.filterError e), st2)
              | .ok outBytes =>
                (.ok { name := nm, data := data, path := outputPath, file_hash := none },
                 fsWrite st2 outputFullPath outBytes)

/-- The freshness loop of `update`'s `Filtered` arm (assets_cache.rs
lines 153-169): process the inputs in order, short-circuiting at the
first that reports `changed = true`. -/
def hasUpdatedFrom (proc : ProcessFun) (env : Env) : List Name → PackState →
    Except AssetErrorType Bool × PackState
  | [], st => (.ok false, st)
  | nm :: rest, st =>
    match proc env nm st with
    | (.error e, st1) => (.error e, st1)
    | (.ok (_, changed), st1) =>
      if changed then (.ok true, st1)
      else hasUpdatedFrom proc env rest st1

/-- The `need_update` computation of `AssetCacheEntry::update`
(assets_cache.rs lines 137-171): stale when the manifest data differs
or the intermediate file is missing; otherwise compare the source hash
(`File`) or recursively look for a changed input (`Filtered`). -/
def needCheckFrom (proc : ProcessFun) (env : Env) (self : AssetCacheEntry) (newData : AssetData)
    (st : PackState) : Except AssetErrorType Bool × PackState :=
  if newData ≠ self.data ∨ ¬ fsExists st (env.config.internal_directory_path.join self.path) then
    (.ok true, st)
  else
    match self.data.source with
    | .file p =>
      let sfull := env.config.source_directory_path.join p
      match alookup st.fs sfull with
      | none => (.error (.ioError sfull), st)
      | some b =>
        match self.file_hash with
        | some h => (.ok (decide (env.hashFn b ≠ h)), st)
        | none => (.ok true, st)
    | .filtered ftd => hasUpdatedFrom proc env ftd.input_names st

/-- `AssetCacheEntry::update` (assets_cache.rs lines 115-194), with the
recursive evaluator abstracted. -/
def updateFrom (proc : ProcessFun) (env : Env) (self : AssetCacheEntry) (st : PackState) :
    Except AssetErrorType (Option AssetCacheEntry) × PackState :=
  match alookup env.manifest.assets self.name with
  | none => (.error (.assetNotFoundInManifestError self.name), st)
  | some newData =>
    let fullPath := env.config.internal_directory_path.join self.path
    match needCheckFrom proc env self newData st with
    | (.error e, st1) => (.error e, st1)
    | (.ok false, st1) => (.ok none, st1)
    | (.ok true, st1) =>
      let st2 := if fsExists st1 fullPath then fsRemove st1 fullPath else st1
      let targetFullPath := env.config.target_directory_path.join self.path
      let st3 := if fsExists st2 targetFullPath then fsRemove st2 targetFullPath else st2
      match createFrom proc env self.name st3 with
      | (.ok entry, st4) => (.ok (some entry), st4)
      | (.error e, st4) => (.error e, st4)

/-- `AssetCacheManifestV1::process` (assets_cache.rs lines 215-246). -/
def process : Nat → ProcessFun
  | 0 => fun _ _ st => (.error .outOfFuel, st)
  | f + 1 => fun env nm st =>
    match alookup st.cache nm with
    | some entry =>
      match updateFrom (process f) env entry st with
      | (.ok (some entryNew), st1) =>
        (.ok (entryNew, true), { st1 with cache := ainsert st1.cache nm entryNew })
      | (.ok none, st1) => (.ok (entry, false), st1)
      | (.error e, st1) => (.error e, st1)
    | none =>
      match createFrom (process f) env nm st with
      | (.ok entry, st1) => (.ok (entry, true), { st1 with cache := ainsert st1.cache nm entry })
      | (.error e, st1) => (.error e, st1)

/-- `AssetCacheEntry::create` at a fuel level. -/
def create (fuel : Nat) (env : Env) (nm : Name) (st : PackState) :
    Except AssetErrorType AssetCacheEntry × PackState :=
  createFrom (process fuel) env nm st

/-- `AssetCacheEntry::update` at a fuel level. -/
def update (fuel : Nat) (env : Env) (self : AssetCacheEntry) (st : PackState) :
    Except AssetErrorType (Option AssetCacheEntry) × PackState :=
  updateFrom (process fuel) env self st

/-- The input-collection loop of `create` at a fuel level. -/
def collectInputPaths (fuel : Nat) (env : Env) (names : List Name) (st : PackState) :
    Except AssetErrorType (List RPath) × PackState :=
  collectFrom (process fuel) env names st

/-- The freshness loop of `update` at a fuel level. -/
def hasUpdatedInputs (fuel : Nat) (env : Env) (names : List Name) (st : PackState) :
    Except AssetErrorType Bool × PackState :=
  hasUpdatedFrom (process fuel) env names st

/-- The `need_update` computation of `update` at a fuel level. -/
def needUpdateCheck (fuel : Nat) (env : Env) (self : AssetCacheEntry) (newData : AssetData)
    (st : PackState) : Except AssetErrorType Bool × PackState :=
  needCheckFrom (process fuel) env self newData st

/-- `AssetCacheManifestV1::process_public_assets` (assets_cache.rs
lines 248-280), as the loop over the remaining public-asset names. -/
def processPublicAssets (fuel : Nat) (env : Env) (names : List Name) (st : PackState) :
    Except AssetErrorType Unit × PackState :=
  match names with
  | [] => (.ok (), st)
  | nm :: rest =>
    match process fuel env nm st with
    | (.error e, st1) => (.error e, st1)
    | (.ok (entry, _), st1) =>
      let sourceFullPath := env.config.internal_directory_path.join entry.path
      let outputFullPath := env.config.target_directory_path.join entry.path
      if pathBad entry.path then (.error (.assetPathError entry.path), st1)
      else
        match alookup st1.fs sourceFullPath with
        | none => (.error (.ioError sourceFullPath), st1)
        | some b => processPublicAssets fuel env rest (fsWrite st1 outputFullPath b)

/-- The outcome of `pack`: the processing result, the final state, and
the cache map serialized to the cache-manifest file. -/
structure PackOutcome where
  result : Except AssetErrorType Unit
  state : PackState
  persistedCache : List (Name × AssetCacheEntry)
deriving DecidableEq

/-- `pack` (lib.rs lines 36-81), beyond the serialization layer the
spec scopes out: run `process_public_assets` on the loaded manifest and
cache, write the resulting cache map to the cache-manifest file
unconditionally, and return the processing result. -/
def pack (fuel : Nat) (env : Env) (st : PackState) : PackOutcome :=
  match processPublicAssets fuel env env.manifest.public_assets st with
  | (r, st1) => { result := r, state := st1, persistedCache := st1.cache }

/-- No `Filtered` asset of the manifest lists `nm` among its inputs. -/
def ManifestAvoids (env : Env) (nm : Name) : Prop :=
  ∀ k d ftd, alookup env.manifest.assets k = some d → d.source = .filtered ftd →
    nm ∉ ftd.input_names

/-- No cache entry's stored data lists `nm` among its inputs. -/
def CacheAvoids (st : PackState) (nm : Name) : Prop :=
  ∀ k e ftd, alookup st.cache k = some e → e.data.source = .filtered ftd →
    nm ∉ ftd.input_names

/-- Invariant I1 of the spec (section 3): the entry stored at a key
carries that key as its `name`. -/
def cacheNamesConsistent (st : PackState) : Prop :=
  ∀ k e, alookup st.cache k = some e → e.name = k

/-- Boolean form of the no-self-reference side conditions: the source
does not list `nm` among its inputs. -/
def sourceAvoids (s : AssetSource) (nm : Name) : Bool :=
  match s with
  | .file _ => true
  | .filtered ftd => decide (nm ∉ ftd.input_names)

/-! ## Concrete fixtures (used by the witnesses)

A small instance of the repository's own test scenario: `File` assets
`a` and `b`, a `Filtered` asset `o` concatenating `a` through the
filter `F` (the shape of the test suite's `TestCat` filter), with the
identity as the hash function and the stream `u`, `uu`, `uuu`, … as the
UUID source. -/

def wUuid : Nat → List Char := fun n => List.replicate (n + 1) 'u'

def wDirT : RPath := ⟨false, [['t', 'g', 't']]⟩

def wDirI : RPath := ⟨false, [['i', 'n', 't']]⟩

def wDirS : RPath := ⟨false, [['s', 'r', 'c']]⟩

def wConfig : AssetConfig := ⟨wDirT, wDirI, wDirS⟩

def wNameA : Name := ['a']

def wNameB : Name := ['b']

def wNameOut : Name := ['o']

def wNameZ : Name := ['z']

def wSrcA : RPath := ⟨false, [['a']]⟩

def wSrcB : RPath := ⟨false, [['b']]⟩

def wDataA : AssetData := { output_base_path := none, extension := ['t'], source := .file wSrcA }

def wDataB : AssetData := { output_base_path := none, extension := ['t'], source := .file wSrcB }

def wDataOut : AssetData :=
  { output_base_path := none, extension := ['t'],
    source := .filtered ⟨['F'], [wNameA], []⟩ }

def wCat : FilterFun := fun inputs _ => .ok inputs.flatten

def wManifest : AssetManifest :=
  { assets := [(wNameA, wDataA), (wNameB, wDataB), (wNameOut, wDataOut)],
    public_assets := [wNameOut] }

def wEnv : Env :=
  { config := wConfig, manifest := wManifest, filters := [(['F'], wCat)],
    hashFn := fun b => b, uuidGen := wUuid }

def wFs0 : List (RPath × Bytes) := [(wDirS.join wSrcA, [1, 2]), (wDirS.join wSrcB, [3])]

def wSt0 : PackState := { fs := wFs0, cache := [], uuidCount := 0 }

/-- An asset whose `output_base_path` escapes upward (Scenario E). -/
def wDataBad : AssetData :=
  { output_base_path := some ⟨false, [dotdotC]⟩, extension := ['t'], source := .file wSrcA }

def wEnvBad : Env :=
  { wEnv with manifest := { assets := [(wNameA, wDataBad)], public_assets := [wNameA] } }

/-- A manifest whose public list fails at its second name (`z` is not
an asset). -/
def wEnvC5 : Env :=
  { wEnv with manifest := { assets := [(wNameA, wDataA)], public_assets := [wNameA, wNameZ] } }

/-- The path allocated for `a` at UUID index 0: `a-u.t`. -/
def wPathA : RPath := composeOutputPath none wNameA (wUuid 0) ['t']

def wEntryA : AssetCacheEntry :=
  { name := wNameA, data := wDataA, path := wPathA, file_hash := some [1, 2] }

/-- A state in which `a` has been built and is fresh. -/
def wStFresh : PackState :=
  { fs := wFs0 ++ [(wDirI.join wPathA, [1, 2])], cache := [(wNameA, wEntryA)], uuidCount := 1 }

/-- A cache entry for `a` whose stored data disagrees with the
manifest (a manifest edit happened). -/
def wEntryStale : AssetCacheEntry :=
  { name := wNameA, data := { wDataA with extension := ['s'] }, path := wPathA,
    file_hash := some [1, 2] }

/-- The path allocated for `b` at UUID index 1: `b-uu.t`. -/
def wPathB : RPath := composeOutputPath none wNameB (wUuid 1) ['t']

def wEntryB : AssetCacheEntry :=
  { name := wNameB, data := wDataB, path := wPathB, file_hash := some [3] }

/-- The state after `b` has additionally been created from `wStFresh`. -/
def wStAfterB : PackState :=
  { fs := ainsert wStFresh.fs (wDirI.join wPathB) [3],
    cache := ainsert wStFresh.cache wNameB wEntryB, uuidCount := 2 }

/-- The state after a clean first `pack` run on the fixture (`o` is
created at UUID index 0, its input `a` at index 1, and `o` is copied to
the target directory). -/
def wStRun1 : PackState := (pack 2 wEnv wSt0).state

/-! ## Freshness and run invariants (for the incremental no-rebuild property C8) -/

/-- Depth-bounded freshness of a cached asset: its entry matches the
manifest, its intermediate file exists, and its source test passes —
`File` hash matches the current source bytes, `Filtered` inputs fresh
at smaller depth. -/
def FreshD (env : Env) : Nat → Name → PackState → Prop
  | 0, _, _ => False
  | d + 1, n, st =>
    ∃ e, alookup st.cache n = some e
      ∧ alookup env.manifest.assets e.name = some e.data
      ∧ fsExists st (env.config.internal_directory_path.join e.path) = true
      ∧ match e.data.source with
        | .file p => ∃ b,
            alookup st.fs (env.config.source_directory_path.join p) = some b
            ∧ e.file_hash = some (env.hashFn b)
        | .filtered ftd => ∀ i ∈ ftd.input_names, FreshD env d i st

/-- UUID-freshness of the allocated output paths: distinct draws (or
distinct names) give distinct full paths under both the internal and
the target root.  Spec invariant I5. -/
def PathsInjective (env : Env) : Prop :=
  ∀ n1 d1 n2 d2 i j, alookup env.manifest.assets n1 = some d1 →
    alookup env.manifest.assets n2 = some d2 → (i ≠ j ∨ n1 ≠ n2) →
    env.config.internal_directory_path.join
        (composeOutputPath d1.output_base_path n1 (env.uuidGen i) d1.extension) ≠
      env.config.internal_directory_path.join
        (composeOutputPath d2.output_base_path n2 (env.uuidGen j) d2.extension)
    ∧ env.config.target_directory_path.join
        (composeOutputPath d1.output_base_path n1 (env.uuidGen i) d1.extension) ≠
      env.config.target_directory_path.join
        (composeOutputPath d2.output_base_path n2 (env.uuidGen j) d2.extension)

/-- The three directory roots do not alias (spec section 6): a safe
relative path under the internal or target root never collides with a
path under another root. -/
def DirsSeparated (env : Env) : Prop :=
  ∀ p q : RPath, pathBad p = false →
    env.config.internal_directory_path.join p ≠ env.config.source_directory_path.join q
    ∧ env.config.target_directory_path.join p ≠ env.config.source_directory_path.join q
    ∧ env.config.internal_directory_path.join p ≠ env.config.target_directory_path.join q

/-- What a run-1 step may do to the state: cache entries are only
added (never replaced or removed), files are never deleted, any file
outside the internal space — or inside it at an already-drawn UUID
path — keeps its bytes, and the UUID counter only grows. -/
def StepExt (env : Env) (st st1 : PackState) : Prop :=
  (∀ k e0, alookup st.cache k = some e0 → alookup st1.cache k = some e0)
  ∧ (∀ p, (alookup st.fs p).isSome = true → (alookup st1.fs p).isSome = true)
  ∧ (∀ p b, alookup st.fs p = some b →
      ((∀ q, pathBad q = false → p ≠ env.config.internal_directory_path.join q)
       ∨ (∃ m dm k, alookup env.manifest.assets m = some dm ∧ k < st.uuidCount
           ∧ p = env.config.internal_directory_path.join
               (composeOutputPath dm.output_base_path m (env.uuidGen k) dm.extension))) →
      alookup st1.fs p = some b)
  ∧ st.uuidCount ≤ st1.uuidCount

/-- The invariant of a clean build state: every cache entry carries its
key as name, sits at a path drawn from an already-consumed UUID index,
passed the path check, matches the manifest, and is fresh. -/
def RunInv (env : Env) (st : PackState) : Prop :=
  ∀ n e, alookup st.cache n = some e →
    e.name = n
    ∧ (∃ k, k < st.uuidCount
        ∧ e.path = composeOutputPath e.data.output_base_path n (env.uuidGen k) e.data.extension)
    ∧ pathBad e.path = false
    ∧ alookup env.manifest.assets n = some e.data
    ∧ (∃ d, FreshD env d n st)

/-- The inductive statement of the clean-run analysis: at fuel `g`, a
successful `process` from an invariant state re-establishes the
invariant, only extends the state, leaves the processed name fresh at a
depth within the fuel, installs the returned entry at its key, and — if
the name already had a cache entry — changes nothing at all. -/
def Run1OK (env : Env) (g : Nat) : Prop :=
  ∀ n st e ch st1, RunInv env st → process g env n st = (.ok (e, ch), st1) →
    RunInv env st1 ∧ StepExt env st st1
    ∧ (∃ d, d ≤ g ∧ FreshD env d n st1)
    ∧ alookup st1.cache n = some e
    ∧ ∀ e0, alookup st.cache n = some e0 → ch = false ∧ st1 = st ∧ e = e0

/-! ## Pointwise unfolding equations (all definitional) -/

theorem process_zero (env : Env) (nm : Name) (st : PackState) :
    process 0 env nm st = (.error .outOfFuel, st) := rfl

theorem process_succ (f : Nat) (env : Env) (nm : Name) (st : PackState) :
    process (f + 1) env nm st =
      match alookup st.cache nm with
      | some entry =>
        match update f env entry st with
        | (.ok (some entryNew), st1) =>
          (.ok (entryNew, true), { st1 with cache := ainsert st1.cache nm entryNew })
        | (.ok none, st1) => (.ok (entry, false), st1)
        | (.error e, st1) => (.error e, st1)
      | none =>
        match create f env nm st with
        | (.ok entry, st1) => (.ok (entry, true), { st1 with cache := ainsert st1.cache nm entry })
        | (.error e, st1) => (.error e, st1) := rfl

theorem create_unfold (f : Nat) (env : Env) (nm : Name) (st : PackState) :
    create f env nm st =
      match alookup env.manifest.assets nm with
      | none => (.error (.assetNotFoundInManifestError nm), st)
      | some data =>
        let uuid := env.uuidGen st.uuidCount
        let st1 : PackState := { st with uuidCount := st.uuidCount + 1 }
        let outputPath := composeOutputPath data.output_base_path nm uuid data.extension
        if pathBad outputPath then (.error (.assetPathError outputPath), st1)
        else
          let outputFullPath := env.config.internal_directory_path.join outputPath
          match data.source with
          | .file filePath =>
            let sourceFullPath := env.config.source_directory_path.join filePath
            match alookup st1.fs sourceFullPath with
            | none => (.error (.ioError sourceFullPath), st1)
            | some b =>
              let st2 := fsWrite st1 outputFullPath b
              match alookup st2.fs outputFullPath with
              | none => (.error (.ioError outputFullPath), st2)
              | some b2 =>
                (.ok { name := nm, data := data, path := outputPath,
                       file_hash := some (env.hashFn b2) }, st2)
          | .filtered ftd =>
            match collectInputPaths f env ftd.input_names st1 with
            | (.error e, st2) => (.error e, st2)
            | (.ok inputFullPaths, st2) =>
              match alookup env.filters ftd.filter_name with
              | none => (.error (.assetFilterNotFoundError ftd.filter_name), st2)
              | some filterFn =>
                match readInputFiles st2 inputFullPaths with
                | .error e => (.error e, st2)
                | .ok inputsBytes =>
                  match filterFn inputsBytes ftd.options with
                  | .error e => (.error (.filterError e), st2)
                  | .ok outBytes =>
                    (.ok { name := nm, data := data, path := outputPath, file_hash := none },
                     fsWrite st2 outputFullPath outBytes) := rfl

theorem update_unfold (f : Nat) (env : Env) (self : AssetCacheEntry) (st : PackState) :
    update f env self st =
      match alookup env.manifest.assets self.name with
      | none => (.error (.assetNotFoundInManifestError self.name), st)
      | some newData =>
        let fullPath := env.config.internal_directory_path.join self.path
        match needUpdateCheck f env self newData st with
        | (.error e, st1) => (.error e, st1)
        | (.ok false, st1) => (.ok none, st1)
        | (.ok true, st1) =>
          let st2 := if fsExists st1 fullPath then fsRemove st1 fullPath else st1
          let targetFullPath := env.config.target_directory_path.join self.path
          let st3 := if fsExists st2 targetFullPath then fsRemove st2 targetFullPath else st2
          match create f env self.name st3 with
          | (.ok entry, st4) => (.ok (some entry), st4)
          | (.error e, st4) => (.error e, st4) := rfl

theorem needUpdateCheck_unfold (f : Nat) (env : Env) (self : AssetCacheEntry)
    (newData : AssetData) (st : PackState) :
    needUpdateCheck f env self newData st =
      (if newData ≠ self.data ∨
          ¬ fsExists st (env.config.internal_directory_path.join self.path) then
        (.ok true, st)
      else
        match self.data.source with
        | .file p =>
          let sfull := env.config.source_directory_path.join p
          match alookup st.fs sfull with
          | none => (.error (.ioError sfull), st)
          | some b =>
            match self.file_hash with
            | some h => (.ok (decide (env.hashFn b ≠ h)), st)
            | none => (.ok true, st)
        | .filtered ftd => hasUpdatedInputs f env ftd.input_names st) := rfl

theorem hasUpdatedInputs_nil (f : Nat) (env : Env) (st : PackState) :
    hasUpdatedInputs f env [] st = (.ok false, st) := rfl

theorem hasUpdatedInputs_cons (f : Nat) (env : Env) (nm : Name) (rest : List Name)
    (st : PackState) :
    hasUpdatedInputs f env (nm :: rest) st =
      match process f env nm st with
      | (.error e, st1) => (.error e, st1)
      | (.ok (_, changed), st1) =>
        if changed then (.ok true, st1)
        else hasUpdatedInputs f env rest st1 := rfl

theorem collectInputPaths_nil (f : Nat) (env : Env) (st : PackState) :
    collectInputPaths f env [] st = (.ok [], st) := rfl

theorem collectInputPaths_cons (f : Nat) (env : Env) (nm : Name) (rest : List Name)
    (st : PackState) :
    collectInputPaths f env (nm :: rest) st =
      match process f env nm st with
      | (.ok (entry, _), st1) =>
        match collectInputPaths f env rest st1 with
        | (.ok paths, st2) =>
          (.ok (env.config.internal_directory_path.join entry.path :: paths), st2)
        | (.error e, st2) => (.error e, st2)
      | (.error e, st1) => (.error e, st1) := rfl

/-! ## Basic lemmas: an unchanged verdict leaves the state untouched -/

theorem hasUpdatedInputs_pure_of_process (f : Nat) (env : Env)
    (hp : ∀ nm st e st1, process f env nm st = (.ok (e, false), st1) → st1 = st) :
    ∀ names st st1, hasUpdatedInputs f env names st = (.ok false, st1) → st1 = st := by
  intro names
  induction names with
  | nil =>
    intro st st1 h
    rw [hasUpdatedInputs_nil] at h
    exact (congrArg Prod.snd h).symm
  | cons nm rest ih =>
    intro st st1 h
    rw [hasUpdatedInputs_cons] at h
    rcases hpr : process f env nm st with ⟨r, stp⟩
    rw [hpr] at h
    match r with
    | .error e => simp at h
    | .ok (e, changed) =>
      cases changed with
      | true => simp at h
      | false =>
        simp at h
        rw [ih stp st1 h, hp nm st e stp hpr]

theorem needUpdateCheck_pure_of_hasUpdatedInputs (f : Nat) (env : Env)
    (hu : ∀ names st st1, hasUpdatedInputs f env names st = (.ok false, st1) → st1 = st) :
    ∀ self nd st st1, needUpdateCheck f env self nd st = (.ok false, st1) → st1 = st := by
  intro self nd st st1 h
  rw [needUpdateCheck_unfold] at h
  split at h
  · simp at h
  · rcases hsrc : self.data.source with fp | ftd
    · rw [hsrc] at h
      simp only at h
      rcases hb : alookup st.fs (env.config.source_directory_path.join fp) with _ | b
      · rw [hb] at h
        simp at h
      · rw [hb] at h
        rcases hh : self.file_hash with _ | hsh
        · rw [hh] at h
          simp at h
        · rw [hh] at h
          simp at h
          exact h.2.symm
    · rw [hsrc] at h
      exact hu ftd.input_names st st1 h

theorem update_pure_of_needUpdateCheck (f : Nat) (env : Env)
    (hn : ∀ self nd st st1, needUpdateCheck f env self nd st = (.ok false, st1) → st1 = st) :
    ∀ self st st1, update f env self st = (.ok none, st1) → st1 = st := by
  intro self st st1 h
  rw [update_unfold] at h
  split at h
  · simp at h
  · rename_i nd hm
    rcases hc : needUpdateCheck f env self nd st with ⟨r, stc⟩
    rw [hc] at h
    match r with
    | .error e => simp at h
    | .ok true =>
      simp only at h
      rcases hcr : create f env self.name
          (if fsExists (if fsExists stc (env.config.internal_directory_path.join self.path) then
              fsRemove stc (env.config.internal_directory_path.join self.path) else stc)
            (env.config.target_directory_path.join self.path) then
            fsRemove (if fsExists stc (env.config.internal_directory_path.join self.path) then
              fsRemove stc (env.config.internal_directory_path.join self.path) else stc)
              (env.config.target_directory_path.join self.path)
          else (if fsExists stc (env.config.internal_directory_path.join self.path) then
              fsRemove stc (env.config.internal_directory_path.join self.path) else stc)) with
        ⟨cr, st4⟩
      rw [hcr] at h
      match cr with
      | .ok entry => simp at h
      | .error e => simp at h
    | .ok false =>
      simp only at h
      have h2 : stc = st1 := congrArg Prod.snd h
      rw [← h2]
      exact hn self nd st stc hc

theorem process_pure_of_update (f : Nat) (env : Env)
    (hu : ∀ self st st1, update f env self st = (.ok none, st1) → st1 = st) :
    ∀ nm st e st1, process (f + 1) env nm st = (.ok (e, false), st1) → st1 = st := by
  intro nm st e st1 h
  rw [process_succ] at h
  rcases hl : alookup st.cache nm with _ | entry
  · rw [hl] at h
    simp only at h
    rcases hcr : create f env nm st with ⟨cr, stc⟩
    rw [hcr] at h
    match cr with
    | .ok e2 => simp at h
    | .error e2 => simp at h
  · rw [hl] at h
    simp only at h
    rcases hur : update f env entry st with ⟨ur, stu⟩
    rw [hur] at h
    match ur with
    | .ok (some e2) => simp at h
    | .error e2 => simp at h
    | .ok none =>
      simp at h
      rw [← h.2]
      exact hu entry st stu hur

theorem process_false_pure (f : Nat) (env : Env) :
    ∀ nm st e st1, process f env nm st = (.ok (e, false), st1) → st1 = st := by
  induction f with
  | zero =>
    intro nm st e st1 h
    rw [process_zero] at h
    simp at h
  | succ f ih =>
    exact process_pure_of_update f env
      (update_pure_of_needUpdateCheck f env
        (needUpdateCheck_pure_of_hasUpdatedInputs f env
          (hasUpdatedInputs_pure_of_process f env ih)))

theorem hasUpdatedInputs_false_pure (f : Nat) (env : Env) :
    ∀ names st st1, hasUpdatedInputs f env names st = (.ok false, st1) → st1 = st :=
  hasUpdatedInputs_pure_of_process f env (process_false_pure f env)

theorem update_none_pure (f : Nat) (env : Env) :
    ∀ self st st1, update f env self st = (.ok none, st1) → st1 = st :=
  update_pure_of_needUpdateCheck f env
    (needUpdateCheck_pure_of_hasUpdatedInputs f env (hasUpdatedInputs_false_pure f env))

/-- A `changed = false` verdict hands back the entry already stored in
the cache. -/
theorem process_false_entry (f : Nat) (env : Env) (nm : Name) (st : PackState)
    (e : AssetCacheEntry) (st1 : PackState)
    (h : process f env nm st = (.ok (e, false), st1)) :
    alookup st.cache nm = some e := by
  match f with
  | 0 => rw [process_zero] at h; simp at h
  | f + 1 =>
    rw [process_succ] at h
    rcases hl : alookup st.cache nm with _ | entry
    · rw [hl] at h
      simp only at h
      rcases hcr : create f env nm st with ⟨cr, stc⟩
      rw [hcr] at h
      match cr with
      | .ok e2 => simp at h
      | .error e2 => simp at h
    · rw [hl] at h
      simp only at h
      rcases hur : update f env entry st with ⟨ur, stu⟩
      rw [hur] at h
      match ur with
      | .ok (some e2) => simp at h
      | .error e2 => simp at h
      | .ok none =>
        simp at h
        rw [h.1]

/-! ## Association-list lemmas -/

theorem alookup_ainsert_self {κ α : Type} [DecidableEq κ] (l : List (κ × α)) (k : κ) (v : α) :
    alookup (ainsert l k v) k = some v := by
  induction l with
  | nil => simp [ainsert, alookup]
  | cons p t ih =>
    rcases p with ⟨k2, w⟩
    by_cases hk : k = k2
    · simp [ainsert, alookup, hk]
    · simp [ainsert, alookup, hk, ih]

theorem alookup_ainsert_ne {κ α : Type} [DecidableEq κ] (l : List (κ × α)) (k q : κ) (v : α)
    (hne : q ≠ k) : alookup (ainsert l k v) q = alookup l q := by
  induction l with
  | nil => simp [ainsert, alookup, hne]
  | cons p t ih =>
    rcases p with ⟨k2, w⟩
    by_cases hk : k = k2
    · subst hk
      simp [ainsert, alookup, hne]
    · by_cases hq : q = k2
      · simp [ainsert, alookup, hk, hq]
      · simp [ainsert, alookup, hk, hq, ih]

theorem aerase_of_not_mem {κ α : Type} [DecidableEq κ] (l : List (κ × α)) (k : κ)
    (h : alookup l k = none) : aerase l k = l := by
  induction l with
  | nil => simp [aerase]
  | cons p t ih =>
    rcases p with ⟨k2, w⟩
    by_cases hk : k = k2
    · simp [alookup, hk] at h
    · simp [alookup, hk] at h
      simp [aerase, hk, ih h]

theorem alookup_aerase_ne {κ α : Type} [DecidableEq κ] (l : List (κ × α)) (k q : κ)
    (hne : q ≠ k) : alookup (aerase l k) q = alookup l q := by
  induction l with
  | nil => simp [aerase]
  | cons p t ih =>
    rcases p with ⟨k2, w⟩
    by_cases hk : k = k2
    · subst hk
      simp [aerase, alookup, hne]
    · by_cases hq : q = k2
      · simp [aerase, alookup, hk, hq]
      · simp [aerase, alookup, hk, hq, ih]

theorem ainsert_of_lookup_eq {κ α : Type} [DecidableEq κ] (l : List (κ × α)) (k : κ) (v : α)
    (h : alookup l k = some v) : ainsert l k v = l := by
  induction l with
  | nil => simp [alookup] at h
  | cons p t ih =>
    rcases p with ⟨k2, w⟩
    by_cases hk : k = k2
    · subst hk
      simp [alookup] at h
      simp [ainsert, h]
    · simp [alookup, hk] at h
      simp [ainsert, hk, ih h]

theorem alookup_mem {κ α : Type} [DecidableEq κ] (l : List (κ × α)) (k : κ) (v : α)
    (h : alookup l k = some v) : (k, v) ∈ l := by
  induction l with
  | nil => simp [alookup] at h
  | cons p t ih =>
    rcases p with ⟨k2, w⟩
    by_cases hk : k = k2
    · subst hk
      simp [alookup] at h
      subst h
      exact List.mem_cons_self _ _
    · simp [alookup, hk] at h
      exact List.mem_cons_of_mem _ (ih h)

theorem manifestAvoids_of_all (env : Env) (nm : Name)
    (h : ∀ p ∈ env.manifest.assets, sourceAvoids p.2.source nm = true) :
    ManifestAvoids env nm := by
  intro k d ftd hk hs
  have h2 : sourceAvoids d.source nm = true := h (k, d) (alookup_mem _ _ _ hk)
  rw [hs] at h2
  simp [sourceAvoids] at h2
  exact h2

theorem cacheAvoids_of_all (st : PackState) (nm : Name)
    (h : ∀ p ∈ st.cache, sourceAvoids p.2.data.source nm = true) :
    CacheAvoids st nm := by
  intro k e ftd hk hs
  have h2 : sourceAvoids e.data.source nm = true := h (k, e) (alookup_mem _ _ _ hk)
  rw [hs] at h2
  simp [sourceAvoids] at h2
  exact h2

/-! ## The freshness loop reports false exactly on all-unchanged inputs -/

theorem hasUpdatedInputs_false_iff (f : Nat) (env : Env) (names : List Name) (st : PackState) :
    hasUpdatedInputs f env names st = (.ok false, st)
      ↔ ∀ nm ∈ names, ∃ e, process f env nm st = (.ok (e, false), st) := by
  induction names with
  | nil => simp [hasUpdatedInputs_nil]
  | cons nm rest ih =>
    constructor
    · intro h nm2 hmem
      rw [hasUpdatedInputs_cons] at h
      rcases hpr : process f env nm st with ⟨r, stp⟩
      rw [hpr] at h
      match r with
      | .error e => simp at h
      | .ok (e, true) => simp at h
      | .ok (e, false) =>
        simp only at h
        have hstp : stp = st := process_false_pure f env nm st e stp hpr
        subst hstp
        rcases List.mem_cons.mp hmem with h2 | h2
        · exact ⟨e, h2 ▸ hpr⟩
        · exact ih.mp h nm2 h2
    · intro h
      rw [hasUpdatedInputs_cons]
      obtain ⟨e, he⟩ := h nm (List.mem_cons_self nm rest)
      rw [he]
      simp only
      exact ih.mpr (fun nm2 h2 => h nm2 (List.mem_cons_of_mem nm h2))

/-- C3.  `update` returns *unchanged* — result `None` and, as the first
conjunct shows, a completely untouched state (no new entry, no file
created or deleted) — exactly when the manifest still maps the entry's
name to its stored data, the intermediate file at
`internal_directory/path` exists, and the source test passes: for a
`File` source the stored `file_hash` is present and equals the hash of
the current bytes at `source_directory/src`, for a `Filtered` source
every recursively processed input reports `changed = false`. -/
theorem c3_update_unchanged_iff (f : Nat) (env : Env) (self : AssetCacheEntry) (st : PackState) :
    (∀ st1, update f env self st = (.ok none, st1) → st1 = st)
    ∧ (update f env self st = (.ok none, st)
        ↔ (alookup env.manifest.assets self.name = some self.data
           ∧ fsExists st (env.config.internal_directory_path.join self.path) = true
           ∧ match self.data.source with
             | .file p => ∃ b,
                 alookup st.fs (env.config.source_directory_path.join p) = some b
                 ∧ self.file_hash = some (env.hashFn b)
             | .filtered ftd => ∀ nm ∈ ftd.input_names,
                 ∃ e, process f env nm st = (.ok (e, false), st))) := by
  constructor
  · exact fun st1 => update_none_pure f env self st st1
  · constructor
    · intro h
      rw [update_unfold] at h
      rcases hm : alookup env.manifest.assets self.name with _ | nd
      · rw [hm] at h
        simp at h
      · rw [hm] at h
        simp only at h
        rcases hc : needUpdateCheck f env self nd st with ⟨r, stc⟩
        rw [hc] at h
        match r with
        | .error e => simp at h
        | .ok true =>
          simp only at h
          rcases hcr : create f env self.name
              (if fsExists (if fsExists stc (env.config.internal_directory_path.join self.path)
                  then fsRemove stc (env.config.internal_directory_path.join self.path) else stc)
                (env.config.target_directory_path.join self.path) then
                fsRemove (if fsExists stc (env.config.internal_directory_path.join self.path)
                  then fsRemove stc (env.config.internal_directory_path.join self.path) else stc)
                  (env.config.target_directory_path.join self.path)
              else (if fsExists stc (env.config.internal_directory_path.join self.path)
                  then fsRemove stc (env.config.internal_directory_path.join self.path) else stc))
            with ⟨cr, st4⟩
          rw [hcr] at h
          match cr with
          | .ok entry => simp at h
          | .error e => simp at h
        | .ok false =>
          simp only at h
          have hstc : stc = st := congrArg Prod.snd h
          rw [hstc] at hc
          rw [needUpdateCheck_unfold] at hc
          split at hc
          · simp at hc
          · rename_i hcond
            push_neg at hcond
            rcases hsrc : self.data.source with fp | ftd
            · rw [hsrc] at hc
              simp only at hc
              rcases hb : alookup st.fs (env.config.source_directory_path.join fp) with _ | b
              · rw [hb] at hc
                simp at hc
              · rw [hb] at hc
                rcases hh : self.file_hash with _ | hsh
                · rw [hh] at hc
                  simp at hc
                · rw [hh] at hc
                  simp at hc
                  refine ⟨by rw [← hcond.1], hcond.2, ⟨b, hb, ?_⟩⟩
                  rw [hc]
            · rw [hsrc] at hc
              refine ⟨by rw [← hcond.1], hcond.2, ?_⟩
              simp only
              exact (hasUpdatedInputs_false_iff f env ftd.input_names st).mp hc
    · intro hRHS
      obtain ⟨hm, hex, hsrc⟩ := hRHS
      rw [update_unfold, hm]
      simp only
      have hc : needUpdateCheck f env self self.data st = (.ok false, st) := by
        rw [needUpdateCheck_unfold]
        split
        · rename_i hcond
          rcases hcond with h1 | h1
          · exact absurd rfl h1
          · exact absurd hex h1
        · revert hsrc
          rcases hs : self.data.source with fp | ftd <;> intro hsrc
          · simp only at hsrc ⊢
            obtain ⟨b, hb, hhash⟩ := hsrc
            rw [hb, hhash]
            simp
          · simp only at hsrc ⊢
            exact (hasUpdatedInputs_false_iff f env ftd.input_names st).mpr hsrc
      rw [hc]

/-- Witness for C3: at the concrete fresh `File` entry for `a`, the
stated conditions hold and `update` indeed returns unchanged. -/
theorem c3_update_unchanged_iff_witness :
    update 1 wEnv wEntryA wStFresh = (.ok none, wStFresh) :=
  (c3_update_unchanged_iff 1 wEnv wEntryA wStFresh).2.mpr
    ⟨by decide, by decide, ⟨[1, 2], by decide, by decide⟩⟩

/-- C6.  During the freshness check of a `Filtered` entry, the inputs
are processed in the order of `input_names` and the loop stops at the
first input reporting `changed = true`: with every input before `i`
unchanged and `i` changed, the loop returns `true` in the state
produced by processing `i` — whose cache mutations are thereby
committed — independently of the inputs listed after `i`, which are not
evaluated; and the freshness check of an entry with that input list
reaches the rebuild verdict in that same state. -/
theorem c6_short_circuit (f : Nat) (env : Env) (pre : List Name) (i : Name) (post : List Name)
    (st st1 : PackState) (e : AssetCacheEntry)
    (hpre : ∀ nm ∈ pre, ∃ e2, process f env nm st = (.ok (e2, false), st))
    (hi : process f env i st = (.ok (e, true), st1)) :
    hasUpdatedInputs f env (pre ++ i :: post) st = (.ok true, st1)
    ∧ (∀ self : AssetCacheEntry, ∀ fn opts,
        self.data.source = .filtered ⟨fn, pre ++ i :: post, opts⟩ →
        fsExists st (env.config.internal_directory_path.join self.path) = true →
        needUpdateCheck f env self self.data st = (.ok true, st1)) := by
  have hloop : hasUpdatedInputs f env (pre ++ i :: post) st = (.ok true, st1) := by
    induction pre with
    | nil =>
      rw [List.nil_append, hasUpdatedInputs_cons, hi]
      simp
    | cons nm pre2 ih =>
      obtain ⟨e2, he2⟩ := hpre nm (List.mem_cons_self nm pre2)
      rw [List.cons_append, hasUpdatedInputs_cons, he2]
      simp only [Bool.false_eq_true, if_false]
      exact ih (fun nm2 h2 => hpre nm2 (List.mem_cons_of_mem nm h2))
  refine ⟨hloop, fun self fn opts hsrc hex => ?_⟩
  rw [needUpdateCheck_unfold]
  split
  · rename_i hcond
    rcases hcond with h1 | h1
    · exact absurd rfl h1
    · exact absurd hex h1
  · rw [hsrc]
    exact hloop

/-- Witness for C6: with the fresh input `a` before it, creating the
uncached input `b` short-circuits the loop; the input `z` listed after
`b` is absent from the manifest, yet the loop succeeds because `z` is
never evaluated, and `b`'s mutations are committed in the returned
state. -/
theorem c6_short_circuit_witness :
    hasUpdatedInputs 2 wEnv (wNameA :: wNameB :: [wNameZ]) wStFresh = (.ok true, wStAfterB) :=
  (c6_short_circuit 2 wEnv [wNameA] wNameB [wNameZ] wStFresh wStAfterB wEntryB
    (fun nm hmem => by
      rw [List.mem_singleton] at hmem
      subst hmem
      exact ⟨wEntryA, by decide⟩)
    (by decide)).1

/-! ## Shape of successfully created entries -/

theorem create_ok_shape (f : Nat) (env : Env) (nm : Name) (st : PackState)
    (e : AssetCacheEntry) (st1 : PackState) (h : create f env nm st = (.ok e, st1)) :
    e.name = nm ∧ alookup env.manifest.assets nm = some e.data := by
  rw [create_unfold] at h
  rcases hm : alookup env.manifest.assets nm with _ | data
  · rw [hm] at h
    simp at h
  · rw [hm] at h
    simp only at h
    split at h
    · simp at h
    · rcases hs : data.source with fp | ftd
      · rw [hs] at h
        simp only at h
        split at h
        · simp at h
        · split at h
          · simp at h
          · simp only [Prod.mk.injEq, Except.ok.injEq] at h
            refine ⟨?_, ?_⟩
            · rw [← h.1]
            · rw [← h.1]
      · rw [hs] at h
        simp only at h
        rcases hc : collectInputPaths f env ftd.input_names
            { st with uuidCount := st.uuidCount + 1 } with ⟨cr, st2⟩
        rw [hc] at h
        match cr with
        | .error er => simp at h
        | .ok paths =>
          simp only at h
          split at h
          · simp at h
          · split at h
            · simp at h
            · split at h
              · simp at h
              · simp only [Prod.mk.injEq, Except.ok.injEq] at h
                refine ⟨?_, ?_⟩
                · rw [← h.1]
                · rw [← h.1]

theorem update_ok_shape (f : Nat) (env : Env) (self : AssetCacheEntry) (st : PackState)
    (e : AssetCacheEntry) (st1 : PackState) (h : update f env self st = (.ok (some e), st1)) :
    e.name = self.name ∧ alookup env.manifest.assets self.name = some e.data := by
  rw [update_unfold] at h
  rcases hm : alookup env.manifest.assets self.name with _ | nd
  · rw [hm] at h
    simp at h
  · rw [hm] at h
    simp only at h
    rcases hc : needUpdateCheck f env self nd st with ⟨r, stc⟩
    rw [hc] at h
    match r with
    | .error er => simp at h
    | .ok false => simp at h
    | .ok true =>
      simp only at h
      rcases hcr : create f env self.name
          (if fsExists (if fsExists stc (env.config.internal_directory_path.join self.path)
              then fsRemove stc (env.config.internal_directory_path.join self.path) else stc)
            (env.config.target_directory_path.join self.path) then
            fsRemove (if fsExists stc (env.config.internal_directory_path.join self.path)
              then fsRemove stc (env.config.internal_directory_path.join self.path) else stc)
              (env.config.target_directory_path.join self.path)
          else (if fsExists stc (env.config.internal_directory_path.join self.path)
              then fsRemove stc (env.config.internal_directory_path.join self.path) else stc))
        with ⟨cr, st4⟩
      rw [hcr] at h
      match cr with
      | .error er => simp at h
      | .ok e2 =>
        simp only [Prod.mk.injEq, Except.ok.injEq, Option.some.injEq] at h
        obtain ⟨he2, _⟩ := h
        obtain ⟨hn, hd⟩ := create_ok_shape _ _ _ _ _ _ hcr
        rw [hm] at hd
        exact ⟨he2 ▸ hn, he2 ▸ hd⟩

/-! ## Cache entries at a never-referenced key are untouched

The spec preconditions `create` on acyclic recursion (spec section 4.3);
the hypotheses below — no manifest asset and no cache entry lists the
name among its `input_names` — give the special case needed for C4, in
which no recursive call can ever process the name. -/

theorem collect_avoid_of_process (f : Nat) (env : Env) (nm : Name)
    (hp : ∀ n st r st1, n ≠ nm → CacheAvoids st nm → process f env n st = (r, st1) →
      alookup st1.cache nm = alookup st.cache nm ∧ CacheAvoids st1 nm) :
    ∀ names st r st1, nm ∉ names → CacheAvoids st nm →
      collectInputPaths f env names st = (r, st1) →
      alookup st1.cache nm = alookup st.cache nm ∧ CacheAvoids st1 nm := by
  intro names
  induction names with
  | nil =>
    intro st r st1 hmem hca h
    rw [collectInputPaths_nil] at h
    obtain rfl : st = st1 := congrArg Prod.snd h
    exact ⟨rfl, hca⟩
  | cons n rest ih =>
    intro st r st1 hmem hca h
    rw [collectInputPaths_cons] at h
    rcases hpr : process f env n st with ⟨pr, stp⟩
    rw [hpr] at h
    have hne : n ≠ nm := fun heq => hmem (heq ▸ List.mem_cons_self n rest)
    match pr with
    | .error e =>
      simp only at h
      obtain rfl : stp = st1 := congrArg Prod.snd h
      exact hp n st _ _ hne hca hpr
    | .ok (e, ch) =>
      simp only at h
      obtain ⟨h1, h2⟩ := hp n st _ stp hne hca hpr
      rcases hcr : collectInputPaths f env rest stp with ⟨cr, stc⟩
      rw [hcr] at h
      have hmem2 : nm ∉ rest := fun h3 => hmem (List.mem_cons_of_mem n h3)
      obtain ⟨h3, h4⟩ := ih stp cr stc hmem2 h2 hcr
      match cr with
      | .ok paths =>
        simp only at h
        obtain rfl : stc = st1 := congrArg Prod.snd h
        exact ⟨h3.trans h1, h4⟩
      | .error e2 =>
        simp only at h
        obtain rfl : stc = st1 := congrArg Prod.snd h
        exact ⟨h3.trans h1, h4⟩

theorem create_avoid_of_collect (f : Nat) (env : Env) (nm : Name)
    (hM : ManifestAvoids env nm)
    (hk : ∀ names st r st1, nm ∉ names → CacheAvoids st nm →
      collectInputPaths f env names st = (r, st1) →
      alookup st1.cache nm = alookup st.cache nm ∧ CacheAvoids st1 nm) :
    ∀ n st r st1, CacheAvoids st nm → create f env n st = (r, st1) →
      alookup st1.cache nm = alookup st.cache nm ∧ CacheAvoids st1 nm := by
  intro n st r st1 hca h
  rw [create_unfold] at h
  rcases hm : alookup env.manifest.assets n with _ | data
  · rw [hm] at h
    obtain rfl : st = st1 := congrArg Prod.snd h
    exact ⟨rfl, hca⟩
  · rw [hm] at h
    simp only at h
    split at h
    · obtain rfl : ({ st with uuidCount := st.uuidCount + 1 } : PackState) = st1 :=
        congrArg Prod.snd h
      exact ⟨rfl, hca⟩
    · rcases hs : data.source with fp | ftd
      · rw [hs] at h
        simp only at h
        split at h
        · obtain rfl : ({ st with uuidCount := st.uuidCount + 1 } : PackState) = st1 :=
            congrArg Prod.snd h
          exact ⟨rfl, hca⟩
        · split at h
          · obtain rfl := congrArg Prod.snd h
            exact ⟨rfl, hca⟩
          · obtain rfl := congrArg Prod.snd h
            exact ⟨rfl, hca⟩
      · rw [hs] at h
        simp only at h
        rcases hc : collectInputPaths f env ftd.input_names
            { st with uuidCount := st.uuidCount + 1 } with ⟨cr, st2⟩
        rw [hc] at h
        have hnotin : nm ∉ ftd.input_names := hM n data ftd hm hs
        obtain ⟨h1, h2⟩ :=
          hk ftd.input_names ({ st with uuidCount := st.uuidCount + 1 } : PackState) cr st2
            hnotin hca hc
        match cr with
        | .error er =>
          simp only at h
          obtain rfl : st2 = st1 := congrArg Prod.snd h
          exact ⟨h1, h2⟩
        | .ok paths =>
          simp only at h
          split at h
          · obtain rfl : st2 = st1 := congrArg Prod.snd h
            exact ⟨h1, h2⟩
          · split at h
            · obtain rfl : st2 = st1 := congrArg Prod.snd h
              exact ⟨h1, h2⟩
            · split at h
              · obtain rfl : st2 = st1 := congrArg Prod.snd h
                exact ⟨h1, h2⟩
              · obtain rfl : fsWrite st2 _ _ = st1 := congrArg Prod.snd h
                exact ⟨h1, h2⟩

theorem hasUpdated_avoid_of_process (f : Nat) (env : Env) (nm : Name)
    (hp : ∀ n st r st1, n ≠ nm → CacheAvoids st nm → process f env n st = (r, st1) →
      alookup st1.cache nm = alookup st.cache nm ∧ CacheAvoids st1 nm) :
    ∀ names st r st1, nm ∉ names → CacheAvoids st nm →
      hasUpdatedInputs f env names st = (r, st1) →
      alookup st1.cache nm = alookup st.cache nm ∧ CacheAvoids st1 nm := by
  intro names
  induction names with
  | nil =>
    intro st r st1 hmem hca h
    rw [hasUpdatedInputs_nil] at h
    obtain rfl : st = st1 := congrArg Prod.snd h
    exact ⟨rfl, hca⟩
  | cons n rest ih =>
    intro st r st1 hmem hca h
    rw [hasUpdatedInputs_cons] at h
    rcases hpr : process f env n st with ⟨pr, stp⟩
    rw [hpr] at h
    have hne : n ≠ nm := fun heq => hmem (heq ▸ List.mem_cons_self n rest)
    match pr with
    | .error e =>
      simp only at h
      obtain rfl : stp = st1 := congrArg Prod.snd h
      exact hp n st _ _ hne hca hpr
    | .ok (e, ch) =>
      simp only at h
      obtain ⟨h1, h2⟩ := hp n st _ stp hne hca hpr
      cases ch with
      | true =>
        simp only [if_true] at h
        obtain rfl : stp = st1 := congrArg Prod.snd h
        exact ⟨h1, h2⟩
      | false =>
        simp only [Bool.false_eq_true, if_false] at h
        have hmem2 : nm ∉ rest := fun h3 => hmem (List.mem_cons_of_mem n h3)
        obtain ⟨h3, h4⟩ := ih stp r st1 hmem2 h2 h
        exact ⟨h3.trans h1, h4⟩

theorem needCheck_avoid (f : Nat) (env : Env) (nm : Name)
    (hh : ∀ names st r st1, nm ∉ names → CacheAvoids st nm →
      hasUpdatedInputs f env names st = (r, st1) →
      alookup st1.cache nm = alookup st.cache nm ∧ CacheAvoids st1 nm) :
    ∀ self nd st r st1,
      (∀ ftd, self.data.source = .filtered ftd → nm ∉ ftd.input_names) →
      CacheAvoids st nm → needUpdateCheck f env self nd st = (r, st1) →
      alookup st1.cache nm = alookup st.cache nm ∧ CacheAvoids st1 nm := by
  intro self nd st r st1 hself hca h
  rw [needUpdateCheck_unfold] at h
  split at h
  · obtain rfl : st = st1 := congrArg Prod.snd h
    exact ⟨rfl, hca⟩
  · rcases hs : self.data.source with fp | ftd
    · rw [hs] at h
      simp only at h
      split at h
      · obtain rfl : st = st1 := congrArg Prod.snd h
        exact ⟨rfl, hca⟩
      · split at h
        · obtain rfl : st = st1 := congrArg Prod.snd h
          exact ⟨rfl, hca⟩
        · obtain rfl : st = st1 := congrArg Prod.snd h
          exact ⟨rfl, hca⟩
    · rw [hs] at h
      exact hh ftd.input_names st r st1 (hself ftd hs) hca h

theorem update_avoid (f : Nat) (env : Env) (nm : Name)
    (hn : ∀ self nd st r st1,
      (∀ ftd, self.data.source = .filtered ftd → nm ∉ ftd.input_names) →
      CacheAvoids st nm → needUpdateCheck f env self nd st = (r, st1) →
      alookup st1.cache nm = alookup st.cache nm ∧ CacheAvoids st1 nm)
    (hc : ∀ n st r st1, CacheAvoids st nm → create f env n st = (r, st1) →
      alookup st1.cache nm = alookup st.cache nm ∧ CacheAvoids st1 nm) :
    ∀ self st r st1,
      (∀ ftd, self.data.source = .filtered ftd → nm ∉ ftd.input_names) →
      CacheAvoids st nm → update f env self st = (r, st1) →
      alookup st1.cache nm = alookup st.cache nm ∧ CacheAvoids st1 nm := by
  intro self st r st1 hself hca h
  rw [update_unfold] at h
  rcases hm : alookup env.manifest.assets self.name with _ | nd
  · rw [hm] at h
    obtain rfl : st = st1 := congrArg Prod.snd h
    exact ⟨rfl, hca⟩
  · rw [hm] at h
    simp only at h
    rcases hcn : needUpdateCheck f env self nd st with ⟨cn, stc⟩
    rw [hcn] at h
    obtain ⟨h1, h2⟩ := hn self nd st cn stc hself hca hcn
    match cn with
    | .error e =>
      simp only at h
      obtain rfl : stc = st1 := congrArg Prod.snd h
      exact ⟨h1, h2⟩
    | .ok false =>
      simp only at h
      obtain rfl : stc = st1 := congrArg Prod.snd h
      exact ⟨h1, h2⟩
    | .ok true =>
      simp only at h
      rcases hcr : create f env self.name
          (if fsExists (if fsExists stc (env.config.internal_directory_path.join self.path)
              then fsRemove stc (env.config.internal_directory_path.join self.path) else stc)
            (env.config.target_directory_path.join self.path) then
            fsRemove (if fsExists stc (env.config.internal_directory_path.join self.path)
              then fsRemove stc (env.config.internal_directory_path.join self.path) else stc)
              (env.config.target_directory_path.join self.path)
          else (if fsExists stc (env.config.internal_directory_path.join self.path)
              then fsRemove stc (env.config.internal_directory_path.join self.path) else stc))
        with ⟨cr, st4⟩
      rw [hcr] at h
      have hca2 : CacheAvoids (if fsExists (if fsExists stc
            (env.config.internal_directory_path.join self.path)
              then fsRemove stc (env.config.internal_directory_path.join self.path) else stc)
            (env.config.target_directory_path.join self.path) then
            fsRemove (if fsExists stc (env.config.internal_directory_path.join self.path)
              then fsRemove stc (env.config.internal_directory_path.join self.path) else stc)
              (env.config.target_directory_path.join self.path)
          else (if fsExists stc (env.config.internal_directory_path.join self.path)
              then fsRemove stc (env.config.internal_directory_path.join self.path) else stc)) nm := by
        intro k e ftd hl hsrc
        apply h2 k e ftd ?_ hsrc
        revert hl
        split <;> split <;> simp [fsRemove]
      obtain ⟨h3, h4⟩ := hc self.name _ cr st4 hca2 hcr
      have h5 : alookup st4.cache nm = alookup stc.cache nm := by
        rw [h3]
        split <;> split <;> simp [fsRemove]
      match cr with
      | .ok e2 =>
        simp only at h
        obtain rfl : st4 = st1 := congrArg Prod.snd h
        exact ⟨h5.trans h1, h4⟩
      | .error e2 =>
        simp only at h
        obtain rfl : st4 = st1 := congrArg Prod.snd h
        exact ⟨h5.trans h1, h4⟩

theorem process_avoid (env : Env) (nm : Name) (hM : ManifestAvoids env nm) :
    ∀ f n st r st1, n ≠ nm → CacheAvoids st nm → process f env n st = (r, st1) →
      alookup st1.cache nm = alookup st.cache nm ∧ CacheAvoids st1 nm := by
  intro f
  induction f with
  | zero =>
    intro n st r st1 hne hca h
    rw [process_zero] at h
    obtain rfl : st = st1 := congrArg Prod.snd h
    exact ⟨rfl, hca⟩
  | succ f ih =>
    have hcr := create_avoid_of_collect f env nm hM (collect_avoid_of_process f env nm ih)
    have hup := update_avoid f env nm
      (needCheck_avoid f env nm (hasUpdated_avoid_of_process f env nm ih)) hcr
    intro n st r st1 hne hca h
    rw [process_succ] at h
    rcases hl : alookup st.cache n with _ | entry
    · rw [hl] at h
      simp only at h
      rcases hce : create f env n st with ⟨ce, stc⟩
      rw [hce] at h
      obtain ⟨h1, h2⟩ := hcr n st ce stc hca hce
      match ce with
      | .ok e2 =>
        simp only at h
        obtain rfl : ({ stc with cache := ainsert stc.cache n e2 } : PackState) = st1 :=
          congrArg Prod.snd h
        refine ⟨?_, ?_⟩
        · show alookup (ainsert stc.cache n e2) nm = _
          rw [alookup_ainsert_ne stc.cache n nm e2 (fun he => hne he.symm), h1]
        · intro k e ftd hlk hsrc
          by_cases hk : k = n
          · subst hk
            rw [show alookup (ainsert stc.cache k e2) k = some e2 from
              alookup_ainsert_self stc.cache k e2] at hlk
            have hee : e2 = e := Option.some_inj.mp hlk
            rw [← hee] at hsrc
            obtain ⟨hn2, hd2⟩ := create_ok_shape f env k st e2 stc hce
            exact hM k e2.data ftd hd2 hsrc
          · rw [show alookup (ainsert stc.cache n e2) k = alookup stc.cache k from
              alookup_ainsert_ne stc.cache n k e2 hk] at hlk
            exact h2 k e ftd hlk hsrc
      | .error e2 =>
        simp only at h
        obtain rfl : stc = st1 := congrArg Prod.snd h
        exact ⟨h1, h2⟩
    · rw [hl] at h
      simp only at h
      have hself : ∀ ftd, entry.data.source = .filtered ftd → nm ∉ ftd.input_names :=
        fun ftd hsrc => hca n entry ftd hl hsrc
      rcases hue : update f env entry st with ⟨ue, stu⟩
      rw [hue] at h
      obtain ⟨h1, h2⟩ := hup entry st ue stu hself hca hue
      match ue with
      | .ok (some e2) =>
        simp only at h
        obtain rfl : ({ stu with cache := ainsert stu.cache n e2 } : PackState) = st1 :=
          congrArg Prod.snd h
        refine ⟨?_, ?_⟩
        · show alookup (ainsert stu.cache n e2) nm = _
          rw [alookup_ainsert_ne stu.cache n nm e2 (fun he => hne he.symm), h1]
        · intro k e ftd hlk hsrc
          by_cases hk : k = n
          · subst hk
            rw [show alookup (ainsert stu.cache k e2) k = some e2 from
              alookup_ainsert_self stu.cache k e2] at hlk
            have hee : e2 = e := Option.some_inj.mp hlk
            rw [← hee] at hsrc
            obtain ⟨hn2, hd2⟩ := update_ok_shape f env entry st e2 stu hue
            exact hM entry.name e2.data ftd hd2 hsrc
          · rw [show alookup (ainsert stu.cache n e2) k = alookup stu.cache k from
              alookup_ainsert_ne stu.cache n k e2 hk] at hlk
            exact h2 k e ftd hlk hsrc
      | .ok none =>
        simp only at h
        obtain rfl : stu = st1 := congrArg Prod.snd h
        exact ⟨h1, h2⟩
      | .error e2 =>
        simp only at h
        obtain rfl : stu = st1 := congrArg Prod.snd h
        exact ⟨h1, h2⟩

/-- C4.  For a name not present in `cache.map`, `process` calls
`create`.  On success the new entry is inserted into the map and
`(entry, true)` is returned.  On failure the error is propagated
verbatim in `create`'s final state — `process` inserts nothing — and,
under the no-self-reference hypotheses that embody the spec's
acyclicity precondition on the recursion (spec section 4.3), the cache
map still has no entry for the name. -/
theorem c4_process_absent_name (f : Nat) (env : Env) (nm : Name) (st : PackState)
    (habs : alookup st.cache nm = none)
    (hM : ManifestAvoids env nm) (hC : CacheAvoids st nm) :
    (∀ e st1, create f env nm st = (.ok e, st1) →
      process (f + 1) env nm st = (.ok (e, true), { st1 with cache := ainsert st1.cache nm e })
      ∧ alookup (ainsert st1.cache nm e) nm = some e)
    ∧ (∀ er st1, create f env nm st = (.error er, st1) →
      process (f + 1) env nm st = (.error er, st1) ∧ alookup st1.cache nm = none) := by
  constructor
  · intro e st1 hcr
    refine ⟨?_, alookup_ainsert_self st1.cache nm e⟩
    rw [process_succ, habs]
    simp only
    rw [hcr]
  · intro er st1 hcr
    refine ⟨?_, ?_⟩
    · rw [process_succ, habs]
      simp only
      rw [hcr]
    · have h2 := (create_avoid_of_collect f env nm hM
        (collect_avoid_of_process f env nm (process_avoid env nm hM f))) nm st _ st1 hC hcr
      rw [h2.1, habs]

/-- Witness for C4: the name `z` is absent from both the cache and the
manifest; `create` fails, the error is propagated and the cache still
has no entry for `z`. -/
theorem c4_process_absent_name_witness :
    process 1 wEnv wNameZ wSt0 = (.error (.assetNotFoundInManifestError wNameZ), wSt0)
    ∧ alookup wSt0.cache wNameZ = none :=
  (c4_process_absent_name 0 wEnv wNameZ wSt0 (by decide)
      (manifestAvoids_of_all wEnv wNameZ (by decide))
      (cacheAvoids_of_all wSt0 wNameZ (by decide))).2
    (.assetNotFoundInManifestError wNameZ) wSt0 (by decide)

/-! ## Invariant I1: every cache entry's name field equals its key -/

theorem collect_names_of_process (f : Nat) (env : Env)
    (hp : ∀ n st r st1, cacheNamesConsistent st → process f env n st = (r, st1) →
      cacheNamesConsistent st1) :
    ∀ names st r st1, cacheNamesConsistent st → collectInputPaths f env names st = (r, st1) →
      cacheNamesConsistent st1 := by
  intro names
  induction names with
  | nil =>
    intro st r st1 hca h
    rw [collectInputPaths_nil] at h
    obtain rfl : st = st1 := congrArg Prod.snd h
    exact hca
  | cons n rest ih =>
    intro st r st1 hca h
    rw [collectInputPaths_cons] at h
    rcases hpr : process f env n st with ⟨pr, stp⟩
    rw [hpr] at h
    match pr with
    | .error e =>
      simp only at h
      obtain rfl : stp = st1 := congrArg Prod.snd h
      exact hp n st _ _ hca hpr
    | .ok (e, ch) =>
      simp only at h
      have h2 := hp n st _ stp hca hpr
      rcases hcr : collectInputPaths f env rest stp with ⟨cr, stc⟩
      rw [hcr] at h
      have h4 := ih stp cr stc h2 hcr
      match cr with
      | .ok paths =>
        simp only at h
        obtain rfl : stc = st1 := congrArg Prod.snd h
        exact h4
      | .error e2 =>
        simp only at h
        obtain rfl : stc = st1 := congrArg Prod.snd h
        exact h4

theorem create_names_of_collect (f : Nat) (env : Env)
    (hk : ∀ names st r st1, cacheNamesConsistent st →
      collectInputPaths f env names st = (r, st1) → cacheNamesConsistent st1) :
    ∀ n st r st1, cacheNamesConsistent st → create f env n st = (r, st1) →
      cacheNamesConsistent st1 := by
  intro n st r st1 hca h
  rw [create_unfold] at h
  rcases hm : alookup env.manifest.assets n with _ | data
  · rw [hm] at h
    obtain rfl : st = st1 := congrArg Prod.snd h
    exact hca
  · rw [hm] at h
    simp only at h
    split at h
    · obtain rfl : ({ st with uuidCount := st.uuidCount + 1 } : PackState) = st1 :=
        congrArg Prod.snd h
      exact hca
    · rcases hs : data.source with fp | ftd
      · rw [hs] at h
        simp only at h
        split at h
        · obtain rfl : ({ st with uuidCount := st.uuidCount + 1 } : PackState) = st1 :=
            congrArg Prod.snd h
          exact hca
        · split at h
          · obtain rfl := congrArg Prod.snd h
            exact hca
          · obtain rfl := congrArg Prod.snd h
            exact hca
      · rw [hs] at h
        simp only at h
        rcases hc : collectInputPaths f env ftd.input_names
            { st with uuidCount := st.uuidCount + 1 } with ⟨cr, st2⟩
        rw [hc] at h
        have h2 := hk ftd.input_names ({ st with uuidCount := st.uuidCount + 1 } : PackState)
          cr st2 hca hc
        match cr with
        | .error er =>
          simp only at h
          obtain rfl : st2 = st1 := congrArg Prod.snd h
          exact h2
        | .ok paths =>
          simp only at h
          split at h
          · obtain rfl : st2 = st1 := congrArg Prod.snd h
            exact h2
          · split at h
            · obtain rfl : st2 = st1 := congrArg Prod.snd h
              exact h2
            · split at h
              · obtain rfl : st2 = st1 := congrArg Prod.snd h
                exact h2
              · obtain rfl : fsWrite st2 _ _ = st1 := congrArg Prod.snd h
                exact h2

theorem hasUpdated_names_of_process (f : Nat) (env : Env)
    (hp : ∀ n st r st1, cacheNamesConsistent st → process f env n st = (r, st1) →
      cacheNamesConsistent st1) :
    ∀ names st r st1, cacheNamesConsistent st → hasUpdatedInputs f env names st = (r, st1) →
      cacheNamesConsistent st1 := by
  intro names
  induction names with
  | nil =>
    intro st r st1 hca h
    rw [hasUpdatedInputs_nil] at h
    obtain rfl : st = st1 := congrArg Prod.snd h
    exact hca
  | cons n rest ih =>
    intro st r st1 hca h
    rw [hasUpdatedInputs_cons] at h
    rcases hpr : process f env n st with ⟨pr, stp⟩
    rw [hpr] at h
    match pr with
    | .error e =>
      simp only at h
      obtain rfl : stp = st1 := congrArg Prod.snd h
      exact hp n st _ _ hca hpr
    | .ok (e, ch) =>
      simp only at h
      have h2 := hp n st _ stp hca hpr
      cases ch with
      | true =>
        simp only [if_true] at h
        obtain rfl : stp = st1 := congrArg Prod.snd h
        exact h2
      | false =>
        simp only [Bool.false_eq_true, if_false] at h
        exact ih stp r st1 h2 h

theorem needCheck_names (f : Nat) (env : Env)
    (hh : ∀ names st r st1, cacheNamesConsistent st → hasUpdatedInputs f env names st = (r, st1) →
      cacheNamesConsistent st1) :
    ∀ self nd st r st1, cacheNamesConsistent st → needUpdateCheck f env self nd st = (r, st1) →
      cacheNamesConsistent st1 := by
  intro self nd st r st1 hca h
  rw [needUpdateCheck_unfold] at h
  split at h
  · obtain rfl : st = st1 := congrArg Prod.snd h
    exact hca
  · rcases hs : self.data.source with fp | ftd
    · rw [hs] at h
      simp only at h
      split at h
      · obtain rfl : st = st1 := congrArg Prod.snd h
        exact hca
      · split at h
        · obtain rfl : st = st1 := congrArg Prod.snd h
          exact hca
        · obtain rfl : st = st1 := congrArg Prod.snd h
          exact hca
    · rw [hs] at h
      exact hh ftd.input_names st r st1 hca h

theorem update_names (f : Nat) (env : Env)
    (hn : ∀ self nd st r st1, cacheNamesConsistent st → needUpdateCheck f env self nd st = (r, st1) →
      cacheNamesConsistent st1)
    (hc : ∀ n st r st1, cacheNamesConsistent st → create f env n st = (r, st1) →
      cacheNamesConsistent st1) :
    ∀ self st r st1, cacheNamesConsistent st → update f env self st = (r, st1) →
      cacheNamesConsistent st1 := by
  intro self st r st1 hca h
  rw [update_unfold] at h
  rcases hm : alookup env.manifest.assets self.name with _ | nd
  · rw [hm] at h
    obtain rfl : st = st1 := congrArg Prod.snd h
    exact hca
  · rw [hm] at h
    simp only at h
    rcases hcn : needUpdateCheck f env self nd st with ⟨cn, stc⟩
    rw [hcn] at h
    have h2 := hn self nd st cn stc hca hcn
    match cn with
    | .error e =>
      simp only at h
      obtain rfl : stc = st1 := congrArg Prod.snd h
      exact h2
    | .ok false =>
      simp only at h
      obtain rfl : stc = st1 := congrArg Prod.snd h
      exact h2
    | .ok true =>
      simp only at h
      rcases hcr : create f env self.name
          (if fsExists (if fsExists stc (env.config.internal_directory_path.join self.path)
              then fsRemove stc (env.config.internal_directory_path.join self.path) else stc)
            (env.config.target_directory_path.join self.path) then
            fsRemove (if fsExists stc (env.config.internal_directory_path.join self.path)
              then fsRemove stc (env.config.internal_directory_path.join self.path) else stc)
              (env.config.target_directory_path.join self.path)
          else (if fsExists stc (env.config.internal_directory_path.join self.path)
              then fsRemove stc (env.config.internal_directory_path.join self.path) else stc))
        with ⟨cr, st4⟩
      rw [hcr] at h
      have h3 : cacheNamesConsistent st4 := by
        refine hc self.name _ cr st4 ?_ hcr
        intro k e hlk
        apply h2 k e
        revert hlk
        split <;> split <;> simp [fsRemove]
      match cr with
      | .ok e2 =>
        simp only at h
        obtain rfl : st4 = st1 := congrArg Prod.snd h
        exact h3
      | .error e2 =>
        simp only at h
        obtain rfl : st4 = st1 := congrArg Prod.snd h
        exact h3

theorem process_names (env : Env) :
    ∀ f n st r st1, cacheNamesConsistent st → process f env n st = (r, st1) →
      cacheNamesConsistent st1 := by
  intro f
  induction f with
  | zero =>
    intro n st r st1 hca h
    rw [process_zero] at h
    obtain rfl : st = st1 := congrArg Prod.snd h
    exact hca
  | succ f ih =>
    have hcr := create_names_of_collect f env (collect_names_of_process f env ih)
    have hup := update_names f env
      (needCheck_names f env (hasUpdated_names_of_process f env ih)) hcr
    intro n st r st1 hca h
    rw [process_succ] at h
    rcases hl : alookup st.cache n with _ | entry
    · rw [hl] at h
      simp only at h
      rcases hce : create f env n st with ⟨ce, stc⟩
      rw [hce] at h
      have h2 := hcr n st ce stc hca hce
      match ce with
      | .ok e2 =>
        simp only at h
        obtain rfl : ({ stc with cache := ainsert stc.cache n e2 } : PackState) = st1 :=
          congrArg Prod.snd h
        intro k e hlk
        by_cases hk : k = n
        · subst hk
          rw [show alookup (ainsert stc.cache k e2) k = some e2 from
            alookup_ainsert_self stc.cache k e2] at hlk
          obtain ⟨hn2, -⟩ := create_ok_shape f env k st e2 stc hce
          rw [← Option.some_inj.mp hlk]
          exact hn2
        · rw [show alookup (ainsert stc.cache n e2) k = alookup stc.cache k from
            alookup_ainsert_ne stc.cache n k e2 hk] at hlk
          exact h2 k e hlk
      | .error e2 =>
        simp only at h
        obtain rfl : stc = st1 := congrArg Prod.snd h
        exact h2
    · rw [hl] at h
      simp only at h
      rcases hue : update f env entry st with ⟨ue, stu⟩
      rw [hue] at h
      have h2 := hup entry st ue stu hca hue
      match ue with
      | .ok (some e2) =>
        simp only at h
        obtain rfl : ({ stu with cache := ainsert stu.cache n e2 } : PackState) = st1 :=
          congrArg Prod.snd h
        intro k e hlk
        by_cases hk : k = n
        · subst hk
          rw [show alookup (ainsert stu.cache k e2) k = some e2 from
            alookup_ainsert_self stu.cache k e2] at hlk
          obtain ⟨hn2, -⟩ := update_ok_shape f env entry st e2 stu hue
          rw [← Option.some_inj.mp hlk, hn2]
          exact hca k entry hl
        · rw [show alookup (ainsert stu.cache n e2) k = alookup stu.cache k from
            alookup_ainsert_ne stu.cache n k e2 hk] at hlk
          exact h2 k e hlk
      | .ok none =>
        simp only at h
        obtain rfl : stu = st1 := congrArg Prod.snd h
        exact h2
      | .error e2 =>
        simp only at h
        obtain rfl : stu = st1 := congrArg Prod.snd h
        exact h2

/-- C9.  Invariant I1: every key of `cache.map` stores an entry whose
`name` field equals the key.  It holds for the empty cache and is
preserved by every `process` call, on both the create-and-insert path
and the update-and-replace path. -/
theorem c9_invariant_name_key (fsv : List (RPath × Bytes)) (c : Nat) (f : Nat) (env : Env)
    (n : Name) (st : PackState) (r : Except AssetErrorType (AssetCacheEntry × Bool))
    (st1 : PackState) :
    cacheNamesConsistent { fs := fsv, cache := [], uuidCount := c }
    ∧ (cacheNamesConsistent st → process f env n st = (r, st1) → cacheNamesConsistent st1) := by
  constructor
  · intro k e hlk
    simp [alookup] at hlk
  · intro hca h
    exact process_names env f n st r st1 hca h

/-- Witness for C9: I1 holds of the empty cache and of the state left
by a concrete `process` call starting from it. -/
theorem c9_invariant_name_key_witness :
    cacheNamesConsistent (process 1 wEnv wNameA wSt0).2 := by
  have T := c9_invariant_name_key wFs0 0 1 wEnv wNameA wSt0 (process 1 wEnv wNameA wSt0).1
    (process 1 wEnv wNameA wSt0).2
  exact T.2 T.1 rfl

/-! ## C1: the output-path composition truncates dotted names -/

theorem splitSlash_no_slash (s : List Char) (acc : List Char) (h : '/' ∉ s) :
    splitSlash acc s = [acc.reverse ++ s] := by
  induction s generalizing acc with
  | nil => simp [splitSlash]
  | cons c rest ih =>
    have hc : c ≠ '/' := fun hc => h (hc ▸ List.mem_cons_self c rest)
    have hr : '/' ∉ rest := fun hr => h (List.mem_cons_of_mem c hr)
    rw [splitSlash, if_neg (fun hh => hc hh), ih (c :: acc) hr]
    simp

theorem splitFirstDot_append (x y : List Char) (hx : '.' ∉ x) :
    splitFirstDot (x ++ '.' :: y) = some (x, y) := by
  induction x with
  | nil => simp [splitFirstDot]
  | cons c rest ih =>
    have hc : c ≠ '.' := fun hc => hx (hc ▸ List.mem_cons_self c rest)
    have hr : '.' ∉ rest := fun hr => hx (List.mem_cons_of_mem c hr)
    rw [List.cons_append, splitFirstDot, if_neg (fun hh => hc hh), ih hr]

theorem create_ok_path (f : Nat) (env : Env) (nm : Name) (st : PackState) (data : AssetData)
    (e : AssetCacheEntry) (st1 : PackState)
    (hm : alookup env.manifest.assets nm = some data)
    (h : create f env nm st = (.ok e, st1)) :
    e.path = composeOutputPath data.output_base_path nm (env.uuidGen st.uuidCount) data.extension
    ∧ pathBad e.path = false := by
  rw [create_unfold, hm] at h
  simp only at h
  split at h
  · simp at h
  · rename_i hpb
    rcases hs : data.source with fp | ftd
    · rw [hs] at h
      simp only at h
      split at h
      · simp at h
      · split at h
        · simp at h
        · simp only [Prod.mk.injEq, Except.ok.injEq] at h
          refine ⟨by rw [← h.1], ?_⟩
          rw [← h.1]
          simpa using hpb
    · rw [hs] at h
      simp only at h
      rcases hc : collectInputPaths f env ftd.input_names
          { st with uuidCount := st.uuidCount + 1 } with ⟨cr, st2⟩
      rw [hc] at h
      match cr with
      | .error er => simp at h
      | .ok paths =>
        simp only at h
        split at h
        · simp at h
        · split at h
          · simp at h
          · split at h
            · simp at h
            · simp only [Prod.mk.injEq, Except.ok.injEq] at h
              refine ⟨by rw [← h.1], ?_⟩
              rw [← h.1]
              simpa using hpb

/-- C1 fails on the code: for the asset name `a.b` — a name containing
a dot — with extension `txt` and no `output_base_path`, the composed
output path is the single component `a.txt` for every generated UUID
string (any dot-free, slash-free UUID): Rust's `with_extension` treats
everything after the name's last dot as an extension and replaces it,
so the tail of the name and the whole freshly generated UUID are
discarded, contradicting the claimed `"{name}-{u}.{extension}"`
filename shape; accordingly any successful `create` of this asset
returns an entry whose path is `a.txt`, independent of the UUID. -/
theorem c1_dotted_name_loses_uuid (u : List Char) (hu : '.' ∉ u) (husl : '/' ∉ u) :
    composeOutputPath none (['a', '.', 'b']) u (['t', 'x', 't'])
      = ⟨false, [['a', '.', 't', 'x', 't']]⟩
    ∧ (∀ f env st data e st1,
        alookup env.manifest.assets (['a', '.', 'b']) = some data →
        data.output_base_path = none → data.extension = ['t', 'x', 't'] →
        env.uuidGen st.uuidCount = u →
        create f env (['a', '.', 'b']) st = (.ok e, st1) →
        e.path = ⟨false, [['a', '.', 't', 'x', 't']]⟩) := by
  have hslash : '/' ∉ ([ 'a', '.', 'b' ] : List Char) ++ '-' :: u := by
    intro hmem
    rcases List.mem_append.mp hmem with h1 | h1
    · revert h1
      decide
    · rcases List.mem_cons.mp h1 with h2 | h2
      · exact absurd h2.symm (by decide)
      · exact husl h2
  have hstem : fileStemExt ( 'a' :: '.' :: 'b' :: '-' :: u)
      = (['a'], some (u.reverse ++ ['-', 'b']).reverse) := by
    have hrev : ( 'a' :: '.' :: 'b' :: '-' :: u : List Char).reverse
        = (u.reverse ++ ['-', 'b']) ++ '.' :: ['a'] := by
      simp
    rw [fileStemExt, if_neg ?nd, hrev, splitFirstDot_append]
    · simp
    · intro hmem
      rcases List.mem_append.mp hmem with h1 | h1
      · exact hu (List.mem_reverse.mp h1)
      · revert h1
        decide
    case nd =>
      simp [dotdotC]
  have hmain : composeOutputPath none (['a', '.', 'b']) u (['t', 'x', 't'])
      = ⟨false, [['a', '.', 't', 'x', 't']]⟩ := by
    rw [composeOutputPath, parsePath]
    rw [splitSlash_no_slash _ [] (by simpa using hslash)]
    simp [normalizeParts, RPath.withExtension, hstem, dotC, dotdotC, List.filter]
  refine ⟨hmain, fun f env st data e st1 hm hb he hg hcr => ?_⟩
  obtain ⟨hp, -⟩ := create_ok_path f env _ st data e st1 hm hcr
  rw [hp, hb, he, hg, hmain]

/-- Witness for C1: at the concrete UUID strings `u` and `uu` the
composed path for `a.b` is `a.txt` both times — the UUID is absent. -/
theorem c1_dotted_name_loses_uuid_witness :
    composeOutputPath none (['a', '.', 'b']) ['u'] (['t', 'x', 't'])
      = ⟨false, [['a', '.', 't', 'x', 't']]⟩
    ∧ composeOutputPath none (['a', '.', 'b']) ['u', 'u'] (['t', 'x', 't'])
      = ⟨false, [['a', '.', 't', 'x', 't']]⟩ :=
  ⟨(c1_dotted_name_loses_uuid ['u'] (by decide) (by decide)).1,
   (c1_dotted_name_loses_uuid ['u', 'u'] (by decide) (by decide)).1⟩

/-! ## Pointwise equations for the publish loop -/

theorem processPublicAssets_nil (f : Nat) (env : Env) (st : PackState) :
    processPublicAssets f env [] st = (.ok (), st) := rfl

theorem processPublicAssets_cons (f : Nat) (env : Env) (nm : Name) (rest : List Name)
    (st : PackState) :
    processPublicAssets f env (nm :: rest) st =
      match process f env nm st with
      | (.error e, st1) => (.error e, st1)
      | (.ok (entry, _), st1) =>
        let sourceFullPath := env.config.internal_directory_path.join entry.path
        let outputFullPath := env.config.target_directory_path.join entry.path
        if pathBad entry.path then (.error (.assetPathError entry.path), st1)
        else
          match alookup st1.fs sourceFullPath with
          | none => (.error (.ioError sourceFullPath), st1)
          | some b => processPublicAssets f env rest (fsWrite st1 outputFullPath b) := rfl

/-! ## Generic state-evolution lemma

Every engine call takes the state through the primitive transitions
only: a UUID-counter bump, a file write, a file removal, or a cache
insertion.  Any reflexive-transitive relation closed under those four
transitions is therefore preserved by every call. -/

section StateRel

variable (R : PackState → PackState → Prop)
variable (hrefl : ∀ st, R st st)
variable (htrans : ∀ a b c, R a b → R b c → R a c)
variable (hbump : ∀ st, R st { st with uuidCount := st.uuidCount + 1 })
variable (hwrite : ∀ st p b, R st (fsWrite st p b))
variable (hremove : ∀ st p, R st (fsRemove st p))
variable (hinsert : ∀ st k e, R st { st with cache := ainsert st.cache k e })

include hrefl htrans hbump hwrite hremove hinsert

theorem collect_rel_of_process (f : Nat) (env : Env)
    (hp : ∀ n st r st1, process f env n st = (r, st1) → R st st1) :
    ∀ names st r st1, collectInputPaths f env names st = (r, st1) → R st st1 := by
  intro names
  induction names with
  | nil =>
    intro st r st1 h
    rw [collectInputPaths_nil] at h
    obtain rfl : st = st1 := congrArg Prod.snd h
    exact hrefl st
  | cons n rest ih =>
    intro st r st1 h
    rw [collectInputPaths_cons] at h
    rcases hpr : process f env n st with ⟨pr, stp⟩
    rw [hpr] at h
    match pr with
    | .error e =>
      simp only at h
      obtain rfl : stp = st1 := congrArg Prod.snd h
      exact hp n st _ _ hpr
    | .ok (e, ch) =>
      simp only at h
      rcases hcr : collectInputPaths f env rest stp with ⟨cr, stc⟩
      rw [hcr] at h
      have h2 := htrans _ _ _ (hp n st _ stp hpr) (ih stp cr stc hcr)
      match cr with
      | .ok paths =>
        simp only at h
        obtain rfl : stc = st1 := congrArg Prod.snd h
        exact h2
      | .error e2 =>
        simp only at h
        obtain rfl : stc = st1 := congrArg Prod.snd h
        exact h2

theorem create_rel_of_collect (f : Nat) (env : Env)
    (hk : ∀ names st r st1, collectInputPaths f env names st = (r, st1) → R st st1) :
    ∀ n st r st1, create f env n st = (r, st1) → R st st1 := by
  intro n st r st1 h
  rw [create_unfold] at h
  rcases hm : alookup env.manifest.assets n with _ | data
  · rw [hm] at h
    obtain rfl : st = st1 := congrArg Prod.snd h
    exact hrefl st
  · rw [hm] at h
    simp only at h
    split at h
    · obtain rfl : ({ st with uuidCount := st.uuidCount + 1 } : PackState) = st1 :=
        congrArg Prod.snd h
      exact hbump st
    · rcases hs : data.source with fp | ftd
      · rw [hs] at h
        simp only at h
        split at h
        · obtain rfl : ({ st with uuidCount := st.uuidCount + 1 } : PackState) = st1 :=
            congrArg Prod.snd h
          exact hbump st
        · split at h
          · obtain rfl := congrArg Prod.snd h
            exact htrans _ _ _ (hbump st) (hwrite _ _ _)
          · obtain rfl := congrArg Prod.snd h
            exact htrans _ _ _ (hbump st) (hwrite _ _ _)
      · rw [hs] at h
        simp only at h
        rcases hc : collectInputPaths f env ftd.input_names
            { st with uuidCount := st.uuidCount + 1 } with ⟨cr, st2⟩
        rw [hc] at h
        have h2 := htrans _ _ _ (hbump st) (hk ftd.input_names _ cr st2 hc)
        match cr with
        | .error er =>
          simp only at h
          obtain rfl : st2 = st1 := congrArg Prod.snd h
          exact h2
        | .ok paths =>
          simp only at h
          split at h
          · obtain rfl : st2 = st1 := congrArg Prod.snd h
            exact h2
          · split at h
            · obtain rfl : st2 = st1 := congrArg Prod.snd h
              exact h2
            · split at h
              · obtain rfl : st2 = st1 := congrArg Prod.snd h
                exact h2
              · obtain rfl : fsWrite st2 _ _ = st1 := congrArg Prod.snd h
                exact htrans _ _ _ h2 (hwrite _ _ _)

theorem hasUpdated_rel_of_process (f : Nat) (env : Env)
    (hp : ∀ n st r st1, process f env n st = (r, st1) → R st st1) :
    ∀ names st r st1, hasUpdatedInputs f env names st = (r, st1) → R st st1 := by
  intro names
  induction names with
  | nil =>
    intro st r st1 h
    rw [hasUpdatedInputs_nil] at h
    obtain rfl : st = st1 := congrArg Prod.snd h
    exact hrefl st
  | cons n rest ih =>
    intro st r st1 h
    rw [hasUpdatedInputs_cons] at h
    rcases hpr : process f env n st with ⟨pr, stp⟩
    rw [hpr] at h
    match pr with
    | .error e =>
      simp only at h
      obtain rfl : stp = st1 := congrArg Prod.snd h
      exact hp n st _ _ hpr
    | .ok (e, ch) =>
      simp only at h
      cases ch with
      | true =>
        simp only [if_true] at h
        obtain rfl : stp = st1 := congrArg Prod.snd h
        exact hp n st _ _ hpr
      | false =>
        simp only [Bool.false_eq_true, if_false] at h
        exact htrans _ _ _ (hp n st _ stp hpr) (ih stp r st1 h)

theorem needCheck_rel (f : Nat) (env : Env)
    (hh : ∀ names st r st1, hasUpdatedInputs f env names st = (r, st1) → R st st1) :
    ∀ self nd st r st1, needUpdateCheck f env self nd st = (r, st1) → R st st1 := by
  intro self nd st r st1 h
  rw [needUpdateCheck_unfold] at h
  split at h
  · obtain rfl : st = st1 := congrArg Prod.snd h
    exact hrefl st
  · rcases hs : self.data.source with fp | ftd
    · rw [hs] at h
      simp only at h
      split at h
      · obtain rfl : st = st1 := congrArg Prod.snd h
        exact hrefl st
      · split at h
        · obtain rfl : st = st1 := congrArg Prod.snd h
          exact hrefl st
        · obtain rfl : st = st1 := congrArg Prod.snd h
          exact hrefl st
    · rw [hs] at h
      exact hh ftd.input_names st r st1 h

theorem update_rel (f : Nat) (env : Env)
    (hn : ∀ self nd st r st1, needUpdateCheck f env self nd st = (r, st1) → R st st1)
    (hc : ∀ n st r st1, create f env n st = (r, st1) → R st st1) :
    ∀ self st r st1, update f env self st = (r, st1) → R st st1 := by
  intro self st r st1 h
  rw [update_unfold] at h
  rcases hm : alookup env.manifest.assets self.name with _ | nd
  · rw [hm] at h
    obtain rfl : st = st1 := congrArg Prod.snd h
    exact hrefl st
  · rw [hm] at h
    simp only at h
    rcases hcn : needUpdateCheck f env self nd st with ⟨cn, stc⟩
    rw [hcn] at h
    have h1 := hn self nd st cn stc hcn
    match cn with
    | .error e =>
      simp only at h
      obtain rfl : stc = st1 := congrArg Prod.snd h
      exact h1
    | .ok false =>
      simp only at h
      obtain rfl : stc = st1 := congrArg Prod.snd h
      exact h1
    | .ok true =>
      simp only at h
      rcases hcr : create f env self.name
          (if fsExists (if fsExists stc (env.config.internal_directory_path.join self.path)
              then fsRemove stc (env.config.internal_directory_path.join self.path) else stc)
            (env.config.target_directory_path.join self.path) then
            fsRemove (if fsExists stc (env.config.internal_directory_path.join self.path)
              then fsRemove stc (env.config.internal_directory_path.join self.path) else stc)
              (env.config.target_directory_path.join self.path)
          else (if fsExists stc (env.config.internal_directory_path.join self.path)
              then fsRemove stc (env.config.internal_directory_path.join self.path) else stc))
        with ⟨cr, st4⟩
      rw [hcr] at h
      have h2 : R stc st4 := by
        refine htrans _ _ _ ?_ (hc self.name _ cr st4 hcr)
        split <;> split
        · exact htrans _ _ _ (hremove _ _) (hremove _ _)
        · exact hremove _ _
        · exact hremove _ _
        · exact hrefl _
      have h3 := htrans _ _ _ h1 h2
      match cr with
      | .ok e2 =>
        simp only at h
        obtain rfl : st4 = st1 := congrArg Prod.snd h
        exact h3
      | .error e2 =>
        simp only at h
        obtain rfl : st4 = st1 := congrArg Prod.snd h
        exact h3

theorem process_rel (env : Env) :
    ∀ f n st r st1, process f env n st = (r, st1) → R st st1 := by
  intro f
  induction f with
  | zero =>
    intro n st r st1 h
    rw [process_zero] at h
    obtain rfl : st = st1 := congrArg Prod.snd h
    exact hrefl st
  | succ f ih =>
    have hcr := create_rel_of_collect R hrefl htrans hbump hwrite hremove hinsert f env
      (collect_rel_of_process R hrefl htrans hbump hwrite hremove hinsert f env ih)
    have hup := update_rel R hrefl htrans hbump hwrite hremove hinsert f env
      (needCheck_rel R hrefl htrans hbump hwrite hremove hinsert f env
        (hasUpdated_rel_of_process R hrefl htrans hbump hwrite hremove hinsert f env ih)) hcr
    intro n st r st1 h
    rw [process_succ] at h
    rcases hl : alookup st.cache n with _ | entry
    · rw [hl] at h
      simp only at h
      rcases hce : create f env n st with ⟨ce, stc⟩
      rw [hce] at h
      have h2 := hcr n st ce stc hce
      match ce with
      | .ok e2 =>
        simp only at h
        obtain rfl : ({ stc with cache := ainsert stc.cache n e2 } : PackState) = st1 :=
          congrArg Prod.snd h
        exact htrans _ _ _ h2 (hinsert _ _ _)
      | .error e2 =>
        simp only at h
        obtain rfl : stc = st1 := congrArg Prod.snd h
        exact h2
    · rw [hl] at h
      simp only at h
      rcases hue : update f env entry st with ⟨ue, stu⟩
      rw [hue] at h
      have h2 := hup entry st ue stu hue
      match ue with
      | .ok (some e2) =>
        simp only at h
        obtain rfl : ({ stu with cache := ainsert stu.cache n e2 } : PackState) = st1 :=
          congrArg Prod.snd h
        exact htrans _ _ _ h2 (hinsert _ _ _)
      | .ok none =>
        simp only at h
        obtain rfl : stu = st1 := congrArg Prod.snd h
        exact h2
      | .error e2 =>
        simp only at h
        obtain rfl : stu = st1 := congrArg Prod.snd h
        exact h2

theorem processPublicAssets_rel (env : Env) (f : Nat) :
    ∀ names st r st1, processPublicAssets f env names st = (r, st1) → R st st1 := by
  intro names
  induction names with
  | nil =>
    intro st r st1 h
    rw [processPublicAssets_nil] at h
    obtain rfl : st = st1 := congrArg Prod.snd h
    exact hrefl st
  | cons n rest ih =>
    intro st r st1 h
    rw [processPublicAssets_cons] at h
    rcases hpr : process f env n st with ⟨pr, stp⟩
    rw [hpr] at h
    have h1 := process_rel R hrefl htrans hbump hwrite hremove hinsert env f n st pr stp hpr
    match pr with
    | .error e =>
      simp only at h
      obtain rfl : stp = st1 := congrArg Prod.snd h
      exact h1
    | .ok (e, ch) =>
      simp only at h
      split at h
      · obtain rfl : stp = st1 := congrArg Prod.snd h
        exact h1
      · rcases hb : alookup stp.fs (env.config.internal_directory_path.join e.path) with _ | b
        · rw [hb] at h
          simp only at h
          obtain rfl : stp = st1 := congrArg Prod.snd h
          exact h1
        · rw [hb] at h
          simp only at h
          exact htrans _ _ _ (htrans _ _ _ h1 (hwrite _ _ _)) (ih _ r st1 h)

end StateRel

/-! ## Instances: the UUID counter and the cache key set only grow -/

theorem process_uuid_mono (env : Env) (f : Nat) (n : Name) (st : PackState)
    (r : Except AssetErrorType (AssetCacheEntry × Bool)) (st1 : PackState)
    (h : process f env n st = (r, st1)) : st.uuidCount ≤ st1.uuidCount :=
  process_rel (fun a b => a.uuidCount ≤ b.uuidCount)
    (fun _ => le_refl _) (fun _ _ _ hab hbc => le_trans hab hbc)
    (fun st => Nat.le_succ _) (fun _ _ _ => le_refl _) (fun _ _ => le_refl _)
    (fun _ _ _ => le_refl _) env f n st r st1 h

theorem collect_uuid_mono (env : Env) (f : Nat) (names : List Name) (st : PackState)
    (r : Except AssetErrorType (List RPath)) (st1 : PackState)
    (h : collectInputPaths f env names st = (r, st1)) : st.uuidCount ≤ st1.uuidCount :=
  collect_rel_of_process (fun a b => a.uuidCount ≤ b.uuidCount)
    (fun _ => le_refl _) (fun _ _ _ hab hbc => le_trans hab hbc)
    (fun st => Nat.le_succ _) (fun _ _ _ => le_refl _) (fun _ _ => le_refl _)
    (fun _ _ _ => le_refl _) f env
    (fun n st r st1 h => process_uuid_mono env f n st r st1 h) names st r st1 h

theorem alookup_ainsert_isSome {κ α : Type} [DecidableEq κ] (l : List (κ × α)) (k q : κ) (v : α)
    (h : (alookup l q).isSome = true) : (alookup (ainsert l k v) q).isSome = true := by
  by_cases hk : q = k
  · subst hk
    rw [alookup_ainsert_self]
    rfl
  · rw [alookup_ainsert_ne l k q v hk]
    exact h

theorem process_keys_mono (env : Env) (f : Nat) (n : Name) (st : PackState)
    (r : Except AssetErrorType (AssetCacheEntry × Bool)) (st1 : PackState)
    (h : process f env n st = (r, st1)) :
    ∀ k, (alookup st.cache k).isSome = true → (alookup st1.cache k).isSome = true :=
  process_rel
    (fun a b => ∀ k, (alookup a.cache k).isSome = true → (alookup b.cache k).isSome = true)
    (fun _ _ hk => hk) (fun _ _ _ hab hbc k hk => hbc k (hab k hk))
    (fun _ _ hk => hk) (fun _ _ _ _ hk => hk) (fun _ _ _ hk => hk)
    (fun st k e q hq => alookup_ainsert_isSome st.cache k q e hq) env f n st r st1 h

theorem processPublicAssets_keys_mono (env : Env) (f : Nat) (names : List Name) (st : PackState)
    (r : Except AssetErrorType Unit) (st1 : PackState)
    (h : processPublicAssets f env names st = (r, st1)) :
    ∀ k, (alookup st.cache k).isSome = true → (alookup st1.cache k).isSome = true :=
  processPublicAssets_rel
    (fun a b => ∀ k, (alookup a.cache k).isSome = true → (alookup b.cache k).isSome = true)
    (fun _ _ hk => hk) (fun _ _ _ hab hbc k hk => hbc k (hab k hk))
    (fun _ _ hk => hk) (fun _ _ _ _ hk => hk) (fun _ _ _ hk => hk)
    (fun st k e q hq => alookup_ainsert_isSome st.cache k q e hq) env f names st r st1 h

/-! ## A propagated AssetPathError always advances the UUID counter

The path check fires only inside `create`, after the UUID draw; this
distinguishes an entry's own path error (final counter exactly one more)
from one propagated out of a recursive input. -/

theorem needCheck_uuid_mono (env : Env) (f : Nat) (self : AssetCacheEntry) (nd : AssetData)
    (st : PackState) (r : Except AssetErrorType Bool) (st1 : PackState)
    (h : needUpdateCheck f env self nd st = (r, st1)) : st.uuidCount ≤ st1.uuidCount :=
  needCheck_rel (fun a b => a.uuidCount ≤ b.uuidCount)
    (fun _ => le_refl _) (fun _ _ _ hab hbc => le_trans hab hbc)
    (fun _ => Nat.le_succ _) (fun _ _ _ => le_refl _) (fun _ _ => le_refl _)
    (fun _ _ _ => le_refl _) f env
    (hasUpdated_rel_of_process (fun a b => a.uuidCount ≤ b.uuidCount)
      (fun _ => le_refl _) (fun _ _ _ hab hbc => le_trans hab hbc)
      (fun _ => Nat.le_succ _) (fun _ _ _ => le_refl _) (fun _ _ => le_refl _)
      (fun _ _ _ => le_refl _) f env
      (fun n st r st1 h => process_uuid_mono env f n st r st1 h))
    self nd st r st1 h

theorem readInputFiles_error_ioError (st : PackState) (paths : List RPath)
    (e : AssetErrorType) (h : readInputFiles st paths = .error e) : ∃ q, e = .ioError q := by
  induction paths with
  | nil => simp [readInputFiles] at h
  | cons p rest ih =>
    rw [readInputFiles] at h
    rcases hb : alookup st.fs p with _ | b
    · rw [hb] at h
      exact ⟨p, (Except.error.inj h).symm⟩
    · rw [hb] at h
      rcases hr : readInputFiles st rest with e2 | l
      · rw [hr] at h
        simp only [Except.map] at h
        exact ih (by rw [hr, Except.error.inj h])
      · rw [hr] at h
        simp [Except.map] at h

theorem collect_pathError_bump (f : Nat) (env : Env)
    (hp : ∀ n st p st1, process f env n st = (.error (.assetPathError p), st1) →
      st.uuidCount < st1.uuidCount) :
    ∀ names st p st1, collectInputPaths f env names st = (.error (.assetPathError p), st1) →
      st.uuidCount < st1.uuidCount := by
  intro names
  induction names with
  | nil =>
    intro st p st1 h
    rw [collectInputPaths_nil] at h
    simp at h
  | cons n rest ih =>
    intro st p st1 h
    rw [collectInputPaths_cons] at h
    rcases hpr : process f env n st with ⟨pr, stp⟩
    rw [hpr] at h
    match pr with
    | .error e =>
      simp only [Prod.mk.injEq] at h
      obtain ⟨he, rfl⟩ := h
      exact hp n st p _ (by rw [hpr, Except.error.inj he])
    | .ok (e, ch) =>
      simp only at h
      rcases hcr : collectInputPaths f env rest stp with ⟨cr, stc⟩
      rw [hcr] at h
      match cr with
      | .ok paths => simp at h
      | .error e2 =>
        simp only [Prod.mk.injEq] at h
        obtain ⟨he, rfl⟩ := h
        have h1 := process_uuid_mono env f n st _ stp hpr
        have h2 := ih stp p _ (by rw [hcr, Except.error.inj he])
        exact lt_of_le_of_lt h1 h2

theorem create_pathError_bump (f : Nat) (env : Env)
    (hk : ∀ names st p st1, collectInputPaths f env names st = (.error (.assetPathError p), st1) →
      st.uuidCount < st1.uuidCount) :
    ∀ n st p st1, create f env n st = (.error (.assetPathError p), st1) →
      st.uuidCount < st1.uuidCount := by
  intro n st p st1 h
  rw [create_unfold] at h
  rcases hm : alookup env.manifest.assets n with _ | data
  · rw [hm] at h
    simp at h
  · rw [hm] at h
    simp only at h
    split at h
    · simp only [Prod.mk.injEq] at h
      obtain ⟨-, rfl⟩ := h
      exact Nat.lt_succ_self _
    · rcases hs : data.source with fp | ftd
      · rw [hs] at h
        simp only at h
        split at h
        · simp at h
        · split at h
          · simp at h
          · simp at h
      · rw [hs] at h
        simp only at h
        rcases hc : collectInputPaths f env ftd.input_names
            { st with uuidCount := st.uuidCount + 1 } with ⟨cr, st2⟩
        rw [hc] at h
        match cr with
        | .error er =>
          simp only [Prod.mk.injEq] at h
          obtain ⟨he, rfl⟩ := h
          have h2 := hk ftd.input_names _ p _ (by rw [hc, Except.error.inj he])
          exact lt_trans (Nat.lt_succ_self _) h2
        | .ok paths =>
          simp only at h
          split at h
          · simp at h
          · split at h
            · simp only [Prod.mk.injEq] at h
              obtain ⟨-, rfl⟩ := h
              have h2 := collect_uuid_mono env f ftd.input_names _ _ _ hc
              exact lt_of_lt_of_le (Nat.lt_succ_self _) h2
            · split at h
              · simp at h
              · simp at h

theorem needCheck_pathError_bump (f : Nat) (env : Env)
    (hh : ∀ names st p st1, hasUpdatedInputs f env names st = (.error (.assetPathError p), st1) →
      st.uuidCount < st1.uuidCount) :
    ∀ self nd st p st1, needUpdateCheck f env self nd st = (.error (.assetPathError p), st1) →
      st.uuidCount < st1.uuidCount := by
  intro self nd st p st1 h
  rw [needUpdateCheck_unfold] at h
  split at h
  · simp at h
  · rcases hs : self.data.source with fp | ftd
    · rw [hs] at h
      simp only at h
      split at h
      · simp at h
      · split at h
        · simp at h
        · simp at h
    · rw [hs] at h
      exact hh ftd.input_names st p st1 h

theorem hasUpdated_pathError_bump (f : Nat) (env : Env)
    (hp : ∀ n st p st1, process f env n st = (.error (.assetPathError p), st1) →
      st.uuidCount < st1.uuidCount) :
    ∀ names st p st1, hasUpdatedInputs f env names st = (.error (.assetPathError p), st1) →
      st.uuidCount < st1.uuidCount := by
  intro names
  induction names with
  | nil =>
    intro st p st1 h
    rw [hasUpdatedInputs_nil] at h
    simp at h
  | cons n rest ih =>
    intro st p st1 h
    rw [hasUpdatedInputs_cons] at h
    rcases hpr : process f env n st with ⟨pr, stp⟩
    rw [hpr] at h
    match pr with
    | .error e =>
      simp only [Prod.mk.injEq] at h
      obtain ⟨he, rfl⟩ := h
      exact hp n st p _ (by rw [hpr, Except.error.inj he])
    | .ok (e, ch) =>
      simp only at h
      cases ch with
      | true => simp at h
      | false =>
        simp only [Bool.false_eq_true, if_false] at h
        have h1 := process_uuid_mono env f n st _ stp hpr
        exact lt_of_le_of_lt h1 (ih stp p st1 h)

theorem update_pathError_bump (f : Nat) (env : Env)
    (hn : ∀ self nd st p st1, needUpdateCheck f env self nd st = (.error (.assetPathError p), st1) →
      st.uuidCount < st1.uuidCount)
    (hc : ∀ n st p st1, create f env n st = (.error (.assetPathError p), st1) →
      st.uuidCount < st1.uuidCount) :
    ∀ self st p st1, update f env self st = (.error (.assetPathError p), st1) →
      st.uuidCount < st1.uuidCount := by
  intro self st p st1 h
  rw [update_unfold] at h
  rcases hm : alookup env.manifest.assets self.name with _ | nd
  · rw [hm] at h
    simp at h
  · rw [hm] at h
    simp only at h
    rcases hcn : needUpdateCheck f env self nd st with ⟨cn, stc⟩
    rw [hcn] at h
    match cn with
    | .error e =>
      simp only [Prod.mk.injEq] at h
      obtain ⟨he, rfl⟩ := h
      exact hn self nd st p _ (by rw [hcn, Except.error.inj he])
    | .ok false => simp at h
    | .ok true =>
      simp only at h
      rcases hcr : create f env self.name
          (if fsExists (if fsExists stc (env.config.internal_directory_path.join self.path)
              then fsRemove stc (env.config.internal_directory_path.join self.path) else stc)
            (env.config.target_directory_path.join self.path) then
            fsRemove (if fsExists stc (env.config.internal_directory_path.join self.path)
              then fsRemove stc (env.config.internal_directory_path.join self.path) else stc)
              (env.config.target_directory_path.join self.path)
          else (if fsExists stc (env.config.internal_directory_path.join self.path)
              then fsRemove stc (env.config.internal_directory_path.join self.path) else stc))
        with ⟨cr, st4⟩
      rw [hcr] at h
      match cr with
      | .ok e2 => simp at h
      | .error e2 =>
        simp only [Prod.mk.injEq] at h
        obtain ⟨he, rfl⟩ := h
        have h1 := needCheck_uuid_mono env f self nd st _ stc hcn
        have h2 := hc self.name _ p _ (by rw [hcr, Except.error.inj he])
        refine lt_of_le_of_lt h1 ?_
        refine lt_of_le_of_lt ?_ h2
        split <;> split <;> simp [fsRemove]

theorem process_pathError_bump (env : Env) :
    ∀ f n st p st1, process f env n st = (.error (.assetPathError p), st1) →
      st.uuidCount < st1.uuidCount := by
  intro f
  induction f with
  | zero =>
    intro n st p st1 h
    rw [process_zero] at h
    simp at h
  | succ f ih =>
    have hcr := create_pathError_bump f env (collect_pathError_bump f env ih)
    have hup := update_pathError_bump f env
      (needCheck_pathError_bump f env (hasUpdated_pathError_bump f env ih)) hcr
    intro n st p st1 h
    rw [process_succ] at h
    rcases hl : alookup st.cache n with _ | entry
    · rw [hl] at h
      simp only at h
      rcases hce : create f env n st with ⟨ce, stc⟩
      rw [hce] at h
      match ce with
      | .ok e2 => simp at h
      | .error e2 =>
        simp only [Prod.mk.injEq] at h
        obtain ⟨he, rfl⟩ := h
        exact hcr n st p _ (by rw [hce, Except.error.inj he])
    · rw [hl] at h
      simp only at h
      rcases hue : update f env entry st with ⟨ue, stu⟩
      rw [hue] at h
      match ue with
      | .ok (some e2) => simp at h
      | .ok none => simp at h
      | .error e2 =>
        simp only [Prod.mk.injEq] at h
        obtain ⟨he, rfl⟩ := h
        exact hup entry st p _ (by rw [hue, Except.error.inj he])

/-- C2.  `create` fails with `AssetPathError` on its composed output
path exactly when that path has a root component or its lexically
normalized form (spec-modelled `parse_dot`, section 4.1) has `..` as
its first component — the strict reading holds of the embedded check:
bare or interior `..` chains that normalize to a leading `..` are
rejected just like `../x`, as the last two conjuncts exhibit — and in
the publish step the same check on `entry.path` fails the iteration
with the same `AssetPathError`.  (In the iff, the final state pins the
failure to this entry's own check: a path error propagated out of a
recursive input advances the UUID counter further.) -/
theorem c2_path_check (f : Nat) (env : Env) (nm : Name) (st : PackState) (data : AssetData)
    (hm : alookup env.manifest.assets nm = some data) :
    (pathBad (composeOutputPath data.output_base_path nm (env.uuidGen st.uuidCount)
        data.extension) = true
      ↔ create f env nm st =
          (.error (.assetPathError (composeOutputPath data.output_base_path nm
              (env.uuidGen st.uuidCount) data.extension)),
           { st with uuidCount := st.uuidCount + 1 }))
    ∧ (∀ rest e ch st1, process f env nm st = (.ok (e, ch), st1) →
        pathBad e.path = true →
        processPublicAssets f env (nm :: rest) st = (.error (.assetPathError e.path), st1))
    ∧ pathBad ⟨false, [dotdotC, ['x']]⟩ = true
    ∧ pathBad ⟨false, [['x'], dotdotC, dotdotC]⟩ = true
    ∧ pathBad ⟨false, [['x'], dotdotC]⟩ = false := by
  refine ⟨⟨?_, ?_⟩, ?_, by decide, by decide, by decide⟩
  · intro hpb
    rw [create_unfold, hm]
    simp only
    rw [if_pos hpb]
  · intro h
    by_cases hpb : pathBad (composeOutputPath data.output_base_path nm
        (env.uuidGen st.uuidCount) data.extension) = true
    · exact hpb
    · exfalso
      rw [create_unfold, hm] at h
      simp only at h
      rw [if_neg hpb] at h
      rcases hs : data.source with fp | ftd
      · rw [hs] at h
        simp only at h
        split at h
        · simp at h
        · split at h
          · simp at h
          · simp at h
      · rw [hs] at h
        simp only at h
        rcases hc : collectInputPaths f env ftd.input_names
            { st with uuidCount := st.uuidCount + 1 } with ⟨cr, st2⟩
        rw [hc] at h
        match cr with
        | .error er =>
          simp only [Prod.mk.injEq] at h
          obtain ⟨he, hst⟩ := h
          have hbump := collect_pathError_bump f env
            (fun n st p st1 hq => process_pathError_bump env f n st p st1 hq)
            ftd.input_names _ _ _ (by rw [hc, Except.error.inj he])
          rw [hst] at hbump
          simp at hbump
        | .ok paths =>
          simp only at h
          split at h
          · simp at h
          · split at h
            · rename_i e2 heq
              simp only [Prod.mk.injEq] at h
              obtain ⟨he, -⟩ := h
              obtain ⟨q, rfl⟩ := readInputFiles_error_ioError _ _ e2 heq
              simp at he
            · split at h
              · simp at h
              · simp at h
  · intro rest e ch st1 hp hbad
    rw [processPublicAssets_cons, hp]
    simp only
    rw [if_pos hbad]

/-- Witness for C2: the asset whose `output_base_path` is `..` — the
spec's Scenario E — composes the escaping path `../a-u.t`, the check
fires, and `create` fails with `AssetPathError` on it. -/
theorem c2_path_check_witness :
    create 0 wEnvBad wNameA wSt0 =
      (.error (.assetPathError (composeOutputPath (some ⟨false, [dotdotC]⟩) wNameA
          (wUuid 0) ['t'])),
       { wSt0 with uuidCount := 1 }) :=
  (c2_path_check 0 wEnvBad wNameA wSt0 wDataBad (by decide)).1.mp (by decide)

/-- C7.  When `process` succeeds for a public asset whose path passes
the check, the iteration of `process_public_assets` copies the bytes at
`internal_directory/entry.path` to `target_directory/entry.path` and
continues with the remaining names — with `changed` universally
quantified, so the copy also runs when `process` reported
`changed = false` — and the target file afterwards holds exactly the
copied bytes. -/
theorem c7_publish_copy_unconditional (f : Nat) (env : Env) (nm : Name) (rest : List Name)
    (st : PackState) (e : AssetCacheEntry) (ch : Bool) (st1 : PackState) (b : Bytes)
    (hp : process f env nm st = (.ok (e, ch), st1))
    (hok : pathBad e.path = false)
    (hb : alookup st1.fs (env.config.internal_directory_path.join e.path) = some b) :
    processPublicAssets f env (nm :: rest) st =
      processPublicAssets f env rest
        (fsWrite st1 (env.config.target_directory_path.join e.path) b)
    ∧ alookup (fsWrite st1 (env.config.target_directory_path.join e.path) b).fs
        (env.config.target_directory_path.join e.path) = some b := by
  constructor
  · rw [processPublicAssets_cons, hp]
    simp only
    rw [if_neg (by rw [hok]; exact Bool.false_ne_true), hb]
  · exact alookup_ainsert_self st1.fs _ b

/-- Witness for C7: publishing the fresh (unchanged, `changed = false`)
asset `a` still performs the copy into the target directory. -/
theorem c7_publish_copy_unconditional_witness :
    processPublicAssets 2 wEnv [wNameA] wStFresh =
      processPublicAssets 2 wEnv []
        (fsWrite wStFresh (wDirT.join wPathA) [1, 2])
    ∧ alookup (fsWrite wStFresh (wDirT.join wPathA) [1, 2]).fs
        (wDirT.join wPathA) = some [1, 2] :=
  c7_publish_copy_unconditional 2 wEnv wNameA [] wStFresh wEntryA false wStFresh [1, 2]
    (by decide) (by decide) (by decide)

/-! ## C5: pack persists the cache map even on failure -/

theorem process_ok_key (f : Nat) (env : Env) (nm : Name) (st : PackState)
    (pr : AssetCacheEntry × Bool) (st1 : PackState)
    (h : process f env nm st = (.ok pr, st1)) : (alookup st1.cache nm).isSome = true := by
  match f with
  | 0 =>
    rw [process_zero] at h
    simp at h
  | f + 1 =>
    rw [process_succ] at h
    rcases hl : alookup st.cache nm with _ | entry
    · rw [hl] at h
      simp only at h
      rcases hce : create f env nm st with ⟨ce, stc⟩
      rw [hce] at h
      match ce with
      | .error e2 => simp at h
      | .ok e2 =>
        simp only [Prod.mk.injEq] at h
        obtain ⟨-, rfl⟩ := h
        rw [show alookup (ainsert stc.cache nm e2) nm = some e2 from
          alookup_ainsert_self stc.cache nm e2]
        rfl
    · rw [hl] at h
      simp only at h
      rcases hue : update f env entry st with ⟨ue, stu⟩
      rw [hue] at h
      match ue with
      | .error e2 => simp at h
      | .ok (some e2) =>
        simp only [Prod.mk.injEq] at h
        obtain ⟨-, rfl⟩ := h
        rw [show alookup (ainsert stu.cache nm e2) nm = some e2 from
          alookup_ainsert_self stu.cache nm e2]
        rfl
      | .ok none =>
        simp only [Prod.mk.injEq] at h
        obtain ⟨-, rfl⟩ := h
        obtain rfl : stu = st := update_none_pure f env entry st stu hue
        rw [hl]
        rfl

theorem processPublicAssets_error_split (f : Nat) (env : Env) :
    ∀ names st er stf, processPublicAssets f env names st = (.error er, stf) →
      ∃ done nm rest, names = done ++ nm :: rest
        ∧ ∀ m ∈ done, (alookup stf.cache m).isSome = true := by
  intro names
  induction names with
  | nil =>
    intro st er stf h
    rw [processPublicAssets_nil] at h
    simp at h
  | cons n rest2 ih =>
    intro st er stf h
    rw [processPublicAssets_cons] at h
    rcases hpr : process f env n st with ⟨pr, stp⟩
    rw [hpr] at h
    match pr with
    | .error e =>
      exact ⟨[], n, rest2, rfl, by simp⟩
    | .ok (e, ch) =>
      simp only at h
      split at h
      · exact ⟨[], n, rest2, rfl, by simp⟩
      · rcases hb : alookup stp.fs (env.config.internal_directory_path.join e.path) with _ | b
        · rw [hb] at h
          exact ⟨[], n, rest2, rfl, by simp⟩
        · rw [hb] at h
          simp only at h
          obtain ⟨done2, nm2, rest3, hsplit, hmem⟩ := ih _ er stf h
          refine ⟨n :: done2, nm2, rest3, by rw [List.cons_append, hsplit], ?_⟩
          intro m hm
          rcases List.mem_cons.mp hm with rfl | hm2
          · have h1 := process_ok_key f env m st (e, ch) stp hpr
            have h2 : (alookup (fsWrite stp (env.config.target_directory_path.join e.path) b).cache
                m).isSome = true := h1
            exact processPublicAssets_keys_mono env f rest2 _ _ stf h m h2
          · exact hmem m hm2

/-- C5.  `pack` writes the cache-manifest file — serializing the
current V1 cache map — even when `process_public_assets` returns an
error: the persisted map is exactly the final cache map, every public
asset processed before the failing one still has its entry in it, and
the original processing error is returned to the caller. -/
theorem c5_pack_persists_on_error (f : Nat) (env : Env) (st : PackState)
    (er : AssetErrorType) (stf : PackState) (per : List (Name × AssetCacheEntry))
    (h : pack f env st = ⟨.error er, stf, per⟩) :
    per = stf.cache
    ∧ ∃ done nm rest, env.manifest.public_assets = done ++ nm :: rest
        ∧ ∀ m ∈ done, (alookup per m).isSome = true := by
  rw [pack] at h
  rcases hspp : processPublicAssets f env env.manifest.public_assets st with ⟨r, st1⟩
  rw [hspp] at h
  simp only [PackOutcome.mk.injEq] at h
  obtain ⟨hr, hst, hper⟩ := h
  subst hst
  subst hr
  refine ⟨hper.symm, ?_⟩
  obtain ⟨done, nm, rest, hsplit, hmem⟩ :=
    processPublicAssets_error_split f env env.manifest.public_assets st er st1 hspp
  exact ⟨done, nm, rest, hsplit, fun m hm => by rw [← hper]; exact hmem m hm⟩

/-- Witness for C5: the public list `[a, z]` fails at `z`; the cache
entry created for `a` is in the persisted map and the error is
returned. -/
theorem c5_pack_persists_on_error_witness :
    (pack 2 wEnvC5 wSt0).persistedCache = (pack 2 wEnvC5 wSt0).state.cache
    ∧ ∃ done nm rest, wEnvC5.manifest.public_assets = done ++ nm :: rest
        ∧ ∀ m ∈ done, (alookup (pack 2 wEnvC5 wSt0).persistedCache m).isSome = true :=
  c5_pack_persists_on_error 2 wEnvC5 wSt0 (.assetNotFoundInManifestError wNameZ)
    (pack 2 wEnvC5 wSt0).state (pack 2 wEnvC5 wSt0).persistedCache (by decide)

/-! ## C10: the rebuild path deletes both artifacts before create -/

theorem alookup_none_of_not_keys {κ α : Type} [DecidableEq κ] (l : List (κ × α)) (k : κ)
    (h : k ∉ l.map Prod.fst) : alookup l k = none := by
  induction l with
  | nil => rfl
  | cons p t ih =>
    rcases p with ⟨k2, w⟩
    have hne : k ≠ k2 := fun hc => h (by simp [hc])
    rw [alookup, if_neg hne]
    exact ih (fun hc => h (by simp; right; simpa using hc))

theorem aerase_keys_sublist {κ α : Type} [DecidableEq κ] (l : List (κ × α)) (k : κ) :
    ((aerase l k).map Prod.fst).Sublist (l.map Prod.fst) := by
  induction l with
  | nil => simp [aerase]
  | cons p t ih =>
    rcases p with ⟨k2, w⟩
    by_cases hk : k = k2
    · rw [aerase, if_pos hk]
      simp only [List.map_cons]
      exact List.sublist_cons_self k2 _
    · rw [aerase, if_neg hk]
      simp only [List.map_cons]
      exact List.Sublist.cons₂ k2 ih

theorem alookup_aerase_self {κ α : Type} [DecidableEq κ] (l : List (κ × α)) (k : κ)
    (h : (l.map Prod.fst).Nodup) : alookup (aerase l k) k = none := by
  induction l with
  | nil => rfl
  | cons p t ih =>
    rcases p with ⟨k2, w⟩
    simp only [List.map_cons, List.nodup_cons] at h
    by_cases hk : k = k2
    · rw [aerase, if_pos hk]
      exact alookup_none_of_not_keys t k (hk ▸ h.1)
    · rw [aerase, if_neg hk, alookup, if_neg hk]
      exact ih h.2

theorem condRemove_eq (st : PackState) (p : RPath) :
    (if fsExists st p then fsRemove st p else st) = fsRemove st p := by
  by_cases h : fsExists st p = true
  · rw [if_pos h]
  · rw [if_neg (by simpa using h)]
    have hn : alookup st.fs p = none := by
      rcases hl : alookup st.fs p with _ | v
      · rfl
      · exfalso
        apply h
        rw [fsExists, hl]
        rfl
    rw [fsRemove, aerase_of_not_mem st.fs p hn]

/-- C10.  When `update` decides a rebuild is needed (triggered here by
a manifest edit, and in the final conjunct by the missing-intermediate
test), it deletes the existing files at `internal_directory/path` and
`target_directory/path` and only then calls `create` on the resulting
state, in which both artifacts are gone; if that `create` fails, the
error is propagated by `process` with no insertion, and — under the
no-self-reference hypotheses of spec section 4.3 — the old entry is
still stored unmodified in the cache map, while a later `update` of
that entry from any state without the intermediate file takes the
rebuild path again. -/
theorem c10_delete_before_recreate (f : Nat) (env : Env) (self : AssetCacheEntry)
    (st : PackState) (nd : AssetData)
    (hm : alookup env.manifest.assets self.name = some nd)
    (hne : nd ≠ self.data) :
    (update f env self st =
      (match create f env self.name
          (fsRemove (fsRemove st (env.config.internal_directory_path.join self.path))
            (env.config.target_directory_path.join self.path)) with
        | (.ok entry, st4) => (.ok (some entry), st4)
        | (.error e, st4) => (.error e, st4)))
    ∧ ((st.fs.map Prod.fst).Nodup →
        fsExists (fsRemove (fsRemove st (env.config.internal_directory_path.join self.path))
            (env.config.target_directory_path.join self.path))
          (env.config.internal_directory_path.join self.path) = false)
    ∧ (∀ er st4,
        alookup st.cache self.name = some self →
        ManifestAvoids env self.name → CacheAvoids st self.name →
        create f env self.name
            (fsRemove (fsRemove st (env.config.internal_directory_path.join self.path))
              (env.config.target_directory_path.join self.path)) = (.error er, st4) →
        process (f + 1) env self.name st = (.error er, st4)
        ∧ alookup st4.cache self.name = some self)
    ∧ (∀ f2 st5, fsExists st5 (env.config.internal_directory_path.join self.path) = false →
        update f2 env self st5 =
          (match create f2 env self.name
              (fsRemove (fsRemove st5 (env.config.internal_directory_path.join self.path))
                (env.config.target_directory_path.join self.path)) with
            | (.ok entry, st4) => (.ok (some entry), st4)
            | (.error e, st4) => (.error e, st4))) := by
  have hupd : update f env self st =
      (match create f env self.name
          (fsRemove (fsRemove st (env.config.internal_directory_path.join self.path))
            (env.config.target_directory_path.join self.path)) with
        | (.ok entry, st4) => (.ok (some entry), st4)
        | (.error e, st4) => (.error e, st4)) := by
    rw [update_unfold, hm]
    simp only
    rw [needUpdateCheck_unfold, if_pos (Or.inl hne)]
    simp only
    rw [condRemove_eq st (env.config.internal_directory_path.join self.path),
      condRemove_eq (fsRemove st (env.config.internal_directory_path.join self.path))
        (env.config.target_directory_path.join self.path)]
  refine ⟨hupd, ?_, ?_, ?_⟩
  · intro hnodup
    rw [fsExists, fsRemove, fsRemove]
    simp only
    by_cases hpe : env.config.internal_directory_path.join self.path =
        env.config.target_directory_path.join self.path
    · rw [← hpe]
      have h1 : alookup (aerase st.fs (env.config.internal_directory_path.join self.path))
          (env.config.internal_directory_path.join self.path) = none :=
        alookup_aerase_self st.fs _ hnodup
      rw [aerase_of_not_mem _ _ h1, h1]
      rfl
    · rw [alookup_aerase_ne _ _ _ hpe, alookup_aerase_self st.fs _ hnodup]
      rfl
  · intro er st4 hlk hM hC hcr
    constructor
    · rw [process_succ, hlk]
      simp only
      rw [hupd, hcr]
    · have hCdel : CacheAvoids (fsRemove (fsRemove st
          (env.config.internal_directory_path.join self.path))
          (env.config.target_directory_path.join self.path)) self.name := hC
      have h2 := (create_avoid_of_collect f env self.name hM
        (collect_avoid_of_process f env self.name (process_avoid env self.name hM f)))
        self.name _ _ st4 hCdel hcr
      rw [h2.1]
      exact hlk
  · intro f2 st5 hmiss
    rw [update_unfold, hm]
    simp only
    rw [needUpdateCheck_unfold, if_pos (Or.inr (by rw [hmiss]; exact Bool.false_ne_true))]
    simp only
    rw [condRemove_eq st5 (env.config.internal_directory_path.join self.path),
      condRemove_eq (fsRemove st5 (env.config.internal_directory_path.join self.path))
        (env.config.target_directory_path.join self.path)]

/-- Witness for C10: the stale entry for `a` is rebuilt; `update`
equals `create` run on the state with both artifacts deleted first. -/
theorem c10_delete_before_recreate_witness :
    update 1 wEnv wEntryStale wStFresh =
      (match create 1 wEnv wEntryStale.name
          (fsRemove (fsRemove wStFresh
              (wEnv.config.internal_directory_path.join wEntryStale.path))
            (wEnv.config.target_directory_path.join wEntryStale.path)) with
        | (.ok entry, st4) => (.ok (some entry), st4)
        | (.error e, st4) => (.error e, st4)) :=
  (c10_delete_before_recreate 1 wEnv wEntryStale wStFresh wDataA (by decide) (by decide)).1

/-! ## Freshness lemmas -/

theorem FreshD_mono (env : Env) : ∀ d d2 n st, d ≤ d2 → FreshD env d n st → FreshD env d2 n st := by
  intro d
  induction d with
  | zero =>
    intro d2 n st hle h
    rw [FreshD] at h
    exact h.elim
  | succ d ih =>
    intro d2 n st hle h
    match d2, hle with
    | d2 + 1, hle =>
      rw [FreshD] at h ⊢
      obtain ⟨e, h1, h2, h3, h4⟩ := h
      refine ⟨e, h1, h2, h3, ?_⟩
      revert h4
      rcases hs : e.data.source with fp | ftd <;> intro h4 <;> simp only at h4 ⊢
      · exact h4
      · exact fun i hi => ih d2 i st (Nat.succ_le_succ_iff.mp hle) (h4 i hi)

theorem FreshD_preserve (env : Env) : ∀ d m st st1,
    (∀ k e, alookup st.cache k = some e → alookup st1.cache k = some e) →
    (∀ p, (alookup st.fs p).isSome = true → (alookup st1.fs p).isSome = true) →
    (∀ p b, alookup st.fs (env.config.source_directory_path.join p) = some b →
      alookup st1.fs (env.config.source_directory_path.join p) = some b) →
    FreshD env d m st → FreshD env d m st1 := by
  intro d
  induction d with
  | zero =>
    intro m st st1 hc hex hsrc h
    rw [FreshD] at h
    exact h.elim
  | succ d ih =>
    intro m st st1 hc hex hsrc h
    rw [FreshD] at h ⊢
    obtain ⟨e, h1, h2, h3, h4⟩ := h
    refine ⟨e, hc m e h1, h2, ?_, ?_⟩
    · rw [fsExists] at h3 ⊢
      exact hex _ h3
    · revert h4
      rcases hs : e.data.source with fp | ftd <;> intro h4 <;> simp only at h4 ⊢
      · obtain ⟨b, hb1, hb2⟩ := h4
        exact ⟨b, hsrc fp b hb1, hb2⟩
      · exact fun i hi => ih i st st1 hc hex hsrc (h4 i hi)

theorem FreshD_entry (env : Env) (d : Nat) (n : Name) (st : PackState)
    (h : FreshD env (d + 1) n st) :
    ∃ e, alookup st.cache n = some e := by
  rw [FreshD] at h
  obtain ⟨e, h1, -⟩ := h
  exact ⟨e, h1⟩

theorem StepExt_refl (env : Env) (st : PackState) : StepExt env st st :=
  ⟨fun _ _ h => h, fun _ h => h, fun _ _ h _ => h, le_refl _⟩

theorem StepExt_trans (env : Env) (a b c : PackState)
    (h1 : StepExt env a b) (h2 : StepExt env b c) : StepExt env a c := by
  obtain ⟨c1, e1, p1, u1⟩ := h1
  obtain ⟨c2, e2, p2, u2⟩ := h2
  refine ⟨fun k e0 hk => c2 k e0 (c1 k e0 hk), fun p hp => e2 p (e1 p hp), ?_, le_trans u1 u2⟩
  intro p bb hb hd
  refine p2 p bb (p1 p bb hb hd) ?_
  rcases hd with hd | ⟨m, dm, k, hm, hk, hp⟩
  · exact Or.inl hd
  · exact Or.inr ⟨m, dm, k, hm, lt_of_lt_of_le hk u1, hp⟩

theorem FreshD_of_StepExt (env : Env) (d : Nat) (m : Name) (st st1 : PackState)
    (hDS : DirsSeparated env) (hx : StepExt env st st1)
    (h : FreshD env d m st) : FreshD env d m st1 := by
  obtain ⟨hc, hex, hpres, -⟩ := hx
  refine FreshD_preserve env d m st st1 hc hex ?_ h
  intro p b hb
  refine hpres _ b hb (Or.inl ?_)
  intro q hq hcontra
  exact (hDS q p hq).1 hcontra.symm

theorem RunInv_of_StepExt (env : Env) (st st1 : PackState)
    (hDS : DirsSeparated env) (hx : StepExt env st st1)
    (hcacheEq : st1.cache = st.cache)
    (hinv : RunInv env st) : RunInv env st1 := by
  intro n e hn
  rw [hcacheEq] at hn
  obtain ⟨h1, ⟨k, hk1, hk2⟩, h3, h4, d, h5⟩ := hinv n e hn
  exact ⟨h1, ⟨k, lt_of_lt_of_le hk1 hx.2.2.2, hk2⟩, h3, h4, d,
    FreshD_of_StepExt env d n st st1 hDS hx h5⟩

/-! ## Transport of freshness and the invariant across single effects -/

theorem FreshD_write_internal (env : Env) (hDS : DirsSeparated env) (d : Nat) (m : Name)
    (st : PackState) (q : RPath) (hq : pathBad q = false) (b : Bytes)
    (h : FreshD env d m st) :
    FreshD env d m (fsWrite st (env.config.internal_directory_path.join q) b) := by
  refine FreshD_preserve env d m st _ (fun k e hk => hk) ?_ ?_ h
  · intro p hp
    exact alookup_ainsert_isSome st.fs (env.config.internal_directory_path.join q) p b hp
  · intro p bb hb
    have hne : env.config.source_directory_path.join p
        ≠ env.config.internal_directory_path.join q :=
      fun hcontra => (hDS q p hq).1 hcontra.symm
    show alookup (ainsert st.fs (env.config.internal_directory_path.join q) b)
        (env.config.source_directory_path.join p) = some bb
    rw [alookup_ainsert_ne st.fs (env.config.internal_directory_path.join q)
      (env.config.source_directory_path.join p) b hne]
    exact hb

theorem RunInv_write_internal (env : Env) (hDS : DirsSeparated env) (st : PackState)
    (q : RPath) (hq : pathBad q = false) (b : Bytes)
    (hinv : RunInv env st) :
    RunInv env (fsWrite st (env.config.internal_directory_path.join q) b) := by
  intro n e hn
  obtain ⟨h1, ⟨k, hk1, hk2⟩, h3, h4, d, h5⟩ := hinv n e hn
  exact ⟨h1, ⟨k, hk1, hk2⟩, h3, h4, d, FreshD_write_internal env hDS d n st q hq b h5⟩

theorem RunInv_bump (env : Env) (st : PackState) (c : Nat) (hc : st.uuidCount ≤ c)
    (hinv : RunInv env st) : RunInv env { st with uuidCount := c } := by
  intro n e hn
  obtain ⟨h1, ⟨k, hk1, hk2⟩, h3, h4, d, h5⟩ := hinv n e hn
  refine ⟨h1, ⟨k, lt_of_lt_of_le hk1 hc, hk2⟩, h3, h4, d, ?_⟩
  exact FreshD_preserve env d n st _ (fun k2 e2 hk => hk) (fun p hp => hp)
    (fun p bb hb => hb) h5

theorem StepExt_bump (env : Env) (st : PackState) (c : Nat) (hc : st.uuidCount ≤ c) :
    StepExt env st { st with uuidCount := c } :=
  ⟨fun _ _ h => h, fun _ h => h, fun _ _ h _ => h, hc⟩

theorem StepExt_write_fresh (env : Env) (hPI : PathsInjective env) (st st2 : PackState)
    (hx : StepExt env st st2) (nm : Name) (data : AssetData) (k0 : Nat)
    (hman : alookup env.manifest.assets nm = some data)
    (hk : st.uuidCount ≤ k0)
    (hbad : pathBad (composeOutputPath data.output_base_path nm (env.uuidGen k0)
      data.extension) = false) (b : Bytes) :
    StepExt env st (fsWrite st2 (env.config.internal_directory_path.join
      (composeOutputPath data.output_base_path nm (env.uuidGen k0) data.extension)) b) := by
  obtain ⟨c1, e1, p1, u1⟩ := hx
  refine ⟨c1, ?_, ?_, u1⟩
  · intro p hp
    exact alookup_ainsert_isSome st2.fs _ p b (e1 p hp)
  · intro p bb hb hd
    have hpres := p1 p bb hb hd
    have hne : p ≠ env.config.internal_directory_path.join
        (composeOutputPath data.output_base_path nm (env.uuidGen k0) data.extension) := by
      rcases hd with hd | ⟨m, dm, k, hm, hklt, hpe⟩
      · exact hd _ hbad
      · intro hcontra
        rw [hpe] at hcontra
        have hkne : k ≠ k0 := fun he => absurd (he ▸ hklt) (not_lt_of_le hk)
        exact (hPI m dm nm data k k0 hm hman (Or.inl hkne)).1 hcontra
    show alookup (ainsert st2.fs _ b) p = some bb
    rw [alookup_ainsert_ne st2.fs _ p b hne]
    exact hpres

theorem FreshD_reinsert (env : Env) (st : PackState) (nm : Name) (e : AssetCacheEntry)
    (hdata : ∀ eIn, alookup st.cache nm = some eIn → eIn.data = e.data)
    (hname : e.name = nm)
    (hman : alookup env.manifest.assets e.name = some e.data)
    (hex2 : (alookup st.fs (env.config.internal_directory_path.join e.path)).isSome = true)
    (hsrcE : ∀ p, e.data.source = .file p → ∃ b,
        alookup st.fs (env.config.source_directory_path.join p) = some b
        ∧ e.file_hash = some (env.hashFn b)) :
    ∀ d m, FreshD env d m st → FreshD env d m { st with cache := ainsert st.cache nm e } := by
  intro d
  induction d with
  | zero =>
    intro m h
    rw [FreshD] at h
    exact h.elim
  | succ d ih =>
    intro m h
    rw [FreshD] at h ⊢
    obtain ⟨em, he, hm, hex, hsrc⟩ := h
    by_cases hmn : m = nm
    · subst hmn
      have hd := hdata em he
      refine ⟨e, ?_, hman, ?_, ?_⟩
      · exact alookup_ainsert_self st.cache m e
      · rw [fsExists]
        exact hex2
      · revert hsrc
        rw [hd]
        rcases hs : e.data.source with fp | ftd <;> intro hsrc <;> simp only at hsrc ⊢
        · exact hsrcE fp hs
        · exact fun i hi => ih i (hsrc i hi)
    · refine ⟨em, ?_, hm, hex, ?_⟩
      · rw [alookup_ainsert_ne st.cache nm m e hmn]
        exact he
      · revert hsrc
        rcases hs : em.data.source with fp | ftd <;> intro hsrc <;> simp only at hsrc ⊢
        · exact hsrc
        · exact fun i hi => ih i (hsrc i hi)

theorem RunInv_reinsert (env : Env) (st : PackState) (nm : Name) (e : AssetCacheEntry)
    (hinv : RunInv env st)
    (hdata : ∀ eIn, alookup st.cache nm = some eIn → eIn.data = e.data)
    (hname : e.name = nm)
    (hprov : ∃ k, k < st.uuidCount ∧ e.path =
      composeOutputPath e.data.output_base_path nm (env.uuidGen k) e.data.extension)
    (hbad : pathBad e.path = false)
    (hman : alookup env.manifest.assets nm = some e.data)
    (hex2 : (alookup st.fs (env.config.internal_directory_path.join e.path)).isSome = true)
    (hsrcE : ∀ p, e.data.source = .file p → ∃ b,
        alookup st.fs (env.config.source_directory_path.join p) = some b
        ∧ e.file_hash = some (env.hashFn b))
    (hfresh : ∃ D, FreshD env D nm { st with cache := ainsert st.cache nm e }) :
    RunInv env { st with cache := ainsert st.cache nm e } := by
  intro n en hn
  by_cases hnm : n = nm
  · subst hnm
    have hself : alookup (ainsert st.cache n e) n = some e := alookup_ainsert_self st.cache n e
    have hen : en = e := by
      have := hself.symm.trans hn
      exact (Option.some.inj this).symm
    subst hen
    exact ⟨hname, hprov, hbad, hman, hfresh⟩
  · have hlu : alookup st.cache n = some en := by
      have : alookup (ainsert st.cache nm e) n = alookup st.cache n :=
        alookup_ainsert_ne st.cache nm n e hnm
      exact this.symm.trans hn
    obtain ⟨h1, ⟨k, hk1, hk2⟩, h3, h4, d, h5⟩ := hinv n en hlu
    exact ⟨h1, ⟨k, hk1, hk2⟩, h3, h4, d,
      FreshD_reinsert env st nm e hdata hname (hname ▸ hman) hex2 hsrcE d n h5⟩

/-! ## The clean-run analysis: sub-lemmas of the fuel induction -/

theorem run1_hasUpd (env : Env) (g : Nat) (ih : Run1OK env g) :
    ∀ names st r st2, RunInv env st → (∀ i ∈ names, ∃ d, FreshD env d i st) →
    hasUpdatedInputs g env names st = (r, st2) →
    (∃ er, r = .error er) ∨
    (r = .ok false ∧ st2 = st ∧ ∀ i ∈ names, ∃ d, d ≤ g ∧ FreshD env d i st) := by
  intro names
  induction names with
  | nil =>
    intro st r st2 hinv hfresh h
    rw [hasUpdatedInputs_nil] at h
    simp only [Prod.mk.injEq] at h
    refine Or.inr ⟨h.1.symm, h.2.symm, ?_⟩
    intro i hi
    exact absurd hi (List.not_mem_nil i)
  | cons nm rest ihl =>
    intro st r st2 hinv hfresh h
    rw [hasUpdatedInputs_cons] at h
    rcases hpr : process g env nm st with ⟨r1, st1⟩
    rw [hpr] at h
    rcases r1 with er | ⟨e1, ch⟩
    · simp only [Prod.mk.injEq] at h
      exact Or.inl ⟨er, h.1.symm⟩
    · simp only at h
      obtain ⟨d0, hd0⟩ := hfresh nm (List.mem_cons_self nm rest)
      rcases d0 with _ | d0
      · rw [FreshD] at hd0
        exact hd0.elim
      obtain ⟨e0, he0⟩ := FreshD_entry env d0 nm st hd0
      obtain ⟨hinv1, hx1, ⟨d1, hd1le, hd1⟩, hkey, hsame⟩ := ih nm st e1 ch st1 hinv hpr
      obtain ⟨hch, hst1, he1⟩ := hsame e0 he0
      subst hch
      rw [hst1] at h hd1
      simp only [Bool.false_eq_true, if_false] at h
      have hfr : ∀ i ∈ rest, ∃ d, FreshD env d i st :=
        fun i hi => hfresh i (List.mem_cons_of_mem nm hi)
      rcases ihl st r st2 hinv hfr h with her | ⟨h1, h2, h3⟩
      · exact Or.inl her
      · refine Or.inr ⟨h1, h2, ?_⟩
        intro i hi
        rcases List.mem_cons.mp hi with rfl | hi2
        · exact ⟨d1, hd1le, hd1⟩
        · exact h3 i hi2

theorem run1_needCheck (env : Env) (g : Nat) (ih : Run1OK env g)
    (self : AssetCacheEntry) (st : PackState) (r : Except AssetErrorType Bool) (st2 : PackState)
    (hinv : RunInv env st)
    (hself : alookup st.cache self.name = some self)
    (hfr : ∃ d, FreshD env d self.name st)
    (h : needUpdateCheck g env self self.data st = (r, st2)) :
    (∃ er, r = .error er) ∨
    (r = .ok false ∧ st2 = st ∧ ∃ d, d ≤ g + 1 ∧ FreshD env d self.name st) := by
  obtain ⟨d0, hd0⟩ := hfr
  rcases d0 with _ | d0
  · rw [FreshD] at hd0
    exact hd0.elim
  rw [FreshD] at hd0
  obtain ⟨e0, he0, hman0, hex0, hsrc0⟩ := hd0
  have he0self : e0 = self := Option.some.inj (he0.symm.trans hself)
  subst he0self
  rw [needUpdateCheck_unfold] at h
  have hcond : ¬ (e0.data ≠ e0.data ∨
      ¬ fsExists st (env.config.internal_directory_path.join e0.path) = true) := by
    rintro (hc | hc)
    · exact hc rfl
    · exact hc hex0
  rw [if_neg hcond] at h
  revert hsrc0 h
  rcases hs : e0.data.source with fp | ftd <;> intro hsrc0 h <;> simp only at hsrc0 h
  · obtain ⟨b, hb, hh⟩ := hsrc0
    rw [hb] at h
    simp only at h
    rw [hh] at h
    simp only at h
    have hdec : decide (env.hashFn b ≠ env.hashFn b) = false :=
      decide_eq_false (fun hc => hc rfl)
    rw [hdec] at h
    simp only [Prod.mk.injEq] at h
    refine Or.inr ⟨h.1.symm, h.2.symm, 1, by omega, ?_⟩
    rw [FreshD]
    refine ⟨e0, he0, hman0, hex0, ?_⟩
    rw [hs]
    exact ⟨b, hb, hh⟩
  · have hfr2 : ∀ i ∈ ftd.input_names, ∃ d, FreshD env d i st :=
      fun i hi => ⟨d0, hsrc0 i hi⟩
    rcases run1_hasUpd env g ih ftd.input_names st r st2 hinv hfr2 h with her | ⟨h1, h2, h3⟩
    · exact Or.inl her
    · refine Or.inr ⟨h1, h2, g + 1, le_refl _, ?_⟩
      rw [FreshD]
      refine ⟨e0, he0, hman0, hex0, ?_⟩
      rw [hs]
      simp only
      intro i hi
      obtain ⟨d, hdle, hd⟩ := h3 i hi
      exact FreshD_mono env d g i st hdle hd

theorem run1_update (env : Env) (g : Nat) (ih : Run1OK env g)
    (self : AssetCacheEntry) (st : PackState)
    (r : Except AssetErrorType (Option AssetCacheEntry)) (st2 : PackState)
    (hinv : RunInv env st)
    (hself : alookup st.cache self.name = some self)
    (h : update g env self st = (r, st2)) :
    (∃ er, r = .error er) ∨
    (r = .ok none ∧ st2 = st ∧ ∃ d, d ≤ g + 1 ∧ FreshD env d self.name st) := by
  obtain ⟨h1n, hprov, hbad, hman, hfr⟩ := hinv self.name self hself
  rw [update_unfold, hman] at h
  simp only at h
  rcases hnc : needUpdateCheck g env self self.data st with ⟨rc, stc⟩
  rw [hnc] at h
  rcases run1_needCheck env g ih self st rc stc hinv hself hfr hnc with ⟨er, hrc⟩ | ⟨hrc, hstc, hdd⟩
  · subst hrc
    simp only [Prod.mk.injEq] at h
    exact Or.inl ⟨er, h.1.symm⟩
  · subst hrc
    simp only [Prod.mk.injEq] at h
    exact Or.inr ⟨h.1.symm, h.2.symm.trans hstc, hdd⟩

theorem run1_collect (env : Env) (g : Nat) (hDS : DirsSeparated env) (ih : Run1OK env g) :
    ∀ names st r st2, RunInv env st →
    collectInputPaths g env names st = (r, st2) →
    (∃ er, r = .error er) ∨
    (∃ paths, r = .ok paths ∧ RunInv env st2 ∧ StepExt env st st2
      ∧ ∀ i ∈ names, ∃ d, d ≤ g ∧ FreshD env d i st2) := by
  intro names
  induction names with
  | nil =>
    intro st r st2 hinv h
    rw [collectInputPaths_nil] at h
    simp only [Prod.mk.injEq] at h
    refine Or.inr ⟨[], h.1.symm, ?_, ?_, ?_⟩
    · rw [← h.2]
      exact hinv
    · rw [← h.2]
      exact StepExt_refl env st
    · intro i hi
      exact absurd hi (List.not_mem_nil i)
  | cons nm rest ihl =>
    intro st r st2 hinv h
    rw [collectInputPaths_cons] at h
    rcases hpr : process g env nm st with ⟨r1, st1⟩
    rw [hpr] at h
    rcases r1 with er | ⟨e1, ch⟩
    · simp only [Prod.mk.injEq] at h
      exact Or.inl ⟨er, h.1.symm⟩
    · simp only at h
      obtain ⟨hinv1, hx1, ⟨d1, hd1le, hd1⟩, hkey1, hsame1⟩ := ih nm st e1 ch st1 hinv hpr
      rcases hcr : collectInputPaths g env rest st1 with ⟨r2, st2a⟩
      rw [hcr] at h
      rcases ihl st1 r2 st2a hinv1 hcr with ⟨er2, hr2⟩ | ⟨paths, hr2, hinv2, hx2, hfr2⟩
      · subst hr2
        simp only [Prod.mk.injEq] at h
        exact Or.inl ⟨er2, h.1.symm⟩
      · subst hr2
        simp only [Prod.mk.injEq] at h
        obtain ⟨hr, hst⟩ := h
        refine Or.inr ⟨env.config.internal_directory_path.join e1.path :: paths, hr.symm, ?_, ?_, ?_⟩
        · rw [← hst]
          exact hinv2
        · rw [← hst]
          exact StepExt_trans env st st1 st2a hx1 hx2
        · intro i hi
          rw [← hst]
          rcases List.mem_cons.mp hi with rfl | hi2
          · exact ⟨d1, hd1le, FreshD_of_StepExt env d1 i st1 st2a hDS hx2 hd1⟩
          · exact hfr2 i hi2

theorem FreshD_succ_intro (env : Env) (d : Nat) (n : Name) (st : PackState)
    (e : AssetCacheEntry)
    (he : alookup st.cache n = some e)
    (hman : alookup env.manifest.assets e.name = some e.data)
    (hex : fsExists st (env.config.internal_directory_path.join e.path) = true)
    (hsrc : ∀ p, e.data.source = .file p → ∃ b,
        alookup st.fs (env.config.source_directory_path.join p) = some b
        ∧ e.file_hash = some (env.hashFn b))
    (hfil : ∀ ftd, e.data.source = .filtered ftd → ∀ i ∈ ftd.input_names, FreshD env d i st) :
    FreshD env (d + 1) n st := by
  rw [FreshD]
  refine ⟨e, he, hman, hex, ?_⟩
  rcases hs : e.data.source with fp | ftd <;> simp only
  · exact hsrc fp hs
  · exact hfil ftd hs

theorem run1_create (env : Env) (g : Nat) (hPI : PathsInjective env) (hDS : DirsSeparated env)
    (ih : Run1OK env g) (nm : Name) (st : PackState)
    (r : Except AssetErrorType AssetCacheEntry) (st2 : PackState)
    (hinv : RunInv env st)
    (h : create g env nm st = (r, st2)) :
    (∃ er, r = .error er) ∨
    (∃ e, r = .ok e ∧ RunInv env st2 ∧ StepExt env st st2
      ∧ e.name = nm ∧ alookup env.manifest.assets nm = some e.data
      ∧ pathBad e.path = false
      ∧ (∃ k, st.uuidCount ≤ k ∧ k < st2.uuidCount
          ∧ e.path = composeOutputPath e.data.output_base_path nm (env.uuidGen k) e.data.extension)
      ∧ RunInv env { st2 with cache := ainsert st2.cache nm e }
      ∧ (∃ d, d ≤ g + 1 ∧ FreshD env d nm { st2 with cache := ainsert st2.cache nm e })) := by
  rw [create_unfold] at h
  rcases hm : alookup env.manifest.assets nm with _ | data
  · rw [hm] at h
    simp only [Prod.mk.injEq] at h
    exact Or.inl ⟨_, h.1.symm⟩
  rw [hm] at h
  simp only at h
  have hinv1 : RunInv env ({ st with uuidCount := st.uuidCount + 1 } : PackState) :=
    RunInv_bump env st (st.uuidCount + 1) (Nat.le_succ _) hinv
  have hx1 : StepExt env st ({ st with uuidCount := st.uuidCount + 1 } : PackState) :=
    StepExt_bump env st (st.uuidCount + 1) (Nat.le_succ _)
  split at h
  · simp only [Prod.mk.injEq] at h
    exact Or.inl ⟨_, h.1.symm⟩
  · rename_i hpb
    have hbad : pathBad (composeOutputPath data.output_base_path nm
        (env.uuidGen st.uuidCount) data.extension) = false := by
      simpa using hpb
    rcases hs : data.source with fp | ftd
    · -- File source
      rw [hs] at h
      simp only at h
      split at h
      · simp only [Prod.mk.injEq] at h
        exact Or.inl ⟨_, h.1.symm⟩
      · rename_i b hsrc
        split at h
        · rename_i hrb
          simp only [fsWrite] at hrb
          rw [alookup_ainsert_self] at hrb
          exact absurd hrb (by simp)
        · rename_i b2 hrb
          simp only [fsWrite] at hrb
          rw [alookup_ainsert_self] at hrb
          have hb2 : b2 = b := (Option.some.inj hrb).symm
          subst hb2
          simp only [Prod.mk.injEq] at h
          obtain ⟨hr, hst⟩ := h
          subst hst
          have hlookO : alookup (fsWrite ({ st with uuidCount := st.uuidCount + 1 } : PackState)
              (env.config.internal_directory_path.join (composeOutputPath data.output_base_path
                nm (env.uuidGen st.uuidCount) data.extension)) b2).fs
              (env.config.internal_directory_path.join (composeOutputPath data.output_base_path
                nm (env.uuidGen st.uuidCount) data.extension)) = some b2 :=
            alookup_ainsert_self st.fs _ b2
          have hneS : env.config.source_directory_path.join fp
              ≠ env.config.internal_directory_path.join (composeOutputPath data.output_base_path
                nm (env.uuidGen st.uuidCount) data.extension) :=
            fun hcontra => (hDS _ fp hbad).1 hcontra.symm
          have hlookS : alookup (fsWrite ({ st with uuidCount := st.uuidCount + 1 } : PackState)
              (env.config.internal_directory_path.join (composeOutputPath data.output_base_path
                nm (env.uuidGen st.uuidCount) data.extension)) b2).fs
              (env.config.source_directory_path.join fp) = some b2 := by
            show alookup (ainsert st.fs _ b2) _ = some b2
            rw [alookup_ainsert_ne st.fs _ _ b2 hneS]
            exact hsrc
          have hex2 : (alookup (fsWrite ({ st with uuidCount := st.uuidCount + 1 } : PackState)
              (env.config.internal_directory_path.join (composeOutputPath data.output_base_path
                nm (env.uuidGen st.uuidCount) data.extension)) b2).fs
              (env.config.internal_directory_path.join (composeOutputPath data.output_base_path
                nm (env.uuidGen st.uuidCount) data.extension))).isSome = true := by
            rw [hlookO]
            rfl
          have hdata : ∀ eIn, alookup (fsWrite ({ st with uuidCount := st.uuidCount + 1 } :
              PackState) (env.config.internal_directory_path.join (composeOutputPath
                data.output_base_path nm (env.uuidGen st.uuidCount) data.extension)) b2).cache nm
              = some eIn → eIn.data = data := by
            intro eIn hIn
            exact (Option.some.inj (hm.symm.trans (hinv nm eIn hIn).2.2.2.1)).symm
          have hsrcE : ∀ p, data.source = AssetSource.file p → ∃ b,
              alookup (fsWrite ({ st with uuidCount := st.uuidCount + 1 } : PackState)
                (env.config.internal_directory_path.join (composeOutputPath data.output_base_path
                  nm (env.uuidGen st.uuidCount) data.extension)) b2).fs
                (env.config.source_directory_path.join p) = some b
              ∧ some (env.hashFn b2) = some (env.hashFn b) := by
            intro p hp
            have hfp : fp = p := AssetSource.file.inj (hs.symm.trans hp)
            subst hfp
            exact ⟨b2, hlookS, rfl⟩
          have hfilE : ∀ ftd, data.source = AssetSource.filtered ftd → ∀ i ∈ ftd.input_names,
              FreshD env 0 i ({ (fsWrite ({ st with uuidCount := st.uuidCount + 1 } : PackState)
                (env.config.internal_directory_path.join (composeOutputPath data.output_base_path
                  nm (env.uuidGen st.uuidCount) data.extension)) b2) with
                  cache := ainsert (fsWrite ({ st with uuidCount := st.uuidCount + 1 } : PackState)
                    (env.config.internal_directory_path.join (composeOutputPath
                      data.output_base_path nm (env.uuidGen st.uuidCount) data.extension))
                    b2).cache nm
                    { name := nm, data := data, path := composeOutputPath data.output_base_path
                        nm (env.uuidGen st.uuidCount) data.extension,
                      file_hash := some (env.hashFn b2) } }) := by
            intro ftd hc
            exact absurd (hs.symm.trans hc) (fun hcc => AssetSource.noConfusion hcc)
          have hfd1 : FreshD env 1 nm ({ (fsWrite ({ st with uuidCount := st.uuidCount + 1 } :
              PackState) (env.config.internal_directory_path.join (composeOutputPath
                data.output_base_path nm (env.uuidGen st.uuidCount) data.extension)) b2) with
              cache := ainsert (fsWrite ({ st with uuidCount := st.uuidCount + 1 } : PackState)
                (env.config.internal_directory_path.join (composeOutputPath data.output_base_path
                  nm (env.uuidGen st.uuidCount) data.extension)) b2).cache nm
                { name := nm, data := data, path := composeOutputPath data.output_base_path
                    nm (env.uuidGen st.uuidCount) data.extension,
                  file_hash := some (env.hashFn b2) } }) := by
            refine FreshD_succ_intro env 0 nm _ _ (alookup_ainsert_self _ nm _) hm ?_ hsrcE hfilE
            rw [fsExists]
            exact hex2
          refine Or.inr ⟨_, hr.symm, ?_, ?_, rfl, rfl, hbad,
            ⟨st.uuidCount, le_refl _, Nat.lt_succ_self _, rfl⟩, ?_, 1, by omega, hfd1⟩
          · exact RunInv_write_internal env hDS _ _ hbad b2 hinv1
          · exact StepExt_write_fresh env hPI st _ hx1 nm data st.uuidCount hm (le_refl _) hbad b2
          · exact RunInv_reinsert env _ nm _ (RunInv_write_internal env hDS _ _ hbad b2 hinv1)
              hdata rfl ⟨st.uuidCount, Nat.lt_succ_self _, rfl⟩ hbad hm hex2 hsrcE ⟨1, hfd1⟩
    · -- Filtered source
      rw [hs] at h
      simp only at h
      rcases hc : collectInputPaths g env ftd.input_names
          ({ st with uuidCount := st.uuidCount + 1 } : PackState) with ⟨cr, stc⟩
      rw [hc] at h
      rcases cr with er | paths
      · simp only [Prod.mk.injEq] at h
        exact Or.inl ⟨er, h.1.symm⟩
      simp only at h
      rcases run1_collect env g hDS ih ftd.input_names
          ({ st with uuidCount := st.uuidCount + 1 } : PackState) (.ok paths) stc hinv1 hc with
        ⟨er, hco⟩ | ⟨paths2, hpz, hinvc, hxc, hfrc⟩
      · exact Except.noConfusion hco
      split at h
      · simp only [Prod.mk.injEq] at h
        exact Or.inl ⟨_, h.1.symm⟩
      · split at h
        · simp only [Prod.mk.injEq] at h
          exact Or.inl ⟨_, h.1.symm⟩
        · split at h
          · simp only [Prod.mk.injEq] at h
            exact Or.inl ⟨_, h.1.symm⟩
          · rename_i inputsBytes hrif outBytes hfilter
            simp only [Prod.mk.injEq] at h
            obtain ⟨hr, hst⟩ := h
            subst hst
            have hcountc : st.uuidCount + 1 ≤ stc.uuidCount := hxc.2.2.2
            have hxc2 : StepExt env st stc :=
              StepExt_trans env st ({ st with uuidCount := st.uuidCount + 1 } : PackState) stc
                hx1 hxc
            have hlookO : alookup (fsWrite stc
                (env.config.internal_directory_path.join (composeOutputPath data.output_base_path
                  nm (env.uuidGen st.uuidCount) data.extension)) outBytes).fs
                (env.config.internal_directory_path.join (composeOutputPath data.output_base_path
                  nm (env.uuidGen st.uuidCount) data.extension)) = some outBytes :=
              alookup_ainsert_self stc.fs _ outBytes
            have hex2 : (alookup (fsWrite stc
                (env.config.internal_directory_path.join (composeOutputPath data.output_base_path
                  nm (env.uuidGen st.uuidCount) data.extension)) outBytes).fs
                (env.config.internal_directory_path.join (composeOutputPath data.output_base_path
                  nm (env.uuidGen st.uuidCount) data.extension))).isSome = true := by
              rw [hlookO]
              rfl
            have hinvw : RunInv env (fsWrite stc
                (env.config.internal_directory_path.join (composeOutputPath data.output_base_path
                  nm (env.uuidGen st.uuidCount) data.extension)) outBytes) :=
              RunInv_write_internal env hDS stc _ hbad outBytes hinvc
            have hdata : ∀ eIn, alookup (fsWrite stc
                (env.config.internal_directory_path.join (composeOutputPath data.output_base_path
                  nm (env.uuidGen st.uuidCount) data.extension)) outBytes).cache nm
                = some eIn → eIn.data = data := by
              intro eIn hIn
              exact (Option.some.inj (hm.symm.trans (hinvc nm eIn hIn).2.2.2.1)).symm
            have hsrcE : ∀ p, data.source = AssetSource.file p → ∃ b,
                alookup (fsWrite stc
                  (env.config.internal_directory_path.join (composeOutputPath
                    data.output_base_path nm (env.uuidGen st.uuidCount) data.extension))
                  outBytes).fs (env.config.source_directory_path.join p) = some b
                ∧ (none : Option Bytes) = some (env.hashFn b) := by
              intro p hp
              exact absurd (hs.symm.trans hp) (fun hcc => AssetSource.noConfusion hcc)
            have hfw : ∀ i ∈ ftd.input_names, ∃ d, d ≤ g ∧ FreshD env d i (fsWrite stc
                (env.config.internal_directory_path.join (composeOutputPath data.output_base_path
                  nm (env.uuidGen st.uuidCount) data.extension)) outBytes) := by
              intro i hi
              obtain ⟨d, hdle, hd⟩ := hfrc i hi
              exact ⟨d, hdle, FreshD_write_internal env hDS d i stc _ hbad outBytes hd⟩
            have hfilE : ∀ ftd2, data.source = AssetSource.filtered ftd2 →
                ∀ i ∈ ftd2.input_names, FreshD env g i ({ (fsWrite stc
                  (env.config.internal_directory_path.join (composeOutputPath
                    data.output_base_path nm (env.uuidGen st.uuidCount) data.extension))
                  outBytes) with
                  cache := ainsert (fsWrite stc
                    (env.config.internal_directory_path.join (composeOutputPath
                      data.output_base_path nm (env.uuidGen st.uuidCount) data.extension))
                    outBytes).cache nm
                    { name := nm, data := data, path := composeOutputPath data.output_base_path
                        nm (env.uuidGen st.uuidCount) data.extension,
                      file_hash := none } }) := by
              intro ftd2 hc2
              have hftd : ftd = ftd2 := AssetSource.filtered.inj (hs.symm.trans hc2)
              subst hftd
              intro i hi
              obtain ⟨d, hdle, hd⟩ := hfw i hi
              refine FreshD_mono env d g i _ hdle ?_
              exact FreshD_reinsert env _ nm _ hdata rfl hm hex2 hsrcE d i hd
            have hfdg : FreshD env (g + 1) nm ({ (fsWrite stc
                (env.config.internal_directory_path.join (composeOutputPath
                  data.output_base_path nm (env.uuidGen st.uuidCount) data.extension))
                outBytes) with
                cache := ainsert (fsWrite stc
                  (env.config.internal_directory_path.join (composeOutputPath
                    data.output_base_path nm (env.uuidGen st.uuidCount) data.extension))
                  outBytes).cache nm
                  { name := nm, data := data, path := composeOutputPath data.output_base_path
                      nm (env.uuidGen st.uuidCount) data.extension,
                    file_hash := none } }) := by
              refine FreshD_succ_intro env g nm _ _ (alookup_ainsert_self _ nm _) hm ?_ hsrcE hfilE
              rw [fsExists]
              exact hex2
            refine Or.inr ⟨_, hr.symm, hinvw, ?_, rfl, rfl, hbad,
              ⟨st.uuidCount, le_refl _,
                lt_of_lt_of_le (Nat.lt_succ_self _) hcountc, rfl⟩, ?_, g + 1, le_refl _, hfdg⟩
            · exact StepExt_write_fresh env hPI st stc hxc2 nm data st.uuidCount hm
                (le_refl _) hbad outBytes
            · exact RunInv_reinsert env _ nm _ hinvw hdata rfl
                ⟨st.uuidCount, lt_of_lt_of_le (Nat.lt_succ_self _) hcountc, rfl⟩
                hbad hm hex2 hsrcE ⟨g + 1, hfdg⟩

theorem run1_process (env : Env) (hPI : PathsInjective env) (hDS : DirsSeparated env) :
    ∀ g, Run1OK env g := by
  intro g
  induction g with
  | zero =>
    intro n st e ch st1 hinv hp
    rw [process_zero] at hp
    simp only [Prod.mk.injEq] at hp
    exact Except.noConfusion hp.1
  | succ g ih =>
    intro n st e ch st1 hinv hp
    rw [process_succ] at hp
    rcases hlu : alookup st.cache n with _ | entry
    · rw [hlu] at hp
      simp only at hp
      rcases hcr : create g env n st with ⟨rc, stc⟩
      rw [hcr] at hp
      rcases rc with er | e2
      · simp only [Prod.mk.injEq] at hp
        exact Except.noConfusion hp.1
      simp only [Prod.mk.injEq, Except.ok.injEq] at hp
      obtain ⟨⟨he2, hch⟩, hst1⟩ := hp
      subst hch
      subst hst1
      subst he2
      rcases run1_create env g hPI hDS ih n st (.ok e2) stc hinv hcr with
        ⟨er, hco⟩ | ⟨e3, hok, hinvc, hxc, hnm, hmanc, hbadc, hprovc, hinvI, d, hdle, hfd⟩
      · exact Except.noConfusion hco
      have he3 : e3 = e2 := (Except.ok.inj hok).symm
      subst he3
      refine ⟨hinvI, ?_, ⟨d, hdle, hfd⟩, alookup_ainsert_self stc.cache n e3, ?_⟩
      · obtain ⟨c1, e1, p1, u1⟩ := hxc
        refine ⟨?_, e1, p1, u1⟩
        intro k e0 hk
        have hkn : k ≠ n := by
          intro hkeq
          rw [hkeq, hlu] at hk
          exact Option.noConfusion hk
        show alookup (ainsert stc.cache n e3) k = some e0
        rw [alookup_ainsert_ne stc.cache n k e3 hkn]
        exact c1 k e0 hk
      · intro e0 h0
        exact Option.noConfusion h0
    · rw [hlu] at hp
      simp only at hp
      have hname : entry.name = n := (hinv n entry hlu).1
      rcases hup : update g env entry st with ⟨ru, stu⟩
      rw [hup] at hp
      have hself : alookup st.cache entry.name = some entry := by
        rw [hname]
        exact hlu
      rcases run1_update env g ih entry st ru stu hinv hself hup with
        ⟨er, hru⟩ | ⟨hru, hstu, d, hdle, hfd⟩
      · subst hru
        simp only [Prod.mk.injEq] at hp
        exact Except.noConfusion hp.1
      · subst hru
        simp only [Prod.mk.injEq, Except.ok.injEq] at hp
        obtain ⟨⟨hee, hcc⟩, hss⟩ := hp
        subst hcc
        subst hss
        rw [hname] at hfd
        refine ⟨?_, ?_, ?_, ?_, ?_⟩
        · rw [hstu]
          exact hinv
        · rw [hstu]
          exact StepExt_refl env st
        · rw [hstu]
          exact ⟨d, hdle, hfd⟩
        · rw [hstu, ← hee]
          exact hlu
        · intro e0 h0
          exact ⟨rfl, hstu, hee.symm.trans (Option.some.inj h0)⟩

theorem FreshD_write_target (env : Env) (hDS : DirsSeparated env) (d : Nat) (m : Name)
    (st : PackState) (q : RPath) (hq : pathBad q = false) (b : Bytes)
    (h : FreshD env d m st) :
    FreshD env d m (fsWrite st (env.config.target_directory_path.join q) b) := by
  refine FreshD_preserve env d m st _ (fun k e hk => hk) ?_ ?_ h
  · intro p hp
    exact alookup_ainsert_isSome st.fs (env.config.target_directory_path.join q) p b hp
  · intro p bb hb
    have hne : env.config.source_directory_path.join p
        ≠ env.config.target_directory_path.join q :=
      fun hcontra => (hDS q p hq).2.1 hcontra.symm
    show alookup (ainsert st.fs (env.config.target_directory_path.join q) b)
        (env.config.source_directory_path.join p) = some bb
    rw [alookup_ainsert_ne st.fs (env.config.target_directory_path.join q)
      (env.config.source_directory_path.join p) b hne]
    exact hb

theorem RunInv_write_target (env : Env) (hDS : DirsSeparated env) (st : PackState)
    (q : RPath) (hq : pathBad q = false) (b : Bytes)
    (hinv : RunInv env st) :
    RunInv env (fsWrite st (env.config.target_directory_path.join q) b) := by
  intro n e hn
  obtain ⟨h1, ⟨k, hk1, hk2⟩, h3, h4, d, h5⟩ := hinv n e hn
  exact ⟨h1, ⟨k, hk1, hk2⟩, h3, h4, d, FreshD_write_target env hDS d n st q hq b h5⟩

theorem run1_spp (env : Env) (hPI : PathsInjective env) (hDS : DirsSeparated env) (f : Nat) :
    ∀ names st st1, RunInv env st →
    processPublicAssets f env names st = (.ok (), st1) →
    RunInv env st1
    ∧ (∀ k e0, alookup st.cache k = some e0 → alookup st1.cache k = some e0)
    ∧ (∀ m dm k b, alookup env.manifest.assets m = some dm → k < st.uuidCount →
        pathBad (composeOutputPath dm.output_base_path m (env.uuidGen k) dm.extension) = false →
        alookup st.fs (env.config.internal_directory_path.join
          (composeOutputPath dm.output_base_path m (env.uuidGen k) dm.extension)) = some b →
        alookup st1.fs (env.config.internal_directory_path.join
          (composeOutputPath dm.output_base_path m (env.uuidGen k) dm.extension)) = some b)
    ∧ (∀ m e b, alookup st.cache m = some e →
        alookup st.fs (env.config.internal_directory_path.join e.path) = some b →
        alookup st.fs (env.config.target_directory_path.join e.path) = some b →
        alookup st1.fs (env.config.target_directory_path.join e.path) = some b)
    ∧ st.uuidCount ≤ st1.uuidCount
    ∧ (∀ d mm, FreshD env d mm st → FreshD env d mm st1)
    ∧ (∀ m ∈ names, ∃ e b d, alookup st1.cache m = some e ∧ d ≤ f ∧ FreshD env d m st1
        ∧ alookup st1.fs (env.config.internal_directory_path.join e.path) = some b
        ∧ alookup st1.fs (env.config.target_directory_path.join e.path) = some b) := by
  intro names
  induction names with
  | nil =>
    intro st st1 hinv h
    rw [processPublicAssets_nil] at h
    simp only [Prod.mk.injEq] at h
    obtain ⟨-, hst⟩ := h
    subst hst
    exact ⟨hinv, fun k e0 hk => hk, fun m dm k b h1 h2 h3 h4 => h4,
      fun m e b h1 h2 h3 => h3, le_refl _, fun d mm hd => hd,
      fun m hm => absurd hm (List.not_mem_nil m)⟩
  | cons nm rest ihl =>
    intro st st1 hinv h
    rw [processPublicAssets_cons] at h
    rcases hpr : process f env nm st with ⟨r1, stp⟩
    rw [hpr] at h
    rcases r1 with er | ⟨e1, ch⟩
    · simp only [Prod.mk.injEq] at h
      exact Except.noConfusion h.1
    simp only at h
    obtain ⟨hinvp, hxp, ⟨d1, hd1le, hfd1⟩, hkey, hsame⟩ :=
      run1_process env hPI hDS f nm st e1 ch stp hinv hpr
    obtain ⟨hn1, ⟨k1, hk1, hkp1⟩, hbad1, hman1, -⟩ := hinvp nm e1 hkey
    rw [hbad1] at h
    simp only [Bool.false_eq_true, if_false] at h
    split at h
    · simp only [Prod.mk.injEq] at h
      exact Except.noConfusion h.1
    · rename_i b hread
      have hneIT : env.config.internal_directory_path.join e1.path
          ≠ env.config.target_directory_path.join e1.path :=
        (hDS e1.path e1.path hbad1).2.2
      have hreadw : alookup (fsWrite stp (env.config.target_directory_path.join e1.path) b).fs
          (env.config.internal_directory_path.join e1.path) = some b := by
        show alookup (ainsert stp.fs (env.config.target_directory_path.join e1.path) b)
          (env.config.internal_directory_path.join e1.path) = some b
        rw [alookup_ainsert_ne stp.fs (env.config.target_directory_path.join e1.path)
          (env.config.internal_directory_path.join e1.path) b hneIT]
        exact hread
      have htgtw : alookup (fsWrite stp (env.config.target_directory_path.join e1.path) b).fs
          (env.config.target_directory_path.join e1.path) = some b :=
        alookup_ainsert_self stp.fs (env.config.target_directory_path.join e1.path) b
      have hinvw : RunInv env (fsWrite stp (env.config.target_directory_path.join e1.path) b) :=
        RunInv_write_target env hDS stp e1.path hbad1 b hinvp
      obtain ⟨hinv1, hc1, hint1, htgt1, hcnt1, hfp1, hrest⟩ :=
        ihl (fsWrite stp (env.config.target_directory_path.join e1.path) b) st1 hinvw h
      refine ⟨hinv1, ?_, ?_, ?_, ?_, ?_, ?_⟩
      · exact fun k e0 hk => hc1 k e0 (hxp.1 k e0 hk)
      · intro m dm k b2 h1 h2 h3 h4
        have hstp : alookup stp.fs (env.config.internal_directory_path.join
            (composeOutputPath dm.output_base_path m (env.uuidGen k) dm.extension)) = some b2 :=
          hxp.2.2.1 _ b2 h4 (Or.inr ⟨m, dm, k, h1, h2, rfl⟩)
        have hnw : env.config.internal_directory_path.join
            (composeOutputPath dm.output_base_path m (env.uuidGen k) dm.extension)
            ≠ env.config.target_directory_path.join e1.path :=
          (hDS (composeOutputPath dm.output_base_path m (env.uuidGen k) dm.extension)
            e1.path h3).2.2
        refine hint1 m dm k b2 h1 (lt_of_lt_of_le h2 hxp.2.2.2) h3 ?_
        show alookup (ainsert stp.fs (env.config.target_directory_path.join e1.path) b)
          (env.config.internal_directory_path.join
            (composeOutputPath dm.output_base_path m (env.uuidGen k) dm.extension)) = some b2
        rw [alookup_ainsert_ne stp.fs (env.config.target_directory_path.join e1.path)
          (env.config.internal_directory_path.join
            (composeOutputPath dm.output_base_path m (env.uuidGen k) dm.extension)) b hnw]
        exact hstp
      · intro m e b2 h1 h2 h3
        obtain ⟨hnm2, ⟨km, hkm, hkpm⟩, hbadm, hmanm, -⟩ := hinv m e h1
        have h1p : alookup stp.cache m = some e := hxp.1 m e h1
        have h2p : alookup stp.fs (env.config.internal_directory_path.join e.path) = some b2 := by
          refine hxp.2.2.1 _ b2 h2 (Or.inr ⟨m, e.data, km, hmanm, hkm, ?_⟩)
          rw [hkpm]
        have h3p : alookup stp.fs (env.config.target_directory_path.join e.path) = some b2 := by
          refine hxp.2.2.1 _ b2 h3 (Or.inl ?_)
          intro q hq hcontra
          exact (hDS q e.path hq).2.2 hcontra.symm
        by_cases hpq : env.config.target_directory_path.join e.path
            = env.config.target_directory_path.join e1.path
        · by_cases hmn : m = nm
          · subst hmn
            obtain ⟨hch, hstp0, hee⟩ := hsame e h1
            have hb2 : b = b2 := by
              rw [hstp0, hee] at hread
              exact Option.some.inj (hread.symm.trans h2)
            subst hb2
            refine htgt1 m e b h1p ?_ ?_
            · show alookup (ainsert stp.fs
                (env.config.target_directory_path.join e1.path) b)
                (env.config.internal_directory_path.join e.path) = some b
              have hne2 : env.config.internal_directory_path.join e.path
                  ≠ env.config.target_directory_path.join e1.path :=
                (hDS e.path e1.path hbadm).2.2
              rw [alookup_ainsert_ne stp.fs (env.config.target_directory_path.join e1.path)
                (env.config.internal_directory_path.join e.path) b hne2]
              exact h2p
            · show alookup (ainsert stp.fs
                (env.config.target_directory_path.join e1.path) b)
                (env.config.target_directory_path.join e.path) = some b
              rw [hpq]
              exact alookup_ainsert_self stp.fs (env.config.target_directory_path.join e1.path) b
          · exfalso
            have hx := (hPI m e.data nm e1.data km k1 hmanm hman1 (Or.inr hmn)).2
            rw [← hkpm, ← hkp1] at hx
            exact hx hpq
        · refine htgt1 m e b2 h1p ?_ ?_
          · show alookup (ainsert stp.fs
              (env.config.target_directory_path.join e1.path) b)
              (env.config.internal_directory_path.join e.path) = some b2
            have hne2 : env.config.internal_directory_path.join e.path
                ≠ env.config.target_directory_path.join e1.path :=
              (hDS e.path e1.path hbadm).2.2
            rw [alookup_ainsert_ne stp.fs (env.config.target_directory_path.join e1.path)
              (env.config.internal_directory_path.join e.path) b hne2]
            exact h2p
          · show alookup (ainsert stp.fs
              (env.config.target_directory_path.join e1.path) b)
              (env.config.target_directory_path.join e.path) = some b2
            rw [alookup_ainsert_ne stp.fs (env.config.target_directory_path.join e1.path)
              (env.config.target_directory_path.join e.path) b hpq]
            exact h3p
      · exact le_trans hxp.2.2.2 hcnt1
      · intro d mm hd
        exact hfp1 d mm (FreshD_write_target env hDS d mm stp e1.path hbad1 b
          (FreshD_of_StepExt env d mm st stp hDS hxp hd))
      · intro m hm
        rcases List.mem_cons.mp hm with rfl | hm2
        · refine ⟨e1, b, d1, hc1 m e1 hkey, hd1le,
            hfp1 d1 m (FreshD_write_target env hDS d1 m stp e1.path hbad1 b hfd1), ?_, ?_⟩
          · have hres := hint1 m e1.data k1 b hman1 hk1 (by rw [← hkp1]; exact hbad1)
              (by rw [← hkp1]; exact hreadw)
            rw [hkp1]
            exact hres
          · exact htgt1 m e1 b hkey hreadw htgtw
        · exact hrest m hm2

/-! ## The second run: fresh names process to `changed = false` without effects -/

theorem run2_process (env : Env) : ∀ d n st, FreshD env d n st → ∀ f, d ≤ f →
    ∃ e, alookup st.cache n = some e ∧ process f env n st = (.ok (e, false), st) := by
  intro d
  induction d with
  | zero =>
    intro n st hfd
    rw [FreshD] at hfd
    exact hfd.elim
  | succ d ih =>
    intro n st hfd f hdf
    rcases f with _ | g
    · exact absurd hdf (by omega)
    rw [FreshD] at hfd
    obtain ⟨e, he, hman, hex, hsrc⟩ := hfd
    have hdg : d ≤ g := Nat.succ_le_succ_iff.mp hdf
    have hnc : needUpdateCheck g env e e.data st = (.ok false, st) := by
      rw [needUpdateCheck_unfold]
      have hcond : ¬ (e.data ≠ e.data ∨
          ¬ fsExists st (env.config.internal_directory_path.join e.path) = true) := by
        rintro (hc | hc)
        · exact hc rfl
        · exact hc hex
      rw [if_neg hcond]
      revert hsrc
      rcases hs : e.data.source with fp | ftd <;> intro hsrc <;> simp only at hsrc ⊢
      · obtain ⟨b, hb, hh⟩ := hsrc
        rw [hb]
        simp only
        rw [hh]
        simp only
        rw [decide_eq_false (fun hc : env.hashFn b ≠ env.hashFn b => hc rfl)]
      · rw [hasUpdatedInputs_false_iff]
        intro i hi
        obtain ⟨e2, he2, hp2⟩ := ih i st (hsrc i hi) g hdg
        exact ⟨e2, hp2⟩
    have hup : update g env e st = (.ok none, st) := by
      rw [update_unfold, hman]
      simp only
      rw [hnc]
    refine ⟨e, he, ?_⟩
    rw [process_succ, he]
    simp only
    rw [hup]

theorem run2_spp (env : Env) (f : Nat) :
    ∀ names st, RunInv env st →
    (∀ m ∈ names, ∃ e b d, alookup st.cache m = some e ∧ d ≤ f ∧ FreshD env d m st
        ∧ alookup st.fs (env.config.internal_directory_path.join e.path) = some b
        ∧ alookup st.fs (env.config.target_directory_path.join e.path) = some b) →
    processPublicAssets f env names st = (.ok (), st) := by
  intro names
  induction names with
  | nil =>
    intro st hinv hfacts
    rw [processPublicAssets_nil]
  | cons nm rest ihl =>
    intro st hinv hfacts
    obtain ⟨e, b, d, hkey, hdle, hfd, hint, htgt⟩ := hfacts nm (List.mem_cons_self nm rest)
    obtain ⟨e2, he2, hproc⟩ := run2_process env d nm st hfd f hdle
    have hee : e2 = e := Option.some.inj (he2.symm.trans hkey)
    subst hee
    obtain ⟨-, -, hbad, -, -⟩ := hinv nm e2 hkey
    rw [processPublicAssets_cons, hproc]
    simp only
    rw [hbad]
    simp only [Bool.false_eq_true, if_false]
    rw [hint]
    simp only
    have hw : fsWrite st (env.config.target_directory_path.join e2.path) b = st := by
      show ({ st with
        fs := ainsert st.fs (env.config.target_directory_path.join e2.path) b } : PackState) = st
      rw [ainsert_of_lookup_eq st.fs (env.config.target_directory_path.join e2.path) b htgt]
    rw [hw]
    exact ihl st hinv (fun m hm => hfacts m (List.mem_cons_of_mem nm hm))

/-- C8: incremental idempotence.  For a configuration whose UUID stream
allocates collision-free output paths (`PathsInjective`), whose three
directory roots do not alias (`DirsSeparated`), and a starting state
satisfying the clean-build invariant (`RunInv` — in particular the
empty cache of a first run), a successful `pack` run to state `st1` is
followed by a second run that rebuilds nothing: the second `pack`
returns the same success with the final state — cache map, internal
and target directory bytes, entry paths, UUID counter — literally
identical to `st1` and the same cache manifest persisted, and every
`process` call on a public asset returns `changed = false` without
touching the state. -/
theorem c8_second_run_no_rebuild (f : Nat) (env : Env) (st0 st1 : PackState)
    (hPI : PathsInjective env) (hDS : DirsSeparated env)
    (hinv : RunInv env st0)
    (hrun1 : pack f env st0 = { result := .ok (), state := st1,
                                persistedCache := st1.cache }) :
    pack f env st1 = { result := .ok (), state := st1, persistedCache := st1.cache }
    ∧ ∀ n ∈ env.manifest.public_assets, ∃ e,
        process f env n st1 = (.ok (e, false), st1) := by
  rw [pack] at hrun1
  rcases hspp : processPublicAssets f env env.manifest.public_assets st0 with ⟨r, s⟩
  rw [hspp] at hrun1
  simp only [PackOutcome.mk.injEq] at hrun1
  obtain ⟨hr, hs, -⟩ := hrun1
  subst hr
  subst hs
  obtain ⟨hinv1, -, -, -, -, -, hfacts⟩ :=
    run1_spp env hPI hDS f env.manifest.public_assets st0 s hinv hspp
  have hspp2 : processPublicAssets f env env.manifest.public_assets s = (.ok (), s) :=
    run2_spp env f env.manifest.public_assets s hinv1 hfacts
  constructor
  · rw [pack, hspp2]
  · intro n hn
    obtain ⟨e, b, d, hkey, hdle, hfd, -, -⟩ := hfacts n hn
    obtain ⟨e2, he2, hproc⟩ := run2_process env d n s hfd f hdle
    exact ⟨e2, hproc⟩

/-! ## Path computations for the fixture witness -/

theorem splitFirstDot_none (l : List Char) (h : '.' ∉ l) : splitFirstDot l = none := by
  induction l with
  | nil => rfl
  | cons c rest ih =>
    have hc : c ≠ '.' := fun hc => h (hc ▸ List.mem_cons_self c rest)
    have hr : '.' ∉ rest := fun hr => h (List.mem_cons_of_mem c hr)
    rw [splitFirstDot, if_neg (fun hh => hc hh), ih hr]

theorem fileStemExt_nodot (f : List Char) (hne : f ≠ dotdotC) (hd : '.' ∉ f) :
    fileStemExt f = (f, none) := by
  rw [fileStemExt, if_neg hne, splitFirstDot_none]
  intro hmem
  exact hd (List.mem_reverse.mp hmem)

theorem composeOutputPath_nodot (x : Char) (xs u ext : List Char)
    (hx1 : x ≠ '/') (hx2 : x ≠ '.') (hnd : '.' ∉ xs) (hns : '/' ∉ xs)
    (hud : '.' ∉ u) (hus : '/' ∉ u) (hext : ext ≠ []) :
    composeOutputPath none (x :: xs) u ext
      = ⟨false, [(x :: xs) ++ '-' :: (u ++ '.' :: ext)]⟩ := by
  have hslash : '/' ∉ (x :: xs) ++ '-' :: u := by
    intro hmem
    rcases List.mem_append.mp hmem with h1 | h1
    · rcases List.mem_cons.mp h1 with h2 | h2
      · exact hx1 h2.symm
      · exact hns h2
    · rcases List.mem_cons.mp h1 with h2 | h2
      · exact absurd h2 (by decide)
      · exact hus h2
  have hdot : '.' ∉ (x :: xs) ++ '-' :: u := by
    intro hmem
    rcases List.mem_append.mp hmem with h1 | h1
    · rcases List.mem_cons.mp h1 with h2 | h2
      · exact hx2 h2.symm
      · exact hnd h2
    · rcases List.mem_cons.mp h1 with h2 | h2
      · exact absurd h2 (by decide)
      · exact hud h2
  have hne2 : ((x :: xs) ++ '-' :: u) ≠ dotdotC := by
    intro h
    have hx := congrArg List.head? h
    simp only [List.cons_append, List.head?_cons, dotdotC, Option.some.injEq] at hx
    exact hx2 hx
  have hne1 : ((x :: xs) ++ '-' :: u) ≠ dotC := by
    intro h
    have hx := congrArg List.head? h
    simp only [List.cons_append, List.head?_cons, dotC, Option.some.injEq] at hx
    exact hx2 hx
  have hstem : fileStemExt ((x :: xs) ++ '-' :: u) = ((x :: xs) ++ '-' :: u, none) :=
    fileStemExt_nodot _ hne2 hdot
  rw [composeOutputPath, parsePath]
  rw [splitSlash_no_slash _ [] (by simpa using hslash)]
  simp [normalizeParts, RPath.withExtension, hstem, dotC, dotdotC, List.filter,
    hne1, hne2, hext, hx1, hx2]
  rw [show fileStemExt (x :: (xs ++ '-' :: u)) = (x :: (xs ++ '-' :: u), none) from by
    simpa using hstem]
  simp

theorem wUuid_nodot (i : Nat) : '.' ∉ wUuid i := by
  intro h
  rw [wUuid] at h
  exact absurd (List.eq_of_mem_replicate h) (by decide)

theorem wUuid_noslash (i : Nat) : '/' ∉ wUuid i := by
  intro h
  rw [wUuid] at h
  exact absurd (List.eq_of_mem_replicate h) (by decide)

theorem wComposeSingle (x : Char) (hx1 : x ≠ '/') (hx2 : x ≠ '.') (i : Nat) :
    composeOutputPath none [x] (wUuid i) ['t']
      = ⟨false, [x :: '-' :: (wUuid i ++ ['.', 't'])]⟩ := by
  have h := composeOutputPath_nodot x [] (wUuid i) ['t'] hx1 hx2 (by decide) (by decide)
    (wUuid_nodot i) (wUuid_noslash i) (by decide)
  simpa using h

theorem wJoin_single (dir : RPath) (hd : dir.root = false) (hdc : dir.components ≠ [])
    (c : List Char) (hc : c ≠ dotC) :
    dir.join ⟨false, [c]⟩ = ⟨false, dir.components ++ [c]⟩ := by
  rw [RPath.join]
  rw [if_neg (by simp), if_pos (Or.inr hdc)]
  rw [hd]
  simp [List.filter, hc]

theorem wComp_ne (x1 x2 : Char) (i j : Nat) (hij : i ≠ j ∨ x1 ≠ x2) :
    (x1 :: '-' :: (wUuid i ++ ['.', 't'])) ≠ (x2 :: '-' :: (wUuid j ++ ['.', 't'])) := by
  intro h
  injection h with h1 h2
  rcases hij with hij | hij
  · injection h2 with h3 h4
    have hlen := congrArg List.length h4
    simp only [wUuid, List.length_append, List.length_replicate] at hlen
    omega
  · exact hij h1

theorem wJoin_ne (dir : RPath) (hd : dir.root = false) (hdc : dir.components ≠ [])
    (x1 x2 : Char) (i j : Nat) (hij : i ≠ j ∨ x1 ≠ x2) :
    dir.join ⟨false, [x1 :: '-' :: (wUuid i ++ ['.', 't'])]⟩
    ≠ dir.join ⟨false, [x2 :: '-' :: (wUuid j ++ ['.', 't'])]⟩ := by
  have hc1 : (x1 :: '-' :: (wUuid i ++ ['.', 't'])) ≠ dotC := by
    intro h
    injection h with h1 h2
    exact List.noConfusion h2
  have hc2 : (x2 :: '-' :: (wUuid j ++ ['.', 't'])) ≠ dotC := by
    intro h
    injection h with h1 h2
    exact List.noConfusion h2
  rw [wJoin_single dir hd hdc _ hc1, wJoin_single dir hd hdc _ hc2]
  intro h
  have h2 := congrArg RPath.components h
  simp only at h2
  have h3 := List.append_cancel_left h2
  injection h3 with h4 h5
  exact wComp_ne x1 x2 i j hij h4

theorem wPI_case (x1 x2 : Char) (i j : Nat) (hij : i ≠ j ∨ x1 ≠ x2)
    (hx11 : x1 ≠ '/') (hx12 : x1 ≠ '.') (hx21 : x2 ≠ '/') (hx22 : x2 ≠ '.') :
    wEnv.config.internal_directory_path.join
        (composeOutputPath none [x1] (wUuid i) ['t'])
      ≠ wEnv.config.internal_directory_path.join
        (composeOutputPath none [x2] (wUuid j) ['t'])
    ∧ wEnv.config.target_directory_path.join
        (composeOutputPath none [x1] (wUuid i) ['t'])
      ≠ wEnv.config.target_directory_path.join
        (composeOutputPath none [x2] (wUuid j) ['t']) := by
  rw [wComposeSingle x1 hx11 hx12 i, wComposeSingle x2 hx21 hx22 j]
  exact ⟨wJoin_ne wDirI rfl (by decide) x1 x2 i j hij,
    wJoin_ne wDirT rfl (by decide) x1 x2 i j hij⟩

theorem wPathsInjective : PathsInjective wEnv := by
  intro n1 d1 n2 d2 i j h1 h2 hij
  have hm1 := alookup_mem _ _ _ h1
  have hm2 := alookup_mem _ _ _ h2
  simp only [wEnv, wManifest, List.mem_cons, List.not_mem_nil, or_false,
    Prod.mk.injEq] at hm1 hm2
  rcases hm1 with ⟨rfl, rfl⟩ | ⟨rfl, rfl⟩ | ⟨rfl, rfl⟩ <;>
    rcases hm2 with ⟨rfl, rfl⟩ | ⟨rfl, rfl⟩ | ⟨rfl, rfl⟩
  · rcases hij with hij | hij
    · exact wPI_case 'a' 'a' i j (Or.inl hij) (by decide) (by decide) (by decide) (by decide)
    · exact absurd rfl hij
  · exact wPI_case 'a' 'b' i j (Or.inr (by decide)) (by decide) (by decide) (by decide) (by decide)
  · exact wPI_case 'a' 'o' i j (Or.inr (by decide)) (by decide) (by decide) (by decide) (by decide)
  · exact wPI_case 'b' 'a' i j (Or.inr (by decide)) (by decide) (by decide) (by decide) (by decide)
  · rcases hij with hij | hij
    · exact wPI_case 'b' 'b' i j (Or.inl hij) (by decide) (by decide) (by decide) (by decide)
    · exact absurd rfl hij
  · exact wPI_case 'b' 'o' i j (Or.inr (by decide)) (by decide) (by decide) (by decide) (by decide)
  · exact wPI_case 'o' 'a' i j (Or.inr (by decide)) (by decide) (by decide) (by decide) (by decide)
  · exact wPI_case 'o' 'b' i j (Or.inr (by decide)) (by decide) (by decide) (by decide) (by decide)
  · rcases hij with hij | hij
    · exact wPI_case 'o' 'o' i j (Or.inl hij) (by decide) (by decide) (by decide) (by decide)
    · exact absurd rfl hij

theorem wDirs_ne (c1 c2 : List Char) (hc : c1 ≠ c2) (p q : RPath) (hp : p.root = false) :
    RPath.join ⟨false, [c1]⟩ p ≠ RPath.join ⟨false, [c2]⟩ q := by
  have hj1 : RPath.join ⟨false, [c1]⟩ p
      = ⟨false, [c1] ++ p.components.filter (fun c => decide (c ≠ dotC))⟩ := by
    rw [RPath.join]
    rw [if_neg (by rw [hp]; exact Bool.false_ne_true), if_pos (Or.inr (by simp))]
  rcases hq : q.root with _ | _
  · have hj2 : RPath.join ⟨false, [c2]⟩ q
        = ⟨false, [c2] ++ q.components.filter (fun c => decide (c ≠ dotC))⟩ := by
      rw [RPath.join]
      rw [if_neg (by rw [hq]; exact Bool.false_ne_true), if_pos (Or.inr (by simp))]
    rw [hj1, hj2]
    intro h
    have h2 := congrArg RPath.components h
    simp only [List.cons_append, List.nil_append] at h2
    injection h2 with h3 h4
    exact hc h3
  · have hj2 : RPath.join ⟨false, [c2]⟩ q = q := by
      rw [RPath.join, if_pos hq]
    rw [hj1, hj2]
    intro h
    have h2 := congrArg RPath.root h
    rw [hq] at h2
    exact Bool.noConfusion h2

theorem wDirsSeparated : DirsSeparated wEnv := by
  intro p q hp
  have hpr : p.root = false := by
    rw [pathBad] at hp
    rcases Bool.or_eq_false_iff.mp hp with ⟨h1, -⟩
    rw [RPath.hasRoot] at h1
    exact h1
  exact ⟨wDirs_ne (['i', 'n', 't']) (['s', 'r', 'c']) (by decide) p q hpr,
    wDirs_ne (['t', 'g', 't']) (['s', 'r', 'c']) (by decide) p q hpr,
    wDirs_ne (['i', 'n', 't']) (['t', 'g', 't']) (by decide) p q hpr⟩

theorem wRunInv0 : RunInv wEnv wSt0 := by
  intro n e h
  exact Option.noConfusion h

/-- Witness for C8: on the fixture (public `Filtered` asset `o` over
the `File` asset `a`), the UUID stream and directory roots satisfy the
side conditions, the empty starting cache satisfies the invariant, a
first `pack` at fuel 2 succeeds with final state `wStRun1`, and the
theorem then yields: the second run returns the literally identical
outcome and `process` on the public asset reports `changed = false`
with the state untouched. -/
theorem c8_second_run_no_rebuild_witness :
    (PathsInjective wEnv ∧ DirsSeparated wEnv ∧ RunInv wEnv wSt0
      ∧ pack 2 wEnv wSt0 = { result := .ok (), state := wStRun1,
                             persistedCache := wStRun1.cache })
    ∧ (pack 2 wEnv wStRun1 = { result := .ok (), state := wStRun1,
                               persistedCache := wStRun1.cache }
       ∧ ∀ n ∈ wEnv.manifest.public_assets, ∃ e,
           process 2 wEnv n wStRun1 = (.ok (e, false), wStRun1)) :=
  ⟨⟨wPathsInjective, wDirsSeparated, wRunInv0, by decide⟩,
   c8_second_run_no_rebuild 2 wEnv wSt0 wStRun1 wPathsInjective wDirsSeparated wRunInv0
     (by decide)⟩

end ArtushakWebAssets
